import Mathlib

/-!
# primelogger: the prime-search pipeline of `prime_generator_v1.cpp`

A shallow embedding of the primality engine (`build_small_primes`, `modpow`,
`millerRabinTest`, `isPrime`), the candidate generator (`pow10`,
`generate_random_number_with_digits`), the progress store (`save_state`,
`load_state`), the control loop `producer` with `signalHandler` and the final
save of `main`, the worker loop `consumer`, and the thread count of `main`.

Conventions of the embedding.
* `cpp_int` is `Int`.  The C++ operator `%` truncates, so it is `Int.tmod`.
  A division by zero throws in the multiprecision library: it is the result
  `none`.
* `uint32_t` is `Nat` reduced modulo `2 ^ 32` after every arithmetic step.
* A `while`/`for` loop whose trip count is not fixed by its header takes a
  fuel argument; running out of fuel is the result `none`, so a result
  `some v` always means that the loop has left through its own exit.
* Threads are step machines over the shared state; a critical section under
  a mutex and an operation on a `std::atomic` are single steps, and a run is
  a sequence of events in any order.
-/

namespace PrimeLogger

/-! ## Prime utilities -/

/-- The modulus of `uint32_t` arithmetic. -/
def U32_MOD : Nat := 4294967296

/-- The inner loop of `build_small_primes`:
`for (uint32_t j = i * 2; j <= limit; j += i) is_prime[j] = false;`
entered at the current value of `j`. -/
def markMultiples (limit i : Nat) : Nat → Nat → List Bool → Option (List Bool)
  | 0, j, is_prime => if j ≤ limit then none else some is_prime
  | fuel + 1, j, is_prime =>
    if j ≤ limit then
      markMultiples limit i fuel ((j + i) % U32_MOD) (is_prime.set j false)
    else some is_prime

/-- The outer loop of `build_small_primes`:
`for (uint32_t i = 2; i <= limit; ++i) if (is_prime[i]) { push_back(i); ... }`
entered at the current value of `i`.  `inner` is the fuel handed to each run
of the inner loop. -/
def sieveLoop (limit inner : Nat) : Nat → Nat → List Bool → List Nat → Option (List Nat)
  | 0, i, _, small_primes => if i ≤ limit then none else some small_primes
  | fuel + 1, i, is_prime, small_primes =>
    if i ≤ limit then
      if is_prime.getD i false then
        match markMultiples limit i inner ((i * 2) % U32_MOD) is_prime with
        | none => none
        | some is_prime' =>
          sieveLoop limit inner fuel ((i + 1) % U32_MOD) is_prime' (small_primes ++ [i])
      else sieveLoop limit inner fuel ((i + 1) % U32_MOD) is_prime small_primes
    else some small_primes

/-- `build_small_primes(limit)`: the sieve of Eratosthenes, appending to the
global table `small_primes` (passed in and returned). -/
def build_small_primes (fuel limit : Nat) (small_primes : List Nat) : Option (List Nat) :=
  let is_prime := ((List.replicate ((limit + 1) % U32_MOD) true).set 0 false).set 1 false
  sieveLoop limit fuel fuel 2 is_prime small_primes

/-- The loop of `pow10`, with `k` iterations left. -/
def pow10Loop : Nat → Int → Int
  | 0, result => result
  | k + 1, result => pow10Loop k (result * 10)

/-- `pow10(digits)`: `for (int i = 0; i < digits; ++i) result *= 10;` runs
`digits` times when `digits` is positive and not at all otherwise. -/
def pow10 (digits : Int) : Int := pow10Loop digits.toNat 1

/-- The loop of `modpow`, entered with the current `result`, `base` and
`exponent`.  Inside the loop `exponent` is positive, where `exponent & 1` is
`exponent % 2` and `exponent >>= 1` is `exponent / 2`. -/
def modpowLoop (modulus : Int) : Nat → Int → Int → Int → Option Int
  | 0, result, _, exponent => if exponent > 0 then none else some result
  | fuel + 1, result, base, exponent =>
    if exponent > 0 then
      let result' := if exponent % 2 ≠ 0 then (result * base).tmod modulus else result
      modpowLoop modulus fuel result' ((base * base).tmod modulus) (exponent / 2)
    else some result

/-- `modpow(base, exponent, modulus)`.  `base %= modulus` divides by
`modulus`, which throws when `modulus` is zero. -/
def modpow (fuel : Nat) (base exponent modulus : Int) : Option Int :=
  if modulus = 0 then none
  else modpowLoop modulus fuel 1 (base.tmod modulus) exponent

/-- The text `millerRabinTest` writes to `cerr` when `x` became 1. -/
def mrBecameOne (n a : Int) : String :=
  "[Miller-Rabin] FAIL (base " ++ toString a ++ ") — x became 1 during squaring.\n" ++
  "  → n = " ++ toString n ++ "\n"

/-- The text `millerRabinTest` writes to `cerr` when the loop ran out. -/
def mrLoopEnded (n a : Int) : String :=
  "[Miller-Rabin] FAIL (base " ++ toString a ++ ") — loop ended without x == n - 1.\n" ++
  "  → n = " ++ toString n ++ "\n"

/-- The loop `while (d != n - 1)` of `millerRabinTest`, entered with the
current `x` and `d`.  The result carries the text written to `cerr`. -/
def millerRabinLoop (n a : Int) : Nat → Int → Int → Option (Bool × String)
  | 0, _, d => if d ≠ n - 1 then none else some (false, mrLoopEnded n a)
  | fuel + 1, x, d =>
    if d ≠ n - 1 then
      if n = 0 then none
      else
        let x' := (x * x).tmod n
        let d' := d * 2
        if x' = 1 then some (false, mrBecameOne n a)
        else if x' = n - 1 then some (true, "")
        else millerRabinLoop n a fuel x' d'
    else some (false, mrLoopEnded n a)

/-- `millerRabinTest(d, n, a)`: the verdict and the text written to `cerr`. -/
def millerRabinTest (fuel : Nat) (d n a : Int) : Option (Bool × String) :=
  match modpow fuel a d n with
  | none => none
  | some x =>
    if x = 1 ∨ x = n - 1 then some (true, "")
    else millerRabinLoop n a fuel x d

/-- The loop `while ((d & 1) == 0) d >>= 1;` of `isPrime`.  On a `cpp_int`
the low bit is `d % 2` and the shift is `d / 2`. -/
def stripTwos : Nat → Int → Option Int
  | 0, d => if d % 2 = 0 then none else some d
  | fuel + 1, d => if d % 2 = 0 then stripTwos fuel (d / 2) else some d

/-- The Miller-Rabin rung of `isPrime` (lines 151-161). -/
def isPrimeMR (fuel : Nat) (n : Int) : Option (Bool × String) :=
  match stripTwos fuel (n - 1) with
  | none => none
  | some d =>
    match millerRabinTest fuel d n 2 with
    | none => none
    | some (ok, _) =>
      if !ok then some (false, "Failed Miller-Rabin test")
      else some (true, "Probably prime")

/-- The trial-division loop `for (uint32_t p : small_primes)` of `isPrime`;
`rest` is what the code after the loop yields.  `n % p` throws when `p` is
zero. -/
def trialDivision (n : Int) (rest : Option (Bool × String)) :
    List Nat → Option (Bool × String)
  | [] => rest
  | p :: ps =>
    if n = (p : Int) then some (true, "Small prime")
    else if p = 0 then none
    else if n.tmod (p : Int) = 0 then some (false, "Divisible by " ++ toString p)
    else trialDivision n rest ps

/-- The part of `isPrime` after the trial-division loop. -/
def isPrimeTail (fuel : Nat) (n : Int) : Option (Bool × String) :=
  if n < 100000000 then some (true, "Passed trial division (small number)")
  else isPrimeMR fuel n

/-- `isPrime(n, rounds, reason)`: the returned verdict paired with the
`reason` it stores.  `small_primes` is the global table. -/
def isPrime (fuel : Nat) (small_primes : List Nat) (n : Int) (_rounds : Int) :
    Option (Bool × String) :=
  if n < 2 then some (false, "Less than 2")
  else if n = 2 ∨ n = 3 then some (true, "2 or 3")
  else if n.tmod 2 = 0 then some (false, "Even number")
  else trialDivision n (isPrimeTail fuel n) small_primes

/-! ## Specification-level notions -/

/-- The primes up to `limit`, in increasing order. -/
def primesUpTo (limit : Nat) : List Nat := (List.range (limit + 1)).filter Nat.Prime

/-- The invariant of the outer sieve loop before it looks at `i`: the flag
of `m` is set exactly when no prime below `i` is a proper divisor of `m`. -/
def SieveInv (limit i : Nat) (isp : List Bool) : Prop :=
  ∀ m, m ≤ limit →
    (isp.getD m false = true ↔ (2 ≤ m ∧ ∀ p, Nat.Prime p → p < i → p ∣ m → p = m))

/-- The verdict of the trial-division loop when it meets the least prime
factor of `N`. -/
def trialVerdict (N : Nat) : Option (Bool × String) :=
  if N.minFac = N then some (true, "Small prime")
  else some (false, "Divisible by " ++ toString N.minFac)

/-! ## Candidate generator -/

/-- The contract of `boost::random::uniform_int_distribution<cpp_int>` over a
generator state `Gen`: constructed with `lower ≤ upper`, a draw returns some
value of the closed range and the advanced generator. -/
structure UniformIntDistribution (Gen : Type) where
  sample : Int → Int → Gen → Int × Gen
  sample_ge : ∀ (lower upper : Int) (gen : Gen), lower ≤ upper → lower ≤ (sample lower upper gen).1
  sample_le : ∀ (lower upper : Int) (gen : Gen), lower ≤ upper → (sample lower upper gen).1 ≤ upper

/-- `generate_random_number_with_digits(digits, gen)`: the drawn value and the
advanced generator. -/
def generate_random_number_with_digits {Gen : Type} (dist : UniformIntDistribution Gen)
    (digits : Int) (gen : Gen) : Int × Gen :=
  let digits := if digits < 1 then 1 else digits
  let lower := pow10 (digits - 1)
  let upper := pow10 digits - 1
  dist.sample lower upper gen

/-- A distribution over a linear congruential generator, for running the
model: the draw is `lower` plus the state reduced modulo the width of the
range. -/
def lcgDistribution : UniformIntDistribution Nat where
  sample lower upper gen :=
    (lower + (gen : Int) % (upper - lower + 1), (gen * 1103515245 + 12345) % 2147483648)
  sample_ge lower upper gen h := by
    have : 0 ≤ (gen : Int) % (upper - lower + 1) := Int.emod_nonneg _ (by omega)
    simp only
    omega
  sample_le lower upper gen h := by
    have : (gen : Int) % (upper - lower + 1) < upper - lower + 1 :=
      Int.emod_lt_of_pos _ (by omega)
    simp only
    omega

/-! ## Progress state -/

/-- The largest `int`. -/
def INT_MAX : Int := 2147483647

/-- The smallest `int`. -/
def INT_MIN : Int := -2147483648

/-- The characters `std::isspace` accepts in the "C" locale. -/
def isSpace (c : Char) : Bool :=
  c = ' ' || c = '\t' || c = '\n' || c = Char.ofNat 11 || c = Char.ofNat 12 || c = '\r'

/-- The value of a run of decimal digits, most significant first. -/
def digitsValue (ds : List Char) : Nat :=
  ds.foldl (fun acc c => acc * 10 + (c.toNat - 48)) 0

/-- The standard library's `ifs >> digits` for an `int` holding `init`, on
the unread content `s`.  Leading white space is skipped; at the end of the
file the value is left untouched; otherwise an optional sign and a run of
decimal digits are read, a field without digits stores 0, and a value out
of the range of `int` stores the nearest limit.  What follows the digits is
left unread. -/
def extractInt (init : Int) (s : List Char) : Int :=
  match s.dropWhile isSpace with
  | [] => init
  | c :: cs =>
    let negative := c = '-'
    let field := if c = '-' ∨ c = '+' then cs else c :: cs
    let ds := field.takeWhile Char.isDigit
    if ds = [] then 0
    else if negative then
      if (digitsValue ds : Int) > 2147483648 then INT_MIN else - (digitsValue ds : Int)
    else
      if (digitsValue ds : Int) > INT_MAX then INT_MAX else (digitsValue ds : Int)

/-- `save_state(digits)` on the content of `state.txt` (`none`: no file).
`opened` is whether the output stream could be opened; the file is then
truncated and holds the decimal form of `digits` and a newline. -/
def save_state (opened : Bool) (digits : Int) (store : Option String) : Option String :=
  if opened then some (toString digits ++ "\n") else store

/-- `load_state()` on the content of `state.txt` (`none`: the input stream
could not be opened). -/
def load_state (store : Option String) : Int :=
  match store with
  | none => 1
  | some content =>
    let digits := extractInt 1 content.toList
    if digits < 1 then 1 else digits

/-! ## Producer -/

/-- The state the threads share. -/
structure Shared where
  stop_flag : Bool
  found_prime_flag : Bool
  current_digits : Int
  task_queue : List (Int × Int)
  state_file : Option String

/-- The cap `max_digits` of `producer`. -/
def max_digits : Int := 1000000

/-- The first half of the body of the loop of `producer` (lines 192-198): draw a candidate of
`digits` digits and push it, with `digits`, on the task queue. -/
def producer_enqueue {Gen : Type} (dist : UniformIntDistribution Gen) (digits : Int)
    (gen : Gen) (sh : Shared) : Gen × Shared :=
  let r := generate_random_number_with_digits dist digits gen
  (r.2, { sh with task_queue := sh.task_queue ++ [(r.1, digits)] })

/-- The second half of the body of the loop of `producer` (lines 202-209), after the sleep:
`found_prime_flag.exchange(false)` reads and clears the flag, the digit length is reset or
advanced up to the cap, and the result is published in `current_digits`. -/
def producer_update (digits : Int) (sh : Shared) : Int × Shared :=
  let found := sh.found_prime_flag
  let sh1 := { sh with found_prime_flag := false }
  let digits' := if found then 1 else if digits < max_digits then digits + 1 else digits
  (digits', { sh1 with current_digits := digits' })

/-! ## Main -/

/-- The constant `MAX_THREADS`. -/
def MAX_THREADS : Int := 64

/-- The conversion of an `unsigned` to `int` in `int num_threads = thread::hardware_concurrency()`:
reduction modulo `2 ^ 32` into the signed range. -/
def toInt32 (u : Nat) : Int :=
  if u % 4294967296 < 2147483648 then ((u % 4294967296 : Nat) : Int)
  else ((u % 4294967296 : Nat) : Int) - 4294967296

/-- The standard library's `atoi` on an argument: leading white space, an optional sign and a
run of decimal digits; 0 when there are no digits.  A value out of the range of `int` has no
defined result in C: it is `none`. -/
def atoi (s : String) : Option Int :=
  match s.toList.dropWhile isSpace with
  | [] => some 0
  | c :: cs =>
    let field := if c = '-' ∨ c = '+' then cs else c :: cs
    let ds := field.takeWhile Char.isDigit
    let v : Int := if c = '-' then - (digitsValue ds : Int) else (digitsValue ds : Int)
    if INT_MIN ≤ v ∧ v ≤ INT_MAX then some v else none

/-- The value of `num_threads` in `main` (lines 279-283) for the core count the host reports
(an `unsigned`) and the command-line arguments after the program name; `none` when `atoi` has
no defined result. -/
def main_num_threads (hardware_concurrency : Nat) (args : List String) : Option Int :=
  let num_threads := toInt32 hardware_concurrency
  let num_threads := if num_threads ≤ 0 ∨ num_threads > MAX_THREADS then 4 else num_threads
  match args with
  | [] => some num_threads
  | arg1 :: _ => atoi arg1

/-- The number of `consumer` threads `main` starts (lines 303-304):
`for (int i = 0; i < num_threads - 1; ++i)`.  The subtraction overflows at the smallest `int`,
which is undefined: `none`. -/
def main_consumers_started (hardware_concurrency : Nat) (args : List String) : Option Nat :=
  match main_num_threads hardware_concurrency args with
  | none => none
  | some num_threads => if num_threads = INT_MIN then none else some (num_threads - 1).toNat

/-- The primes below 100. -/
def primesBelow100 : List Nat :=
  [2, 3, 5, 7, 11, 13, 17, 19, 23, 29, 31, 37, 41, 43, 47, 53, 59, 61, 67, 71, 73, 79, 83, 89, 97]

/-- The product of the primes below 100. -/
def primorial97 : Nat := 2305567963945518424753102147331756070

/-- The number of `m` in `n, n + 1, ..., n + k - 1` coprime to `P`, added to `acc`. -/
def countCoprime (P : Nat) : Nat → Nat → Nat → Nat
  | 0, _, acc => acc
  | k + 1, n, acc => countCoprime P k (n + 1) (if Nat.gcd n P = 1 then acc + 1 else acc)

/-! ## The control loop and the interrupt handler as a step machine -/

/-- Where the `producer` thread stands: before `load_state()`, at the test `while (!stop_flag)`
with its local `digits`, in `sleep_for` after the push, or past its `save_state(digits)`. -/
inductive ProducerPC where
  | start
  | head (digits : Int)
  | sleeping (digits : Int)
  | done
  deriving DecidableEq

/-- The `producer` thread (its place, its generator) and the state it shares. -/
structure System (Gen : Type) where
  pc : ProducerPC
  gen : Gen
  sh : Shared

/-- The globals as initialised at program start (lines 25-27), with the given `state.txt`. -/
def initialSystem {Gen : Type} (gen : Gen) (store : Option String) : System Gen :=
  ⟨.start, gen, ⟨false, false, 1, [], store⟩⟩

/-- One step of `producer` (lines 185-213): the load, the loop test followed by the push or by
the final `save_state(digits)`, or the update after the sleep. -/
def producer_step {Gen : Type} (dist : UniformIntDistribution Gen) (opened : Bool)
    (s : System Gen) : System Gen :=
  match s.pc with
  | .start => { s with pc := .head (load_state s.sh.state_file) }
  | .head digits =>
    if s.sh.stop_flag then
      { s with pc := .done,
               sh := { s.sh with state_file := save_state opened digits s.sh.state_file } }
    else
      let r := producer_enqueue dist digits s.gen s.sh
      { pc := .sleeping digits, gen := r.1, sh := r.2 }
  | .sleeping digits =>
    let r := producer_update digits s.sh
    { s with pc := .head r.1, sh := r.2 }
  | .done => s

/-- `signalHandler` (lines 267-272): set `stop_flag`, then `save_state(current_digits.load())`. -/
def signalHandler (opened : Bool) (sh : Shared) : Shared :=
  { sh with stop_flag := true,
            state_file := save_state opened sh.current_digits sh.state_file }

/-- The `save_state(current_digits.load())` of `main` after the joins (line 310). -/
def main_shutdown (opened : Bool) (sh : Shared) : Shared :=
  { sh with state_file := save_state opened sh.current_digits sh.state_file }

/-- What can happen next: a step of `producer`, the interrupt, or the final save of `main`
(which waits for `producer` to be done). -/
inductive Event where
  | producer
  | interrupt
  | shutdown
  deriving DecidableEq

/-- One event on the system. -/
def system_step {Gen : Type} (dist : UniformIntDistribution Gen) (opened : Bool)
    (e : Event) (s : System Gen) : System Gen :=
  match e with
  | .producer => producer_step dist opened s
  | .interrupt => { s with sh := signalHandler opened s.sh }
  | .shutdown =>
    match s.pc with
    | .done => { s with sh := main_shutdown opened s.sh }
    | _ => s

/-- The system after a sequence of events. -/
def system_run {Gen : Type} (dist : UniformIntDistribution Gen) (opened : Bool)
    (es : List Event) (s : System Gen) : System Gen :=
  es.foldl (fun s e => system_step dist opened e s) s

/-! ## The worker pool as a step machine -/

/-- Where a `consumer` thread stands: at the test `while (!stop_flag)`, in `queue_cv.wait`
under the queue mutex, holding a job it took and is testing, or returned. -/
inductive ConsumerPC where
  | head
  | waiting
  | busy (job : Int × Int)
  | exited
  deriving DecidableEq

/-- Whether a consumer holds a job. -/
def ConsumerPC.isBusy : ConsumerPC → Bool
  | .busy _ => true
  | _ => false

/-- The task queue, the counter `total_tests` and the consumers, with two histories kept for
the statement of the properties: every task pushed, and every pair of thread id and job
taken, both in order. -/
structure Pool where
  stop_flag : Bool
  task_queue : List (Int × Int)
  total_tests : Int
  consumers : List ConsumerPC
  pushed : List (Int × Int)
  popped : List (Nat × (Int × Int))

/-- The value of an `int` after an arithmetic step (`std::atomic<int>` wraps). -/
def wrapInt32 (x : Int) : Int := (x + 2147483648) % 4294967296 - 2147483648

/-- One step of `consumer(thread_id, rounds)` (lines 217-240): the loop test; the wait, which
returns when `stop_flag` is set and otherwise takes the front of a non-empty queue (one
critical section under `queue_mutex`); or the end of the test of the job held, counted by
`total_tests++`.  The test itself and the records written do not touch the queue or the
counter. -/
def consumer_step (thread_id : Nat) (p : Pool) : Pool :=
  match p.consumers[thread_id]? with
  | none => p
  | some .head =>
    { p with consumers := p.consumers.set thread_id (if p.stop_flag then .exited else .waiting) }
  | some .waiting =>
    if p.stop_flag then { p with consumers := p.consumers.set thread_id .exited }
    else
      match p.task_queue with
      | [] => p
      | job :: rest =>
        { p with task_queue := rest,
                 consumers := p.consumers.set thread_id (.busy job),
                 popped := p.popped ++ [(thread_id, job)] }
  | some (.busy _) =>
    { p with total_tests := wrapInt32 (p.total_tests + 1),
             consumers := p.consumers.set thread_id .head }
  | some .exited => p

/-- What can happen next in the pool: `producer` pushes a task (lines 194-198), a consumer
takes a step, or the interrupt sets `stop_flag`. -/
inductive PoolEvent where
  | push (job : Int × Int)
  | consumer (thread_id : Nat)
  | stop

/-- One event on the pool. -/
def pool_step (e : PoolEvent) (p : Pool) : Pool :=
  match e with
  | .push job => { p with task_queue := p.task_queue ++ [job], pushed := p.pushed ++ [job] }
  | .consumer thread_id => consumer_step thread_id p
  | .stop => { p with stop_flag := true }

/-- The pool after a sequence of events. -/
def pool_run (es : List PoolEvent) (p : Pool) : Pool :=
  es.foldl (fun p e => pool_step e p) p

/-- The pool at the start of `N` consumers. -/
def initialPool (N : Nat) : Pool :=
  ⟨false, [], 0, List.replicate N .head, [], []⟩

/-- The invariant of the pool: the tasks pushed are those taken followed by those queued;
`total_tests` counts the jobs taken and no longer held; the thread ids are those of the pool. -/
def PoolInv (N : Nat) (p : Pool) : Prop :=
  p.pushed = p.popped.map Prod.snd ++ p.task_queue ∧
  p.total_tests = wrapInt32 ((p.popped.length : Int) - (p.consumers.countP ConsumerPC.isBusy : Int)) ∧
  p.consumers.length = N ∧
  ∀ e ∈ p.popped, e.1 < N

/-- The textbook notion: `n` is a strong probable prime to base 2 when, writing
`n - 1 = d * 2 ^ s` with `d` odd, either `2 ^ d = 1 (mod n)` or `2 ^ (d * 2 ^ r) = -1 (mod n)`
for some `r` with `0 ≤ r < s`. -/
def StrongProbablePrimeBase2 (n : Nat) : Prop :=
  ∃ d s : Nat, d % 2 = 1 ∧ n - 1 = d * 2 ^ s ∧
    ((2 : Int) ^ d ≡ 1 [ZMOD (n : Int)] ∨
      ∃ r, r < s ∧ (2 : Int) ^ (d * 2 ^ r) ≡ -1 [ZMOD (n : Int)])

/-! ## The program -/

/-- The producer side of the program together with the counters a consumer updates at the end
of a test. -/
structure Program (Gen : Type) where
  sys : System Gen
  total_tests : Int
  total_primes_found : Int

/-- The end of a test in `consumer` (lines 238-240): `total_tests++` and, for a prime,
`total_primes_found++` (`total_test_time_ms`, a clock reading, is left out).  Nothing is
stored into `found_prime_flag`. -/
def consumer_count {Gen : Type} (prime : Bool) (p : Program Gen) : Program Gen :=
  { p with total_tests := wrapInt32 (p.total_tests + 1),
           total_primes_found :=
             if prime then wrapInt32 (p.total_primes_found + 1) else p.total_primes_found }

/-- What can happen next in the program: an event of the producer side, or a consumer ending a
test with the given verdict. -/
inductive ProgramEvent where
  | system (e : Event)
  | tested (prime : Bool)

/-- One event on the program. -/
def program_step {Gen : Type} (dist : UniformIntDistribution Gen) (opened : Bool)
    (e : ProgramEvent) (p : Program Gen) : Program Gen :=
  match e with
  | .system ev => { p with sys := system_step dist opened ev p.sys }
  | .tested prime => consumer_count prime p

/-- The program after a sequence of events. -/
def program_run {Gen : Type} (dist : UniformIntDistribution Gen) (opened : Bool)
    (es : List ProgramEvent) (p : Program Gen) : Program Gen :=
  es.foldl (fun p e => program_step dist opened e p) p

/-- The program at its start, with the given `state.txt`. -/
def initialProgram {Gen : Type} (gen : Gen) (store : Option String) : Program Gen :=
  ⟨initialSystem gen store, 0, 0⟩

/-! ## The sieve -/

theorem getD_set_false (l : List Bool) (j m : Nat) :
    (l.set j false).getD m false = if j = m then false else l.getD m false := by
  simp only [List.getD_eq_getElem?_getD, List.getElem?_set]
  by_cases h : j = m
  · subst h
    by_cases hl : j < l.length <;> simp [hl]
  · simp [h]

theorem markMultiples_spec (limit i : Nat) (hi : 0 < i) (hil : i ≤ limit)
    (hlim : limit < 2147483648) :
    ∀ (fuel j : Nat) (isp : List Bool), i ∣ j → limit + 1 ≤ j + fuel →
      ∃ isp', markMultiples limit i fuel j isp = some isp' ∧
        ∀ m, isp'.getD m false = true ↔
          (isp.getD m false = true ∧ ¬ (j ≤ m ∧ m ≤ limit ∧ i ∣ m)) := by
  intro fuel
  induction fuel with
  | zero =>
    intro j isp _ hf
    refine ⟨isp, ?_, ?_⟩
    · simp only [markMultiples]
      rw [if_neg (by omega)]
    · intro m
      constructor
      · intro h
        exact ⟨h, fun hh => by omega⟩
      · intro h
        exact h.1
  | succ fuel ih =>
    intro j isp hdvd hf
    by_cases hj : j ≤ limit
    · have hmod : (j + i) % U32_MOD = j + i := by
        apply Nat.mod_eq_of_lt
        simp only [U32_MOD]
        omega
      obtain ⟨isp', h1, h2⟩ := ih (j + i) (isp.set j false)
        ((Nat.dvd_add_right hdvd).mpr (dvd_refl i)) (by omega)
      refine ⟨isp', ?_, ?_⟩
      · simp only [markMultiples]
        rw [if_pos hj, hmod]
        exact h1
      · intro m
        rw [h2 m, getD_set_false]
        by_cases hjm : j = m
        · subst hjm
          simp only [if_true]
          constructor
          · intro h
            exact absurd h.1 (by simp)
          · intro h
            exact absurd ⟨le_refl j, hj, hdvd⟩ h.2
        · simp only [if_neg hjm]
          constructor
          · rintro ⟨ha, hb⟩
            refine ⟨ha, ?_⟩
            rintro ⟨h1', h2', h3'⟩
            apply hb
            refine ⟨?_, h2', h3'⟩
            obtain ⟨a, rfl⟩ := hdvd
            obtain ⟨b, rfl⟩ := h3'
            have hab : a < b := by
              by_contra hcon
              have hle : b ≤ a := Nat.le_of_not_lt hcon
              have : i * b ≤ i * a := Nat.mul_le_mul_left i hle
              omega
            have : i * (a + 1) ≤ i * b := Nat.mul_le_mul_left i hab
            rw [Nat.mul_add, Nat.mul_one] at this
            exact this
          · rintro ⟨ha, hb⟩
            refine ⟨ha, ?_⟩
            rintro ⟨h1', h2', h3'⟩
            exact hb ⟨by omega, h2', h3'⟩
    · refine ⟨isp, ?_, ?_⟩
      · simp only [markMultiples]
        rw [if_neg hj]
      · intro m
        constructor
        · intro h
          exact ⟨h, fun hh => by omega⟩
        · intro h
          exact h.1

theorem sieveInv_prime_iff {limit i : Nat} {isp : List Bool} (h : SieveInv limit i isp)
    (hi : i ≤ limit) : isp.getD i false = true ↔ Nat.Prime i := by
  rw [h i hi]
  constructor
  · rintro ⟨h2, hp⟩
    by_contra hnp
    have hmf : Nat.Prime i.minFac := Nat.minFac_prime (by omega)
    have hlt : i.minFac < i := by
      rcases Nat.lt_or_ge i.minFac i with hlt | hge
      · exact hlt
      · exfalso
        have hle : i.minFac ≤ i := Nat.minFac_le (by omega)
        have heq : i.minFac = i := le_antisymm hle hge
        exact hnp (heq ▸ hmf)
    have := hp i.minFac hmf hlt (Nat.minFac_dvd i)
    omega
  · intro hp
    refine ⟨hp.two_le, ?_⟩
    intro p _ hlt _
    exfalso
    rename_i hpp hdvd
    rcases (Nat.Prime.eq_one_or_self_of_dvd hp p hdvd) with h1 | h1
    · exact hpp.one_lt.ne' h1
    · omega

theorem sieveInv_step_prime {limit i : Nat} {isp isp' : List Bool}
    (h : SieveInv limit i isp) (hi : Nat.Prime i)
    (hm : ∀ m, isp'.getD m false = true ↔
      (isp.getD m false = true ∧ ¬ (i * 2 ≤ m ∧ m ≤ limit ∧ i ∣ m))) :
    SieveInv limit (i + 1) isp' := by
  intro m hml
  rw [hm m, h m hml]
  constructor
  · rintro ⟨⟨h2, hp⟩, hn⟩
    refine ⟨h2, ?_⟩
    intro p hpp hlt hdvd
    rcases Nat.lt_succ_iff_lt_or_eq.mp hlt with hlt' | heq
    · exact hp p hpp hlt' hdvd
    · subst heq
      by_contra hne
      apply hn
      refine ⟨?_, hml, hdvd⟩
      obtain ⟨c, rfl⟩ := hdvd
      have hc : 2 ≤ c := by
        rcases c with _ | _ | c
        · omega
        · simp at hne
        · omega
      exact Nat.mul_le_mul_left p hc
  · rintro ⟨h2, hp⟩
    refine ⟨⟨h2, fun p hpp hlt hdvd => hp p hpp (by omega) hdvd⟩, ?_⟩
    rintro ⟨h1, _, h3⟩
    have := hp i hi (by omega) h3
    have := hi.two_le
    omega

theorem sieveInv_step_composite {limit i : Nat} {isp : List Bool}
    (h : SieveInv limit i isp) (hi : ¬ Nat.Prime i) : SieveInv limit (i + 1) isp := by
  intro m hml
  rw [h m hml]
  constructor
  · rintro ⟨h2, hp⟩
    refine ⟨h2, fun p hpp hlt hdvd => ?_⟩
    rcases Nat.lt_succ_iff_lt_or_eq.mp hlt with hlt' | heq
    · exact hp p hpp hlt' hdvd
    · subst heq
      exact absurd hpp hi
  · rintro ⟨h2, hp⟩
    exact ⟨h2, fun p hpp hlt hdvd => hp p hpp (by omega) hdvd⟩

theorem sieveLoop_spec (limit inner : Nat) (hlim : limit < 2147483648)
    (hinner : limit + 1 ≤ inner) :
    ∀ (fuel i : Nat) (isp : List Bool) (sp : List Nat), 2 ≤ i → i ≤ limit + 1 →
      limit + 1 ≤ i + fuel → SieveInv limit i isp →
      sieveLoop limit inner fuel i isp sp =
        some (sp ++ (List.range' i (limit + 1 - i)).filter Nat.Prime) := by
  intro fuel
  induction fuel with
  | zero =>
    intro i isp sp _ hi hf _
    have : limit + 1 - i = 0 := by omega
    simp only [sieveLoop, this]
    rw [if_neg (by omega)]
    simp
  | succ fuel ih =>
    intro i isp sp h2 hi hf hinv
    by_cases hil : i ≤ limit
    · have hsucc : (i + 1) % U32_MOD = i + 1 := by
        apply Nat.mod_eq_of_lt
        simp only [U32_MOD]
        omega
      have hdbl : (i * 2) % U32_MOD = i * 2 := by
        apply Nat.mod_eq_of_lt
        simp only [U32_MOD]
        omega
      have hlen : limit + 1 - i = (limit + 1 - (i + 1)) + 1 := by omega
      by_cases hp : Nat.Prime i
      · have hflag : isp.getD i false = true := (sieveInv_prime_iff hinv hil).mpr hp
        obtain ⟨isp', h1, h2'⟩ := markMultiples_spec limit i (by omega) hil hlim inner (i * 2) isp
          (Dvd.intro 2 rfl) (by omega)
        have hinv' := sieveInv_step_prime hinv hp h2'
        simp only [sieveLoop]
        rw [if_pos hil, if_pos hflag, hdbl, h1]
        simp only []
        rw [hsucc, ih (i + 1) isp' (sp ++ [i]) (by omega) (by omega) (by omega) hinv', hlen,
          List.range'_succ, List.filter_cons_of_pos (by simpa using hp)]
        simp
      · have hflag : ¬ (isp.getD i false = true) := fun hh =>
          hp ((sieveInv_prime_iff hinv hil).mp hh)
        simp only [sieveLoop]
        rw [if_pos hil, if_neg hflag, hsucc,
          ih (i + 1) isp sp (by omega) (by omega) (by omega)
            (sieveInv_step_composite hinv hp), hlen,
          List.range'_succ, List.filter_cons_of_neg (by simpa using hp)]
    · have : limit + 1 - i = 0 := by omega
      simp only [sieveLoop, this]
      rw [if_neg hil]
      simp

theorem sieveInv_init (limit : Nat) (hlim : limit < 2147483648) :
    SieveInv limit 2
      (((List.replicate ((limit + 1) % U32_MOD) true).set 0 false).set 1 false) := by
  have hmod : (limit + 1) % U32_MOD = limit + 1 := by
    apply Nat.mod_eq_of_lt
    simp only [U32_MOD]
    omega
  intro m hml
  rw [hmod, getD_set_false, getD_set_false]
  have hget : (List.replicate (limit + 1) true).getD m false = true := by
    rw [List.getD_eq_getElem?_getD, List.getElem?_replicate]
    simp [Nat.lt_succ_of_le hml]
  constructor
  · intro h
    refine ⟨?_, ?_⟩
    · by_contra hlt
      have : m = 0 ∨ m = 1 := by omega
      rcases this with rfl | rfl <;> simp at h
    · intro p hp hlt _
      exact absurd hp.two_le (by omega)
  · rintro ⟨h2, _⟩
    rw [if_neg (by omega), if_neg (by omega)]
    exact hget

theorem primesUpTo_eq_range' (limit : Nat) (hl : 1 ≤ limit) :
    primesUpTo limit = (List.range' 2 (limit + 1 - 2)).filter Nat.Prime := by
  obtain ⟨k, rfl⟩ : ∃ k, limit = k + 1 := ⟨limit - 1, by omega⟩
  have hk : k + 1 + 1 - 2 = k := by omega
  simp only [primesUpTo, List.range_eq_range']
  rw [hk, List.range'_succ, List.range'_succ,
    List.filter_cons_of_neg (by simp [Nat.not_prime_zero]),
    List.filter_cons_of_neg (by simp [Nat.not_prime_one])]

/-- With enough fuel the sieve terminates and appends exactly the primes up
to `limit`, in increasing order (no `uint32_t` step wraps below `2 ^ 31`). -/
theorem build_small_primes_eq (fuel limit : Nat) (sp : List Nat) (hl : 1 ≤ limit)
    (hlim : limit < 2147483648) (hf : limit + 1 ≤ fuel) :
    build_small_primes fuel limit sp = some (sp ++ primesUpTo limit) := by
  simp only [build_small_primes]
  rw [sieveLoop_spec limit fuel hlim hf fuel 2 _ sp (by omega) (by omega) (by omega)
    (sieveInv_init limit hlim), primesUpTo_eq_range' limit hl]

theorem mem_primesUpTo {limit p : Nat} : p ∈ primesUpTo limit ↔ Nat.Prime p ∧ p ≤ limit := by
  simp only [primesUpTo, List.mem_filter, List.mem_range, decide_eq_true_eq]
  constructor
  · rintro ⟨h1, h2⟩
    exact ⟨h2, by omega⟩
  · rintro ⟨h1, h2⟩
    exact ⟨by omega, h1⟩

theorem markMultiples_mono (limit i : Nat) :
    ∀ (fuel k j : Nat) (isp r : List Bool), markMultiples limit i fuel j isp = some r →
      markMultiples limit i (fuel + k) j isp = some r := by
  intro fuel
  induction fuel with
  | zero =>
    intro k j isp r h
    simp only [markMultiples] at h
    by_cases hj : j ≤ limit
    · rw [if_pos hj] at h
      exact absurd h (by simp)
    · rw [if_neg hj] at h
      cases k with
      | zero => simp only [Nat.add_zero, markMultiples]; rw [if_neg hj]; exact h
      | succ k => simp only [Nat.zero_add, markMultiples]; rw [if_neg hj]; exact h
  | succ fuel ih =>
    intro k j isp r h
    have hk : fuel + 1 + k = (fuel + k) + 1 := by omega
    rw [hk]
    simp only [markMultiples] at h ⊢
    by_cases hj : j ≤ limit
    · rw [if_pos hj] at h ⊢
      exact ih k _ _ r h
    · rw [if_neg hj] at h ⊢
      exact h

theorem sieveLoop_mono (limit inner k1 : Nat) :
    ∀ (fuel k2 i : Nat) (isp : List Bool) (sp r : List Nat),
      sieveLoop limit inner fuel i isp sp = some r →
      sieveLoop limit (inner + k1) (fuel + k2) i isp sp = some r := by
  intro fuel
  induction fuel with
  | zero =>
    intro k2 i isp sp r h
    simp only [sieveLoop] at h
    by_cases hi : i ≤ limit
    · rw [if_pos hi] at h
      exact absurd h (by simp)
    · rw [if_neg hi] at h
      cases k2 with
      | zero => simp only [Nat.add_zero, sieveLoop]; rw [if_neg hi]; exact h
      | succ k => simp only [Nat.zero_add, sieveLoop]; rw [if_neg hi]; exact h
  | succ fuel ih =>
    intro k2 i isp sp r h
    have hk : fuel + 1 + k2 = (fuel + k2) + 1 := by omega
    rw [hk]
    simp only [sieveLoop] at h ⊢
    by_cases hi : i ≤ limit
    · rw [if_pos hi] at h ⊢
      by_cases hflag : isp.getD i false = true
      · rw [if_pos hflag] at h ⊢
        cases hm : markMultiples limit i inner ((i * 2) % U32_MOD) isp with
        | none => rw [hm] at h; exact absurd h (by simp)
        | some isp' =>
          rw [hm] at h
          rw [markMultiples_mono limit i inner k1 _ _ _ hm]
          exact ih k2 _ _ _ r h
      · rw [if_neg hflag] at h ⊢
        exact ih k2 _ _ _ r h
    · rw [if_neg hi] at h ⊢
      exact h

/-- Whatever fuel it was given, a run of the sieve that returns has appended
the primes up to `limit`. -/
theorem build_small_primes_some (fuel limit : Nat) (sp0 sp : List Nat) (hl : 1 ≤ limit)
    (hlim : limit < 2147483648) (h : build_small_primes fuel limit sp0 = some sp) :
    sp = sp0 ++ primesUpTo limit := by
  have h1 : build_small_primes (fuel + (limit + 1)) limit sp0 = some sp := by
    simp only [build_small_primes] at h ⊢
    exact sieveLoop_mono limit fuel (limit + 1) fuel (limit + 1) 2 _ sp0 sp h
  rw [build_small_primes_eq (fuel + (limit + 1)) limit sp0 hl hlim (by omega)] at h1
  exact (Option.some.inj h1).symm

/-! ## Trial division -/

theorem tmod_natCast_eq_zero_iff (N p : Nat) :
    ((N : Int).tmod (p : Int) = 0) ↔ p ∣ N := by
  rw [Int.tmod_eq_emod (Int.natCast_nonneg N) (Int.natCast_nonneg p)]
  constructor
  · intro h
    exact Int.natCast_dvd_natCast.mp (Int.dvd_of_emod_eq_zero h)
  · intro h
    exact Int.emod_eq_zero_of_dvd (Int.natCast_dvd_natCast.mpr h)

theorem trialDivision_range' (N : Nat) (hN : 2 ≤ N) (rest : Option (Bool × String)) :
    ∀ (len a : Nat), (∀ p, Nat.Prime p → p < a → ¬ p ∣ N) →
      trialDivision (N : Int) rest ((List.range' a len).filter Nat.Prime) =
        if N.minFac < a + len then trialVerdict N else rest := by
  have hmf : Nat.Prime N.minFac := Nat.minFac_prime (by omega)
  intro len
  induction len with
  | zero =>
    intro a ha
    have : ¬ N.minFac < a + 0 := fun hlt => ha _ hmf hlt (Nat.minFac_dvd N)
    rw [if_neg this]
    simp [trialDivision]
  | succ len ih =>
    intro a ha
    have hnlt : ¬ N.minFac < a := fun hlt => ha _ hmf hlt (Nat.minFac_dvd N)
    rw [List.range'_succ]
    by_cases hp : Nat.Prime a
    · rw [List.filter_cons_of_pos (by simpa using hp)]
      simp only [trialDivision]
      by_cases hNa : N = a
      · have hmin : N.minFac = N := by
          rw [hNa]
          exact hp.minFac_eq
        rw [if_pos (by exact_mod_cast hNa), if_pos (by omega)]
        simp [trialVerdict, hmin]
      · rw [if_neg (by exact_mod_cast hNa), if_neg hp.pos.ne']
        by_cases hdvd : a ∣ N
        · have hle : N.minFac ≤ a := Nat.minFac_le_of_dvd hp.two_le hdvd
          have hmin : N.minFac = a := by omega
          rw [if_pos ((tmod_natCast_eq_zero_iff N a).mpr hdvd), if_pos (by omega)]
          have hne : ¬ N.minFac = N := by omega
          simp only [trialVerdict]
          rw [if_neg hne, hmin]
        · rw [if_neg (fun h => hdvd ((tmod_natCast_eq_zero_iff N a).mp h))]
          have hstep : ∀ p, Nat.Prime p → p < a + 1 → ¬ p ∣ N := by
            intro p hpp hlt
            rcases Nat.lt_succ_iff_lt_or_eq.mp hlt with h1 | h1
            · exact ha p hpp h1
            · rw [h1]
              exact hdvd
          rw [ih (a + 1) hstep]
          have : a + 1 + len = a + (len + 1) := by omega
          rw [this]
    · rw [List.filter_cons_of_neg (by simpa using hp)]
      have hstep : ∀ p, Nat.Prime p → p < a + 1 → ¬ p ∣ N := by
        intro p hpp hlt
        rcases Nat.lt_succ_iff_lt_or_eq.mp hlt with h1 | h1
        · exact ha p hpp h1
        · rw [h1] at hpp
          exact absurd hpp hp
      rw [ih (a + 1) hstep]
      have : a + 1 + len = a + (len + 1) := by omega
      rw [this]

/-- Trial division against the table of all primes up to `limit`. -/
theorem trialDivision_primesUpTo (N limit : Nat) (hN : 2 ≤ N) (rest : Option (Bool × String)) :
    trialDivision (N : Int) rest (primesUpTo limit) =
      if N.minFac ≤ limit then trialVerdict N else rest := by
  simp only [primesUpTo, List.range_eq_range']
  rw [trialDivision_range' N hN rest (limit + 1) 0 (fun p _ h => absurd h (Nat.not_lt_zero p))]
  by_cases h : N.minFac ≤ limit
  · rw [if_pos h, if_pos (by omega)]
  · rw [if_neg h, if_neg (by omega)]

/-- The behaviour of `isPrime` on an odd `N > 3` with the table of all primes up to
`limit`. -/
theorem isPrime_odd (fuel limit N : Nat) (rounds : Int) (h3 : 3 < N) (hodd : N % 2 = 1) :
    isPrime fuel (primesUpTo limit) (N : Int) rounds =
      if N.minFac ≤ limit then trialVerdict N else isPrimeTail fuel (N : Int) := by
  simp only [isPrime]
  rw [if_neg (by omega), if_neg (by omega),
    if_neg (fun h => by
      have := (tmod_natCast_eq_zero_iff N 2).mp (by exact_mod_cast h)
      omega)]
  exact trialDivision_primesUpTo N limit (by omega) _

/-! ## Miller-Rabin -/

theorem stripTwos_spec :
    ∀ (fuel d : Nat), 0 < d → d < 2 ^ fuel →
      ∃ e s : Nat, stripTwos fuel (d : Int) = some (e : Int) ∧ e % 2 = 1 ∧ e * 2 ^ s = d := by
  intro fuel
  induction fuel with
  | zero =>
    intro d h0 h1
    simp at h1
    omega
  | succ fuel ih =>
    intro d h0 h1
    simp only [stripTwos]
    by_cases hev : d % 2 = 0
    · have hev' : (d : Int) % 2 = 0 := by omega
      have hdiv : (d : Int) / 2 = ((d / 2 : Nat) : Int) := by omega
      rw [if_pos hev', hdiv]
      have hlt : d / 2 < 2 ^ fuel := by
        rw [pow_succ] at h1
        omega
      obtain ⟨e, s, h2, h3, h4⟩ := ih (d / 2) (by omega) hlt
      refine ⟨e, s + 1, h2, h3, ?_⟩
      rw [pow_succ, ← Nat.mul_assoc, h4]
      omega
    · have hev' : ¬ (d : Int) % 2 = 0 := by omega
      rw [if_neg hev']
      exact ⟨d, 0, rfl, by omega, by simp⟩

theorem modpowLoop_spec (M : Nat) (hM : 0 < M) :
    ∀ (fuel : Nat) (r b : Int) (e : Nat), 0 ≤ r → 0 ≤ b → e < 2 ^ fuel →
      ∃ x : Int, modpowLoop (M : Int) fuel r b (e : Int) = some x ∧ 0 ≤ x ∧
        (0 < e → x < M) ∧ (e = 0 → x = r) ∧
        ((x : ZMod M) = (r : ZMod M) * (b : ZMod M) ^ e) := by
  intro fuel
  induction fuel with
  | zero =>
    intro r b e hr _ he
    have he0 : e = 0 := by simpa using he
    subst he0
    refine ⟨r, ?_, hr, fun h => absurd h (by omega), fun _ => rfl, by simp⟩
    simp [modpowLoop]
  | succ fuel ih =>
    intro r b e hr hb he
    have hMi : (0 : Int) ≤ (M : Int) := Int.natCast_nonneg M
    have hMpos : (0 : Int) < (M : Int) := by exact_mod_cast hM
    by_cases he0 : e = 0
    · subst he0
      refine ⟨r, ?_, hr, fun h => absurd h (by omega), fun _ => rfl, by simp⟩
      simp [modpowLoop]
    · have hepos : (e : Int) > 0 := by omega
      have hdiv : (e : Int) / 2 = ((e / 2 : Nat) : Int) := by omega
      have hlt : e / 2 < 2 ^ fuel := by
        rw [pow_succ] at he
        omega
      have hbb : (b * b).tmod (M : Int) = (b * b) % (M : Int) :=
        Int.tmod_eq_emod (mul_nonneg hb hb) hMi
      have hrb : (r * b).tmod (M : Int) = (r * b) % (M : Int) :=
        Int.tmod_eq_emod (mul_nonneg hr hb) hMi
      have hbb0 : 0 ≤ (b * b) % (M : Int) := Int.emod_nonneg _ hMpos.ne'
      have hrb0 : 0 ≤ (r * b) % (M : Int) := Int.emod_nonneg _ hMpos.ne'
      simp only [modpowLoop]
      rw [if_pos hepos, hdiv, hbb, hrb]
      by_cases hodd : e % 2 = 1
      · have hodd' : (e : Int) % 2 ≠ 0 := by omega
        rw [if_pos hodd']
        obtain ⟨x, h1, h2, h3, h4, h5⟩ := ih ((r * b) % (M : Int)) ((b * b) % (M : Int)) (e / 2)
          hrb0 hbb0 hlt
        refine ⟨x, h1, h2, ?_, fun h => absurd h he0, ?_⟩
        · intro _
          by_cases hz : e / 2 = 0
          · rw [h4 hz]
            exact Int.emod_lt_of_pos _ hMpos
          · exact h3 (by omega)
        · rw [h5, ZMod.intCast_mod, ZMod.intCast_mod]
          push_cast
          have hsplit : e = 2 * (e / 2) + 1 := by omega
          conv_rhs => rw [hsplit]
          rw [pow_succ, pow_mul]
          ring
      · have hodd' : ¬ (e : Int) % 2 ≠ 0 := by omega
        rw [if_neg hodd']
        obtain ⟨x, h1, h2, h3, h4, h5⟩ := ih r ((b * b) % (M : Int)) (e / 2) hr hbb0 hlt
        have hz : ¬ e / 2 = 0 := by omega
        refine ⟨x, h1, h2, fun _ => h3 (by omega), fun h => absurd h he0, ?_⟩
        rw [h5, ZMod.intCast_mod]
        push_cast
        have hsplit : e = 2 * (e / 2) := by omega
        conv_rhs => rw [hsplit]
        rw [pow_mul]
        ring

/-- With enough fuel `modpow` returns a residue congruent to `b ^ e`. -/
theorem modpow_spec (M : Nat) (hM : 0 < M) (fuel : Nat) (b : Int) (e : Nat) (hb : 0 ≤ b)
    (he : e < 2 ^ fuel) :
    ∃ x : Int, modpow fuel b (e : Int) (M : Int) = some x ∧ 0 ≤ x ∧ (0 < e → x < M) ∧
      (e = 0 → x = 1) ∧ ((x : ZMod M) = (b : ZMod M) ^ e) := by
  have hMpos : (0 : Int) < (M : Int) := by exact_mod_cast hM
  have hbm : b.tmod (M : Int) = b % (M : Int) := Int.tmod_eq_emod hb (Int.natCast_nonneg M)
  obtain ⟨x, h1, h2, h3, h4, h5⟩ := modpowLoop_spec M hM fuel 1 (b % (M : Int)) e (by omega)
    (Int.emod_nonneg _ hMpos.ne') he
  refine ⟨x, ?_, h2, h3, h4, ?_⟩
  · simp only [modpow]
    rw [if_neg hMpos.ne', hbm]
    exact h1
  · rw [h5, ZMod.intCast_mod]
    simp

theorem int_eq_of_zmod_eq (N : Nat) (x y : Int) (hx0 : 0 ≤ x) (hx : x < N) (hy0 : 0 ≤ y)
    (hy : y < N) (h : (x : ZMod N) = (y : ZMod N)) : x = y := by
  have h1 := (ZMod.intCast_eq_intCast_iff x y N).mp h
  have h2 : x % (N : Int) = y % (N : Int) := h1
  rwa [Int.emod_eq_of_lt hx0 hx, Int.emod_eq_of_lt hy0 hy] at h2

/-- The doubling loop terminates: `d` reaches `n - 1` after `k` doublings. -/
theorem millerRabinLoop_some (n a : Int) (hn : n ≠ 0) :
    ∀ (fuel k : Nat) (x d : Int), d * 2 ^ k = n - 1 → k ≤ fuel →
      ∃ r, millerRabinLoop n a fuel x d = some r := by
  intro fuel
  induction fuel with
  | zero =>
    intro k x d hd hk
    have hk0 : k = 0 := by omega
    subst hk0
    simp only [pow_zero, mul_one] at hd
    simp only [millerRabinLoop]
    rw [if_neg (by simpa using hd)]
    exact ⟨_, rfl⟩
  | succ fuel ih =>
    intro k x d hd hk
    simp only [millerRabinLoop]
    by_cases hdn : d ≠ n - 1
    · rw [if_pos hdn, if_neg hn]
      by_cases h1 : (x * x).tmod n = 1
      · rw [if_pos h1]
        exact ⟨_, rfl⟩
      · rw [if_neg h1]
        by_cases h2 : (x * x).tmod n = n - 1
        · rw [if_pos h2]
          exact ⟨_, rfl⟩
        · rw [if_neg h2]
          cases k with
          | zero => simp at hd; exact absurd hd hdn
          | succ k =>
            apply ih k _ _ _ (by omega)
            rw [← hd, pow_succ]
            ring
    · rw [if_neg hdn]
      exact ⟨_, rfl⟩

/-- On a prime modulus the loop never fails: a square root of 1 is 1 or
`n - 1`, and by Fermat the last square is 1. -/
theorem millerRabinLoop_prime (N : Nat) (hp : Nat.Prime N) (h2 : 2 < N) :
    ∀ (fuel k e : Nat) (x : Int), 0 ≤ x → x < N → x ≠ 1 → x ≠ (N : Int) - 1 →
      (x : ZMod N) = (2 : ZMod N) ^ e → e * 2 ^ k = N - 1 → k ≤ fuel →
      ∃ log, millerRabinLoop (N : Int) 2 fuel x (e : Int) = some (true, log) := by
  haveI : Fact (Nat.Prime N) := ⟨hp⟩
  have hNpos : (0 : Int) < (N : Int) := by exact_mod_cast hp.pos
  have h2ne : (2 : ZMod N) ≠ 0 := by
    intro h
    have h' : ((2 : Nat) : ZMod N) = 0 := by exact_mod_cast h
    have := (ZMod.natCast_zmod_eq_zero_iff_dvd 2 N).mp h'
    have := Nat.le_of_dvd (by norm_num) this
    omega
  have hfermat : (2 : ZMod N) ^ (N - 1) = 1 := ZMod.pow_card_sub_one_eq_one h2ne
  have hcast1 : (((N : Int) - 1 : Int) : ZMod N) = -1 := by
    push_cast
    simp
  intro fuel
  induction fuel with
  | zero =>
    intro k e x hx0 hxN hx1 _ hxe hek hk
    exfalso
    have hk0 : k = 0 := by omega
    subst hk0
    simp only [pow_zero, mul_one] at hek
    rw [hek, hfermat] at hxe
    apply hx1
    apply int_eq_of_zmod_eq N x 1 hx0 hxN (by omega) (by omega)
    simpa using hxe
  | succ fuel ih =>
    intro k e x hx0 hxN hx1 hxm hxe hek hk
    cases k with
    | zero =>
      exfalso
      simp only [pow_zero, mul_one] at hek
      rw [hek, hfermat] at hxe
      apply hx1
      apply int_eq_of_zmod_eq N x 1 hx0 hxN (by omega) (by omega)
      simpa using hxe
    | succ k =>
      have hepos : 0 < e := by
        rcases Nat.eq_zero_or_pos e with h | h
        · subst h
          simp at hek
          omega
        · exact h
      have hpow : 2 ≤ 2 ^ (k + 1) := by
        calc 2 = 2 ^ 1 := by norm_num
          _ ≤ 2 ^ (k + 1) := Nat.pow_le_pow_right (by norm_num) (by omega)
      have helt : e < N - 1 := by
        have : e * 2 ≤ e * 2 ^ (k + 1) := Nat.mul_le_mul_left e hpow
        omega
      have hdn : (e : Int) ≠ (N : Int) - 1 := by omega
      have hsq : (x * x).tmod (N : Int) = (x * x) % (N : Int) :=
        Int.tmod_eq_emod (mul_nonneg hx0 hx0) hNpos.le
      have hsq0 : 0 ≤ (x * x) % (N : Int) := Int.emod_nonneg _ hNpos.ne'
      have hsqlt : (x * x) % (N : Int) < N := Int.emod_lt_of_pos _ hNpos
      have hsqc : (((x * x) % (N : Int) : Int) : ZMod N) = (2 : ZMod N) ^ (e * 2) := by
        rw [ZMod.intCast_mod]
        push_cast
        rw [hxe, pow_mul]
        ring
      have hne1 : ¬ (x * x) % (N : Int) = 1 := by
        intro h
        have hz : ((x : ZMod N)) * (x : ZMod N) = 1 := by
          have := congrArg (fun z : Int => (z : ZMod N)) h
          simp only [ZMod.intCast_mod] at this
          push_cast at this
          exact this
        rcases mul_self_eq_one_iff.mp hz with h' | h'
        · apply hx1
          apply int_eq_of_zmod_eq N x 1 hx0 hxN (by omega) (by omega)
          simpa using h'
        · apply hxm
          apply int_eq_of_zmod_eq N x ((N : Int) - 1) hx0 hxN (by omega) (by omega)
          rw [h', hcast1]
      simp only [millerRabinLoop]
      rw [if_pos hdn, if_neg hNpos.ne', hsq, if_neg hne1]
      by_cases hm : (x * x) % (N : Int) = (N : Int) - 1
      · rw [if_pos hm]
        exact ⟨_, rfl⟩
      · rw [if_neg hm]
        have hcastd : (e : Int) * 2 = ((e * 2 : Nat) : Int) := by push_cast; ring
        rw [hcastd]
        apply ih k (e * 2) _ hsq0 hsqlt hne1 hm hsqc _ (by omega)
        rw [← hek, pow_succ]
        ring

/-- With enough fuel the Miller-Rabin rung returns a verdict. -/
theorem isPrimeMR_some (fuel N : Nat) (hN : 2 ≤ N) (hf : N < 2 ^ fuel) :
    ∃ r, isPrimeMR fuel (N : Int) = some r := by
  have hcast : (N : Int) - 1 = ((N - 1 : Nat) : Int) := by omega
  obtain ⟨e, s, h1, h2, h3⟩ := stripTwos_spec fuel (N - 1) (by omega) (by omega)
  have hele : e ≤ N - 1 := by
    rw [← h3]
    exact Nat.le_mul_of_pos_right e (pow_pos (by norm_num) s)
  obtain ⟨x, hx1, _, _, _, _⟩ := modpow_spec N (by omega) fuel 2 e (by norm_num) (by omega)
  have hs : s < fuel := by
    have h4 : 2 ^ s ≤ N - 1 := by
      rw [← h3]
      exact Nat.le_mul_of_pos_left (2 ^ s) (by omega)
    exact (Nat.pow_lt_pow_iff_right (by norm_num : 1 < 2)).mp (by omega)
  have hloop : ∀ y : Int, ∃ r, millerRabinLoop (N : Int) 2 fuel y (e : Int) = some r := by
    intro y
    apply millerRabinLoop_some (N : Int) 2 (by omega) fuel s y (e : Int) _ (by omega)
    rw [hcast, ← h3]
    push_cast
    ring
  simp only [isPrimeMR]
  rw [hcast, h1]
  simp only [millerRabinTest]
  rw [hx1]
  simp only []
  by_cases hx : x = 1 ∨ x = (N : Int) - 1
  · rw [if_pos hx]
    exact ⟨_, rfl⟩
  · rw [if_neg hx]
    obtain ⟨⟨ok, log⟩, hr⟩ := hloop x
    rw [hr]
    cases ok
    · exact ⟨_, rfl⟩
    · exact ⟨_, rfl⟩

/-- With enough fuel the Miller-Rabin rung accepts every odd prime. -/
theorem isPrimeMR_prime (fuel N : Nat) (hp : Nat.Prime N) (h2 : 2 < N) (hf : N < 2 ^ fuel) :
    isPrimeMR fuel (N : Int) = some (true, "Probably prime") := by
  have hcast : (N : Int) - 1 = ((N - 1 : Nat) : Int) := by omega
  obtain ⟨e, s, h1, he2, h3⟩ := stripTwos_spec fuel (N - 1) (by omega) (by omega)
  have hele : e ≤ N - 1 := by
    rw [← h3]
    exact Nat.le_mul_of_pos_right e (pow_pos (by norm_num) s)
  obtain ⟨x, hx1, hx0, hxlt, _, hxc⟩ :=
    modpow_spec N (by omega) fuel 2 e (by norm_num) (by omega)
  have hs : s < fuel := by
    have h4 : 2 ^ s ≤ N - 1 := by
      rw [← h3]
      exact Nat.le_mul_of_pos_left (2 ^ s) (by omega)
    exact (Nat.pow_lt_pow_iff_right (by norm_num : 1 < 2)).mp (by omega)
  simp only [isPrimeMR]
  rw [hcast, h1]
  simp only [millerRabinTest]
  rw [hx1]
  simp only []
  by_cases hx : x = 1 ∨ x = (N : Int) - 1
  · rw [if_pos hx]
    rfl
  · rw [if_neg hx]
    have hxc' : (x : ZMod N) = (2 : ZMod N) ^ e := by
      rw [hxc]
      norm_num
    obtain ⟨log, hr⟩ := millerRabinLoop_prime N hp h2 fuel s e x hx0 (hxlt (by omega))
      (fun h => hx (Or.inl h)) (fun h => hx (Or.inr h)) hxc' h3 (by omega)
    rw [hr]
    rfl

/-! ## Independence of the fuel -/

theorem stripTwos_mono : ∀ (fuel k : Nat) (d r : Int), stripTwos fuel d = some r →
    stripTwos (fuel + k) d = some r := by
  intro fuel
  induction fuel with
  | zero =>
    intro k d r h
    simp only [stripTwos] at h
    by_cases hd : d % 2 = 0
    · rw [if_pos hd] at h
      exact absurd h (by simp)
    · rw [if_neg hd] at h
      cases k with
      | zero => simp only [Nat.add_zero, stripTwos]; rw [if_neg hd]; exact h
      | succ k => simp only [Nat.zero_add, stripTwos]; rw [if_neg hd]; exact h
  | succ fuel ih =>
    intro k d r h
    have hk : fuel + 1 + k = (fuel + k) + 1 := by omega
    rw [hk]
    simp only [stripTwos] at h ⊢
    by_cases hd : d % 2 = 0
    · rw [if_pos hd] at h ⊢
      exact ih k _ r h
    · rw [if_neg hd] at h ⊢
      exact h

theorem modpowLoop_mono (m : Int) : ∀ (fuel k : Nat) (r b e x : Int),
    modpowLoop m fuel r b e = some x → modpowLoop m (fuel + k) r b e = some x := by
  intro fuel
  induction fuel with
  | zero =>
    intro k r b e x h
    simp only [modpowLoop] at h
    by_cases he : e > 0
    · rw [if_pos he] at h
      exact absurd h (by simp)
    · rw [if_neg he] at h
      cases k with
      | zero => simp only [Nat.add_zero, modpowLoop]; rw [if_neg he]; exact h
      | succ k => simp only [Nat.zero_add, modpowLoop]; rw [if_neg he]; exact h
  | succ fuel ih =>
    intro k r b e x h
    have hk : fuel + 1 + k = (fuel + k) + 1 := by omega
    rw [hk]
    simp only [modpowLoop] at h ⊢
    by_cases he : e > 0
    · rw [if_pos he] at h ⊢
      exact ih k _ _ _ x h
    · rw [if_neg he] at h ⊢
      exact h

theorem modpow_mono (fuel k : Nat) (b e m x : Int) (h : modpow fuel b e m = some x) :
    modpow (fuel + k) b e m = some x := by
  simp only [modpow] at h ⊢
  by_cases hm : m = 0
  · rw [if_pos hm] at h
    exact absurd h (by simp)
  · rw [if_neg hm] at h ⊢
    exact modpowLoop_mono m fuel k _ _ _ x h

theorem millerRabinLoop_mono (n a : Int) : ∀ (fuel k : Nat) (x d : Int) (r : Bool × String),
    millerRabinLoop n a fuel x d = some r → millerRabinLoop n a (fuel + k) x d = some r := by
  intro fuel
  induction fuel with
  | zero =>
    intro k x d r h
    simp only [millerRabinLoop] at h
    by_cases hd : d ≠ n - 1
    · rw [if_pos hd] at h
      exact absurd h (by simp)
    · rw [if_neg hd] at h
      cases k with
      | zero => simp only [Nat.add_zero, millerRabinLoop]; rw [if_neg hd]; exact h
      | succ k => simp only [Nat.zero_add, millerRabinLoop]; rw [if_neg hd]; exact h
  | succ fuel ih =>
    intro k x d r h
    have hk : fuel + 1 + k = (fuel + k) + 1 := by omega
    rw [hk]
    simp only [millerRabinLoop] at h ⊢
    by_cases hd : d ≠ n - 1
    · rw [if_pos hd] at h ⊢
      by_cases hn : n = 0
      · rw [if_pos hn] at h
        exact absurd h (by simp)
      · rw [if_neg hn] at h ⊢
        by_cases h1 : (x * x).tmod n = 1
        · rw [if_pos h1] at h ⊢
          exact h
        · rw [if_neg h1] at h ⊢
          by_cases h2 : (x * x).tmod n = n - 1
          · rw [if_pos h2] at h ⊢
            exact h
          · rw [if_neg h2] at h ⊢
            exact ih k _ _ r h
    · rw [if_neg hd] at h ⊢
      exact h

theorem millerRabinTest_mono (fuel k : Nat) (d n a : Int) (r : Bool × String)
    (h : millerRabinTest fuel d n a = some r) : millerRabinTest (fuel + k) d n a = some r := by
  simp only [millerRabinTest] at h ⊢
  cases hm : modpow fuel a d n with
  | none => rw [hm] at h; exact absurd h (by simp)
  | some x =>
    rw [hm] at h
    rw [modpow_mono fuel k a d n x hm]
    simp only [] at h ⊢
    by_cases hx : x = 1 ∨ x = n - 1
    · rw [if_pos hx] at h ⊢
      exact h
    · rw [if_neg hx] at h ⊢
      exact millerRabinLoop_mono n a fuel k x d r h

theorem isPrimeMR_mono (fuel k : Nat) (n : Int) (r : Bool × String)
    (h : isPrimeMR fuel n = some r) : isPrimeMR (fuel + k) n = some r := by
  simp only [isPrimeMR] at h ⊢
  cases hs : stripTwos fuel (n - 1) with
  | none => rw [hs] at h; exact absurd h (by simp)
  | some d =>
    rw [hs] at h
    rw [stripTwos_mono fuel k (n - 1) d hs]
    simp only [] at h ⊢
    cases hm : millerRabinTest fuel d n 2 with
    | none => rw [hm] at h; exact absurd h (by simp)
    | some v =>
      rw [hm] at h
      rw [millerRabinTest_mono fuel k d n 2 v hm]
      exact h

theorem trialDivision_mono (n : Int) (rest rest' : Option (Bool × String))
    (hrest : ∀ r, rest = some r → rest' = some r) :
    ∀ (ps : List Nat) (r : Bool × String), trialDivision n rest ps = some r →
      trialDivision n rest' ps = some r := by
  intro ps
  induction ps with
  | nil =>
    intro r h
    exact hrest r h
  | cons p ps ih =>
    intro r h
    simp only [trialDivision] at h ⊢
    by_cases h1 : n = (p : Int)
    · rw [if_pos h1] at h ⊢
      exact h
    · rw [if_neg h1] at h ⊢
      by_cases h2 : p = 0
      · rw [if_pos h2] at h
        exact absurd h (by simp)
      · rw [if_neg h2] at h ⊢
        by_cases h3 : n.tmod (p : Int) = 0
        · rw [if_pos h3] at h ⊢
          exact h
        · rw [if_neg h3] at h ⊢
          exact ih r h

/-- A verdict returned with some fuel is returned with any larger fuel. -/
theorem isPrime_mono (fuel k : Nat) (sp : List Nat) (n rounds : Int) (r : Bool × String)
    (h : isPrime fuel sp n rounds = some r) : isPrime (fuel + k) sp n rounds = some r := by
  simp only [isPrime] at h ⊢
  by_cases h1 : n < 2
  · rw [if_pos h1] at h ⊢
    exact h
  · rw [if_neg h1] at h ⊢
    by_cases h2 : n = 2 ∨ n = 3
    · rw [if_pos h2] at h ⊢
      exact h
    · rw [if_neg h2] at h ⊢
      by_cases h3 : n.tmod 2 = 0
      · rw [if_pos h3] at h ⊢
        exact h
      · rw [if_neg h3] at h ⊢
        refine trialDivision_mono n _ _ ?_ sp r h
        intro r' hr'
        simp only [isPrimeTail] at hr' ⊢
        by_cases h4 : n < 100000000
        · rw [if_pos h4] at hr' ⊢
          exact hr'
        · rw [if_neg h4] at hr' ⊢
          exact isPrimeMR_mono fuel k n r' hr'

/-! ## The primality engine -/

theorem toNat_cast_of_two_le (n : Int) (h : ¬ n < 2) : ((n.toNat : Nat) : Int) = n := by
  omega

theorem odd_of_tmod_two_ne_zero (n : Int) (h2 : ¬ n < 2) (h : ¬ n.tmod 2 = 0) :
    n.toNat % 2 = 1 := by
  have h' : ¬ n % 2 = 0 := by
    rw [← Int.tmod_eq_emod (by omega) (by norm_num)]
    exact h
  omega

theorem trialVerdict_fst (N : Nat) (hN : 2 ≤ N) :
    ∃ reason, trialVerdict N = some (decide (Nat.Prime N), reason) := by
  simp only [trialVerdict]
  by_cases h : N.minFac = N
  · have hp : Nat.Prime N := h ▸ Nat.minFac_prime (by omega)
    rw [if_pos h]
    exact ⟨"Small prime", by simp [hp]⟩
  · have hp : ¬ Nat.Prime N := fun hp => h hp.minFac_eq
    rw [if_neg h]
    exact ⟨"Divisible by " ++ toString N.minFac, by simp [hp]⟩

/-- The table that `build_small_primes(10000)` leaves in an empty `small_primes`. -/
theorem table_eq (f : Nat) (sp : List Nat) (hsp : build_small_primes f 10000 [] = some sp) :
    sp = primesUpTo 10000 := by
  have h := build_small_primes_some f 10000 [] sp (by norm_num) (by norm_num) hsp
  rw [List.nil_append] at h
  exact h

/-- An odd number above 3 and below `10 ^ 8` with the table of the primes up to 10000: the verdict
is the primality of the number. -/
theorem isPrime_small_odd (fuel N : Nat) (rounds : Int) (h3 : 3 < N) (hodd : N % 2 = 1)
    (hlt : N < 100000000) :
    ∃ reason, isPrime fuel (primesUpTo 10000) (N : Int) rounds =
      some (decide (Nat.Prime N), reason) := by
  rw [isPrime_odd fuel 10000 N rounds h3 hodd]
  by_cases hmf : N.minFac ≤ 10000
  · rw [if_pos hmf]
    exact trialVerdict_fst N (by omega)
  · rw [if_neg hmf]
    have hp : Nat.Prime N := by
      by_contra hnp
      have hsq := Nat.minFac_sq_le_self (by omega : 0 < N) hnp
      have h1 : 10001 ≤ N.minFac := by omega
      have h2 : 10001 ^ 2 ≤ N.minFac ^ 2 := Nat.pow_le_pow_left h1 2
      omega
    simp only [isPrimeTail]
    rw [if_pos (by omega)]
    exact ⟨"Passed trial division (small number)", by simp [hp]⟩

/-- C1: for every integer `n` below `10 ^ 8` (also below 2), `isPrime`, run with the table that
`build_small_primes(10000)` produces, returns true exactly when `n` is a prime number. -/
theorem isPrime_below_1e8_iff_prime (f fuel : Nat) (sp : List Nat) (n rounds : Int)
    (hsp : build_small_primes f 10000 [] = some sp) (hn : n < 100000000) :
    ∃ reason, isPrime fuel sp n rounds = some (decide (Nat.Prime n.toNat), reason) := by
  rw [table_eq f sp hsp]
  by_cases h1 : n < 2
  · have hnp : ¬ Nat.Prime n.toNat := by
      intro hp
      have := hp.two_le
      omega
    refine ⟨"Less than 2", ?_⟩
    simp only [isPrime]
    rw [if_pos h1]
    simp [hnp]
  · by_cases h2 : n = 2 ∨ n = 3
    · have hp : Nat.Prime n.toNat := by
        rcases h2 with rfl | rfl
        · exact Nat.prime_two
        · exact Nat.prime_three
      refine ⟨"2 or 3", ?_⟩
      simp only [isPrime]
      rw [if_neg h1, if_pos h2]
      simp [hp]
    · by_cases h3 : n.tmod 2 = 0
      · have hev : n % 2 = 0 := by
          rw [← Int.tmod_eq_emod (by omega) (by norm_num)]
          exact h3
        have hnp : ¬ Nat.Prime n.toNat := by
          intro hp
          rcases hp.eq_two_or_odd with h | h
          · omega
          · omega
        refine ⟨"Even number", ?_⟩
        simp only [isPrime]
        rw [if_neg h1, if_neg h2, if_pos h3]
        simp [hnp]
      · have hodd := odd_of_tmod_two_ne_zero n h1 h3
        have hcast := toNat_cast_of_two_le n h1
        have := isPrime_small_odd fuel n.toNat rounds (by omega) hodd (by omega)
        rwa [hcast] at this

theorem isPrime_below_1e8_iff_prime_witness :
    build_small_primes 10001 10000 [] = some ([] ++ primesUpTo 10000) ∧
    (91 : Int) < 100000000 ∧
    ∃ reason, isPrime 0 ([] ++ primesUpTo 10000) 91 10 =
      some (decide (Nat.Prime (91 : Int).toNat), reason) :=
  ⟨build_small_primes_eq 10001 10000 [] (by norm_num) (by norm_num) (by norm_num),
   by norm_num,
   isPrime_below_1e8_iff_prime 10001 0 ([] ++ primesUpTo 10000) 91 10
     (build_small_primes_eq 10001 10000 [] (by norm_num) (by norm_num) (by norm_num))
     (by norm_num)⟩

/-- With enough fuel every prime gets the verdict prime. -/
theorem isPrime_of_prime (fuel : Nat) (n rounds : Int) (hp : Nat.Prime n.toNat)
    (hf : n < 2 ^ fuel) :
    ∃ reason, isPrime fuel (primesUpTo 10000) n rounds = some (true, reason) := by
  have h1 : ¬ n < 2 := by
    have := hp.two_le
    omega
  have hcast := toNat_cast_of_two_le n h1
  by_cases h2 : n = 2 ∨ n = 3
  · refine ⟨"2 or 3", ?_⟩
    simp only [isPrime]
    rw [if_neg h1, if_pos h2]
  · have hodd : n.toNat % 2 = 1 := by
      rcases hp.eq_two_or_odd with h | h
      · omega
      · exact h
    have h3 : 3 < n.toNat := by omega
    have hmain := isPrime_odd fuel 10000 n.toNat rounds h3 hodd
    rw [hcast] at hmain
    rw [hmain]
    by_cases hmf : n.toNat.minFac ≤ 10000
    · rw [if_pos hmf]
      simp only [trialVerdict]
      rw [if_pos hp.minFac_eq]
      exact ⟨_, rfl⟩
    · rw [if_neg hmf]
      simp only [isPrimeTail]
      by_cases h4 : n < 100000000
      · rw [if_pos h4]
        exact ⟨_, rfl⟩
      · rw [if_neg h4]
        have hfN : n.toNat < 2 ^ fuel := by
          have : ((n.toNat : Nat) : Int) < ((2 ^ fuel : Nat) : Int) := by
            rw [hcast]
            push_cast
            exact hf
          exact_mod_cast this
        have := isPrimeMR_prime fuel n.toNat hp (by omega) hfN
        rw [hcast] at this
        rw [this]
        exact ⟨_, rfl⟩

/-- The Mersenne number `2 ^ 31 - 1` is prime, by the Lucas-Lehmer test. -/
theorem prime_mersenne_31 : Nat.Prime (2147483647 : Int).toNat := by
  have h : (mersenne 31).Prime := lucas_lehmer_sufficiency _ (by norm_num) (by norm_num)
  have e : mersenne 31 = 2147483647 := by norm_num [mersenne]
  rw [e] at h
  exact h

/-- C2: `isPrime` has no false negatives.  Whatever the fuel, a verdict composite is only given
to a number that is not prime; and with enough fuel every prime, also one at or above `10 ^ 8`
that reaches the base-2 Miller-Rabin rung, gets the verdict prime. -/
theorem isPrime_no_false_negative (f fuel : Nat) (sp : List Nat) (n rounds : Int)
    (hsp : build_small_primes f 10000 [] = some sp) :
    (∀ reason, isPrime fuel sp n rounds = some (false, reason) → ¬ Nat.Prime n.toNat) ∧
    (Nat.Prime n.toNat → n < 2 ^ fuel → ∃ reason, isPrime fuel sp n rounds = some (true, reason)) := by
  rw [table_eq f sp hsp]
  constructor
  · intro reason h hp
    have hbig : n < 2 ^ (fuel + n.toNat) := by
      have h1 : n.toNat < 2 ^ n.toNat := Nat.lt_two_pow n.toNat
      have h2 : 2 ^ n.toNat ≤ 2 ^ (fuel + n.toNat) :=
        Nat.pow_le_pow_right (by norm_num) (by omega)
      have h3 : ((n.toNat : Nat) : Int) < ((2 ^ (fuel + n.toNat) : Nat) : Int) := by
        exact_mod_cast lt_of_lt_of_le h1 h2
      push_cast at h3
      have := hp.two_le
      omega
    obtain ⟨r, hr⟩ := isPrime_of_prime (fuel + n.toNat) n rounds hp hbig
    have := isPrime_mono fuel n.toNat (primesUpTo 10000) n rounds _ h
    rw [this] at hr
    simp at hr
  · intro hp hf
    exact isPrime_of_prime fuel n rounds hp hf

theorem isPrime_no_false_negative_witness :
    build_small_primes 10001 10000 [] = some ([] ++ primesUpTo 10000) ∧
    Nat.Prime (2147483647 : Int).toNat ∧ (2147483647 : Int) < 2 ^ 31 ∧
    ∃ reason, isPrime 31 ([] ++ primesUpTo 10000) 2147483647 10 = some (true, reason) :=
  ⟨build_small_primes_eq 10001 10000 [] (by norm_num) (by norm_num) (by norm_num),
   prime_mersenne_31, by norm_num,
   (isPrime_no_false_negative 10001 31 ([] ++ primesUpTo 10000) 2147483647 10
     (build_small_primes_eq 10001 10000 [] (by norm_num) (by norm_num) (by norm_num))).2
     prime_mersenne_31 (by norm_num)⟩

/-- An odd composite above 3 whose least prime factor is in the table is reported with that
factor. -/
theorem isPrime_odd_factor (fuel N : Nat) (rounds : Int) (h3 : 3 < N) (hodd : N % 2 = 1)
    (hmf : N.minFac ≤ 10000) (hne : N.minFac ≠ N) :
    isPrime fuel (primesUpTo 10000) (N : Int) rounds =
      some (false, "Divisible by " ++ toString N.minFac) := by
  rw [isPrime_odd fuel 10000 N rounds h3 hodd, if_pos hmf]
  simp only [trialVerdict]
  rw [if_neg hne]

/-- C3 (amended): for every integer `n` with a factor `p`, `2 ≤ p ≤ 10000`, `p ≠ n`, `isPrime`
returns composite; the reason is "Less than 2" when `n < 2`, "Even number" when `n` is even, and
otherwise "Divisible by q" for the least prime factor `q` of `n`, which is at most `p`. -/
theorem isPrime_factor_reason (f fuel : Nat) (sp : List Nat) (n p rounds : Int)
    (hsp : build_small_primes f 10000 [] = some sp) (hp2 : 2 ≤ p) (hp : p ≤ 10000)
    (hdvd : p ∣ n) (hne : p ≠ n) :
    isPrime fuel sp n rounds =
        some (false,
          if n < 2 then "Less than 2"
          else if n % 2 = 0 then "Even number"
          else "Divisible by " ++ toString n.toNat.minFac) ∧
      (2 ≤ n → (n.toNat.minFac : Int) ≤ p) := by
  rw [table_eq f sp hsp]
  by_cases h1 : n < 2
  · refine ⟨?_, fun h => absurd h (by omega)⟩
    simp only [isPrime]
    rw [if_pos h1, if_pos h1]
  · have hcn := toNat_cast_of_two_le n h1
    have hcp : ((p.toNat : Nat) : Int) = p := by omega
    have hdvd' : p.toNat ∣ n.toNat := by
      apply Int.natCast_dvd_natCast.mp
      rw [hcn, hcp]
      exact hdvd
    have hP2 : 2 ≤ p.toNat := by omega
    have hPne : p.toNat ≠ n.toNat := by
      intro h
      apply hne
      rw [← hcn, ← hcp, h]
    have hnp : ¬ Nat.Prime n.toNat := by
      intro hpr
      rcases Nat.Prime.eq_one_or_self_of_dvd hpr _ hdvd' with h | h
      · omega
      · exact hPne h
    have hmfle : n.toNat.minFac ≤ p.toNat := Nat.minFac_le_of_dvd hP2 hdvd'
    have hmfne : n.toNat.minFac ≠ n.toNat := by
      intro h
      exact hnp (h ▸ Nat.minFac_prime (by omega))
    have h2 : ¬ (n = 2 ∨ n = 3) := by
      rintro (rfl | rfl)
      · exact hnp Nat.prime_two
      · exact hnp Nat.prime_three
    refine ⟨?_, fun _ => by omega⟩
    by_cases h3 : n.tmod 2 = 0
    · have hev : n % 2 = 0 := by
        rw [← Int.tmod_eq_emod (by omega) (by norm_num)]
        exact h3
      simp only [isPrime]
      rw [if_neg h1, if_neg h2, if_pos h3, if_neg h1, if_pos hev]
    · have hodd := odd_of_tmod_two_ne_zero n h1 h3
      have hev : ¬ n % 2 = 0 := by omega
      have := isPrime_odd_factor fuel n.toNat rounds (by omega) hodd (by omega) hmfne
      rw [hcn] at this
      rw [this, if_neg h1, if_neg hev]

theorem isPrime_factor_reason_witness :
    build_small_primes 10001 10000 [] = some ([] ++ primesUpTo 10000) ∧
    (2 : Int) ≤ 5 ∧ (5 : Int) ≤ 10000 ∧ (5 : Int) ∣ 35 ∧ (5 : Int) ≠ 35 ∧
    (isPrime 0 ([] ++ primesUpTo 10000) 35 10 =
        some (false,
          if (35 : Int) < 2 then "Less than 2"
          else if (35 : Int) % 2 = 0 then "Even number"
          else "Divisible by " ++ toString (35 : Int).toNat.minFac) ∧
      ((2 : Int) ≤ 35 → (((35 : Int).toNat.minFac : Nat) : Int) ≤ 5)) :=
  ⟨build_small_primes_eq 10001 10000 [] (by norm_num) (by norm_num) (by norm_num),
   by norm_num, by norm_num, by norm_num, by norm_num,
   isPrime_factor_reason 10001 0 ([] ++ primesUpTo 10000) 35 5 10
     (build_small_primes_eq 10001 10000 [] (by norm_num) (by norm_num) (by norm_num))
     (by norm_num) (by norm_num) (by norm_num) (by norm_num)⟩

/-- C3 as stated fails at `n = 15`, `p = 5`: 5 is a factor of 15, at most 10000 and different
from 15, and the reason cites 3, not 5. -/
theorem isPrime_factor_reason_counterexample :
    (5 : Int) ∣ 15 ∧ (5 : Int) ≤ 10000 ∧ (5 : Int) ≠ 15 ∧
    build_small_primes 10001 10000 [] = some (primesUpTo 10000) ∧
    isPrime 0 (primesUpTo 10000) 15 10 = some (false, "Divisible by 3") ∧
    isPrime 0 (primesUpTo 10000) 15 10 ≠ some (false, "Divisible by " ++ toString (5 : Nat)) := by
  have hmin : Nat.minFac 15 = 3 := by norm_num
  have h15 : isPrime 0 (primesUpTo 10000) 15 10 = some (false, "Divisible by 3") := by
    have := isPrime_odd_factor 0 15 10 (by norm_num) (by norm_num) (by rw [hmin]; norm_num)
      (by rw [hmin]; norm_num)
    rw [hmin] at this
    exact this
  refine ⟨by norm_num, by norm_num, by norm_num, ?_, h15, ?_⟩
  · have := build_small_primes_eq 10001 10000 [] (by norm_num) (by norm_num) (by norm_num)
    rw [List.nil_append] at this
    exact this
  · rw [h15]
    decide

/-- C4: for `n = 2`, for `n = 3` and for every entry of the table built by
`build_small_primes(10000)`, `isPrime` returns prime: by the rung "2 or 3" for 2 and 3, and
otherwise because the trial-division loop reaches the entry itself ("Small prime"). -/
theorem isPrime_table_entry (f fuel : Nat) (sp : List Nat) (n rounds : Int)
    (hsp : build_small_primes f 10000 [] = some sp)
    (hn : n = 2 ∨ n = 3 ∨ ∃ p ∈ sp, n = (p : Int)) :
    isPrime fuel sp n rounds =
      some (true, if n = 2 ∨ n = 3 then "2 or 3" else "Small prime") := by
  have htab := table_eq f sp hsp
  by_cases h2 : n = 2 ∨ n = 3
  · rw [if_pos h2]
    simp only [isPrime]
    rw [if_neg (by omega), if_pos h2]
  · rw [if_neg h2]
    have hmem : ∃ p ∈ sp, n = (p : Int) := by
      rcases hn with h | h | h
      · exact absurd (Or.inl h) h2
      · exact absurd (Or.inr h) h2
      · exact h
    obtain ⟨p, hp, rfl⟩ := hmem
    rw [htab] at hp ⊢
    obtain ⟨hpp, hple⟩ := mem_primesUpTo.mp hp
    have h2le := hpp.two_le
    have hodd : p % 2 = 1 := by
      rcases hpp.eq_two_or_odd with h | h
      · omega
      · exact h
    rw [isPrime_odd fuel 10000 p rounds (by omega) hodd, if_pos (by rw [hpp.minFac_eq]; exact hple)]
    simp only [trialVerdict]
    rw [if_pos hpp.minFac_eq]

theorem isPrime_table_entry_witness :
    build_small_primes 10001 10000 [] = some ([] ++ primesUpTo 10000) ∧
    ((9973 : Int) = 2 ∨ (9973 : Int) = 3 ∨
      ∃ p : Nat, p ∈ [] ++ primesUpTo 10000 ∧ (9973 : Int) = (p : Int)) ∧
    isPrime 0 ([] ++ primesUpTo 10000) 9973 10 =
      some (true, if (9973 : Int) = 2 ∨ (9973 : Int) = 3 then "2 or 3" else "Small prime") :=
  have hmem : (9973 : Int) = 2 ∨ (9973 : Int) = 3 ∨
      ∃ p : Nat, p ∈ [] ++ primesUpTo 10000 ∧ (9973 : Int) = (p : Int) :=
    Or.inr (Or.inr ⟨9973, by
      rw [List.nil_append]
      exact mem_primesUpTo.mpr ⟨by norm_num, by norm_num⟩, by norm_num⟩)
  ⟨build_small_primes_eq 10001 10000 [] (by norm_num) (by norm_num) (by norm_num),
   hmem,
   isPrime_table_entry 10001 0 ([] ++ primesUpTo 10000) 9973 10
     (build_small_primes_eq 10001 10000 [] (by norm_num) (by norm_num) (by norm_num)) hmem⟩

/-- C5: for every even integer `n > 2`, `isPrime` returns composite with the reason
"Even number", whatever the small-prime table holds. -/
theorem isPrime_even (fuel : Nat) (sp : List Nat) (n rounds : Int) (h2 : 2 < n)
    (hev : 2 ∣ n) : isPrime fuel sp n rounds = some (false, "Even number") := by
  have h3 : n.tmod 2 = 0 := by
    rw [Int.tmod_eq_emod (by omega) (by norm_num)]
    exact Int.emod_eq_zero_of_dvd hev
  simp only [isPrime]
  rw [if_neg (by omega), if_neg (by omega), if_pos h3]

theorem isPrime_even_witness :
    (2 : Int) < 10 ∧ (2 : Int) ∣ 10 ∧ isPrime 0 [0, 7] 10 10 = some (false, "Even number") :=
  ⟨by norm_num, by norm_num, isPrime_even 0 [0, 7] 10 10 (by norm_num) (by norm_num)⟩

/-- C6: `isPrime` is total.  For every integer `n` and every `rounds`, once the fuel covers the
bit length of `n` (`n < 2 ^ fuel`) the stripping loop, `modpow` and the doubling loop of
`millerRabinTest` all leave through their own exits and `isPrime` returns a verdict with a
reason. -/
theorem isPrime_total (f fuel : Nat) (sp : List Nat) (n rounds : Int)
    (hsp : build_small_primes f 10000 [] = some sp) (hf : n < 2 ^ fuel) :
    ∃ (b : Bool) (reason : String), isPrime fuel sp n rounds = some (b, reason) := by
  rw [table_eq f sp hsp]
  by_cases h1 : n < 2
  · refine ⟨false, "Less than 2", ?_⟩
    simp only [isPrime]
    rw [if_pos h1]
  · by_cases h2 : n = 2 ∨ n = 3
    · refine ⟨true, "2 or 3", ?_⟩
      simp only [isPrime]
      rw [if_neg h1, if_pos h2]
    · by_cases h3 : n.tmod 2 = 0
      · refine ⟨false, "Even number", ?_⟩
        simp only [isPrime]
        rw [if_neg h1, if_neg h2, if_pos h3]
      · have hodd := odd_of_tmod_two_ne_zero n h1 h3
        have hcn := toNat_cast_of_two_le n h1
        have hmain := isPrime_odd fuel 10000 n.toNat rounds (by omega) hodd
        rw [hcn] at hmain
        rw [hmain]
        by_cases hmf : n.toNat.minFac ≤ 10000
        · rw [if_pos hmf]
          simp only [trialVerdict]
          by_cases hm : n.toNat.minFac = n.toNat
          · rw [if_pos hm]
            exact ⟨_, _, rfl⟩
          · rw [if_neg hm]
            exact ⟨_, _, rfl⟩
        · rw [if_neg hmf]
          simp only [isPrimeTail]
          by_cases h4 : n < 100000000
          · rw [if_pos h4]
            exact ⟨_, _, rfl⟩
          · rw [if_neg h4]
            have hfN : n.toNat < 2 ^ fuel := by
              have : ((n.toNat : Nat) : Int) < ((2 ^ fuel : Nat) : Int) := by
                rw [hcn]
                push_cast
                exact hf
              exact_mod_cast this
            obtain ⟨⟨b, reason⟩, hr⟩ := isPrimeMR_some fuel n.toNat (by omega) hfN
            rw [hcn] at hr
            exact ⟨b, reason, hr⟩

theorem isPrime_total_witness :
    build_small_primes 10001 10000 [] = some ([] ++ primesUpTo 10000) ∧
    (100160063 : Int) < 2 ^ 27 ∧
    ∃ (b : Bool) (reason : String),
      isPrime 27 ([] ++ primesUpTo 10000) 100160063 10 = some (b, reason) :=
  ⟨build_small_primes_eq 10001 10000 [] (by norm_num) (by norm_num) (by norm_num),
   by norm_num,
   isPrime_total 10001 27 ([] ++ primesUpTo 10000) 100160063 10
     (build_small_primes_eq 10001 10000 [] (by norm_num) (by norm_num) (by norm_num))
     (by norm_num)⟩

/-! ## Candidate generator -/

theorem pow10Loop_eq : ∀ (k : Nat) (r : Int), pow10Loop k r = r * 10 ^ k := by
  intro k
  induction k with
  | zero => intro r; simp [pow10Loop]
  | succ k ih =>
    intro r
    simp only [pow10Loop]
    rw [ih, pow_succ]
    ring

theorem pow10_eq (digits : Int) : pow10 digits = 10 ^ digits.toNat := by
  simp only [pow10]
  rw [pow10Loop_eq, one_mul]

/-- C7: for every digit length `d ≥ 1` and every generator state, the value `v` returned by
`generate_random_number_with_digits(d, gen)` satisfies `10^(d-1) ≤ v ≤ 10^d - 1`, these being
the bounds `pow10(d-1)` and `pow10(d) - 1` the distribution is constructed with, so that `v`
has exactly `d` decimal digits. -/
theorem generate_random_number_with_digits_range {Gen : Type}
    (dist : UniformIntDistribution Gen) (d : Int) (gen : Gen) (hd : 1 ≤ d) :
    pow10 (d - 1) = 10 ^ (d.toNat - 1) ∧ pow10 d - 1 = 10 ^ d.toNat - 1 ∧
    (10 : Int) ^ (d.toNat - 1) ≤ (generate_random_number_with_digits dist d gen).1 ∧
    (generate_random_number_with_digits dist d gen).1 ≤ 10 ^ d.toNat - 1 ∧
    (Nat.digits 10 (generate_random_number_with_digits dist d gen).1.toNat).length = d.toNat := by
  obtain ⟨k, hk⟩ : ∃ k : Nat, d = (k : Int) + 1 := ⟨(d - 1).toNat, by omega⟩
  subst hk
  have ht1 : ((k : Int) + 1).toNat = k + 1 := by omega
  have ht0 : ((k : Int) + 1 - 1).toNat = k := by omega
  have hlow : pow10 ((k : Int) + 1 - 1) = 10 ^ k := by rw [pow10_eq, ht0]
  have hupp : pow10 ((k : Int) + 1) = 10 ^ (k + 1) := by rw [pow10_eq, ht1]
  have hpos : (0 : Int) < 10 ^ k := by positivity
  have hle : pow10 ((k : Int) + 1 - 1) ≤ pow10 ((k : Int) + 1) - 1 := by
    rw [hlow, hupp, pow_succ]
    omega
  have hgen : (generate_random_number_with_digits dist ((k : Int) + 1) gen).1 =
      (dist.sample (pow10 ((k : Int) + 1 - 1)) (pow10 ((k : Int) + 1) - 1) gen).1 := by
    simp only [generate_random_number_with_digits]
    rw [if_neg (by omega)]
  have hge := dist.sample_ge _ _ gen hle
  have hle' := dist.sample_le _ _ gen hle
  rw [← hgen, hlow] at hge
  rw [← hgen, hupp] at hle'
  rw [ht1, Nat.add_sub_cancel]
  refine ⟨hlow, by rw [hupp], hge, hle', ?_⟩
  generalize (generate_random_number_with_digits dist ((k : Int) + 1) gen).1 = v at hge hle'
  have hv0 : 0 ≤ v := by omega
  obtain ⟨m, rfl⟩ : ∃ m : Nat, v = (m : Int) := ⟨v.toNat, by omega⟩
  have hm1 : 10 ^ k ≤ m := by exact_mod_cast hge
  have hm2 : m < 10 ^ (k + 1) := by
    have : (m : Int) < 10 ^ (k + 1) := by omega
    exact_mod_cast this
  have hm0 : m ≠ 0 := by
    have : 0 < 10 ^ k := by positivity
    omega
  rw [Int.toNat_natCast, Nat.digits_len 10 m (by norm_num) hm0,
    Nat.log_eq_of_pow_le_of_lt_pow hm1 hm2]

theorem generate_random_number_with_digits_range_witness :
    (1 : Int) ≤ 3 ∧
    (pow10 (3 - 1) = 10 ^ ((3 : Int).toNat - 1) ∧ pow10 3 - 1 = 10 ^ (3 : Int).toNat - 1 ∧
    (10 : Int) ^ ((3 : Int).toNat - 1) ≤
      (generate_random_number_with_digits lcgDistribution 3 2024).1 ∧
    (generate_random_number_with_digits lcgDistribution 3 2024).1 ≤ 10 ^ (3 : Int).toNat - 1 ∧
    (Nat.digits 10 (generate_random_number_with_digits lcgDistribution 3 2024).1.toNat).length =
      (3 : Int).toNat) :=
  ⟨by decide, generate_random_number_with_digits_range lcgDistribution 3 2024 (by decide)⟩

/-! ## Digit escalation -/

/-- The reset as `producer` would perform it: for every digit length `k ≥ 1`, if the found-prime
flag were set at the read-and-clear, the new digit length would be 1 and not `k + 1`, it would
be published in `current_digits`, the flag would be clear afterwards, the next task would be
enqueued with digit length 1, and the cycle after that would move on to 2. -/
theorem producer_update_reset {Gen : Type} (dist : UniformIntDistribution Gen) (gen : Gen)
    (k : Int) (sh : Shared) (hk : 1 ≤ k) (hflag : sh.found_prime_flag = true) :
    (producer_update k sh).1 = 1 ∧ (producer_update k sh).1 ≠ k + 1 ∧
    (producer_update k sh).2.found_prime_flag = false ∧
    (producer_update k sh).2.current_digits = 1 ∧
    (∃ n, (producer_enqueue dist (producer_update k sh).1 gen (producer_update k sh).2).2.task_queue
        = sh.task_queue ++ [(n, 1)]) ∧
    (producer_update (producer_update k sh).1 (producer_update k sh).2).1 = 2 := by
  have h1 : (producer_update k sh).1 = 1 := by
    simp only [producer_update]
    rw [hflag, if_pos rfl]
  have h2 : (producer_update k sh).2.found_prime_flag = false := rfl
  have h3 : (producer_update k sh).2.current_digits = 1 := h1
  have h4 : (producer_update k sh).2.task_queue = sh.task_queue := rfl
  refine ⟨h1, by rw [h1]; omega, h2, h3, ?_, ?_⟩
  · refine ⟨(generate_random_number_with_digits dist 1 gen).1, ?_⟩
    rw [h1]
    simp only [producer_enqueue]
    rw [h4]
  · rw [h1]
    simp only [producer_update]
    simp [max_digits]

theorem producer_update_reset_witness :
    (1 : Int) ≤ 5 ∧
    ((producer_update 5 ⟨false, true, 5, [], none⟩).1 = 1 ∧
    (producer_update 5 ⟨false, true, 5, [], none⟩).1 ≠ 5 + 1 ∧
    (producer_update 5 ⟨false, true, 5, [], none⟩).2.found_prime_flag = false ∧
    (producer_update 5 ⟨false, true, 5, [], none⟩).2.current_digits = 1 ∧
    (∃ n, (producer_enqueue lcgDistribution (producer_update 5 ⟨false, true, 5, [], none⟩).1 7
        (producer_update 5 ⟨false, true, 5, [], none⟩).2).2.task_queue
        = (⟨false, true, 5, [], none⟩ : Shared).task_queue ++ [(n, 1)]) ∧
    (producer_update (producer_update 5 ⟨false, true, 5, [], none⟩).1
      (producer_update 5 ⟨false, true, 5, [], none⟩).2).1 = 2) :=
  ⟨by decide, producer_update_reset lcgDistribution 7 5 ⟨false, true, 5, [], none⟩ (by decide) rfl⟩

/-! ## Progress state -/

theorem digitChar_isDigit (m : Nat) (hm : m < 10) :
    (Nat.digitChar m).isDigit = true ∧ (Nat.digitChar m).toNat - 48 = m := by
  interval_cases m <;> exact ⟨by decide, by decide⟩

theorem isSpace_false_of_isDigit (c : Char) (h : c.isDigit = true) : isSpace c = false := by
  by_contra hs
  have hs' : isSpace c = true := by simpa using hs
  simp only [isSpace, Bool.or_eq_true, decide_eq_true_eq] at hs'
  rcases hs' with ((((rfl | rfl) | rfl) | rfl) | rfl) | rfl <;> exact absurd h (by decide)

theorem ne_sign_of_isDigit (c : Char) (h : c.isDigit = true) : ¬ (c = '-' ∨ c = '+') := by
  rintro (rfl | rfl) <;> exact absurd h (by decide)

/-- The value read back from a run of characters appended after the digits already read. -/
theorem foldl_digit_snoc (run : List Char) (m a : Nat) (hm : m < 10) :
    (run ++ [Nat.digitChar m]).foldl (fun acc c => acc * 10 + (c.toNat - 48)) a =
      run.foldl (fun acc c => acc * 10 + (c.toNat - 48)) a * 10 + m := by
  rw [List.foldl_append]
  simp only [List.foldl_cons, List.foldl_nil]
  rw [(digitChar_isDigit m hm).2]

/-- The library renders `n` in base ten, given fuel above `n`, as a run of digit characters
put before `out`; the run is not empty and reads back as `n`. -/
theorem toDigitsCore_spec : ∀ (fuel n : Nat) (out : List Char), n < fuel →
    ∃ run : List Char,
      (∀ a : Nat, run.foldl (fun acc c => acc * 10 + (c.toNat - 48)) a
        = a * 10 ^ run.length + n) ∧
      (∀ c ∈ run, c.isDigit = true) ∧ run ≠ [] ∧
      Nat.toDigitsCore 10 fuel n out = run ++ out := by
  intro fuel
  induction fuel with
  | zero => intro n out h; exact absurd h (Nat.not_lt_zero n)
  | succ fuel ih =>
    intro n out hn
    have hlt : n % 10 < 10 := Nat.mod_lt n (by norm_num)
    have hd := digitChar_isDigit (n % 10) hlt
    simp only [Nat.toDigitsCore]
    by_cases h0 : n / 10 = 0
    · rw [if_pos h0]
      refine ⟨[Nat.digitChar (n % 10)], ?_, ?_, by simp, rfl⟩
      · intro a
        simp only [List.foldl_cons, List.foldl_nil, List.length_singleton, pow_one]
        rw [hd.2]
        omega
      · intro c hc
        rw [List.mem_singleton.mp hc]
        exact hd.1
    · rw [if_neg h0]
      obtain ⟨run, h4, h3, _, h1⟩ := ih (n / 10) (Nat.digitChar (n % 10) :: out) (by omega)
      refine ⟨run ++ [Nat.digitChar (n % 10)], ?_, ?_, by simp, ?_⟩
      · intro a
        rw [foldl_digit_snoc run (n % 10) a hlt, h4 a]
        simp only [List.length_append, List.length_singleton]
        rw [pow_succ]
        have := Nat.div_add_mod n 10
        nlinarith [this]
      · intro c hc
        rcases List.mem_append.mp hc with h | h
        · exact h3 c h
        · rw [List.mem_singleton.mp h]
          exact hd.1
      · rw [h1]
        simp

theorem toDigits_spec (n : Nat) :
    Nat.toDigits 10 n ≠ [] ∧ (∀ c ∈ Nat.toDigits 10 n, c.isDigit = true) ∧
      digitsValue (Nat.toDigits 10 n) = n := by
  obtain ⟨run, h4, h3, h2, h1⟩ := toDigitsCore_spec (n + 1) n [] (Nat.lt_succ_self n)
  have hrun : Nat.toDigits 10 n = run := by
    simp only [Nat.toDigits]
    rw [h1, List.append_nil]
  rw [hrun]
  refine ⟨h2, h3, ?_⟩
  simp only [digitsValue]
  rw [h4 0]
  omega

theorem takeWhile_digits_append (ds tail : List Char) (hds : ∀ c ∈ ds, c.isDigit = true)
    (htail : ∀ c, tail.head? = some c → c.isDigit = false) :
    (ds ++ tail).takeWhile Char.isDigit = ds := by
  induction ds with
  | nil =>
    cases tail with
    | nil => rfl
    | cons c cs =>
      have := htail c rfl
      simp [List.takeWhile_cons, this]
  | cons d ds ih =>
    have hd := hds d (List.mem_cons_self d ds)
    rw [List.cons_append, List.takeWhile_cons, if_pos hd,
      ih (fun c hc => hds c (List.mem_cons_of_mem d hc))]

/-- Extraction from an unsigned run of digits followed by something that is not a digit. -/
theorem extractInt_unsigned (init : Int) (ds tail : List Char) (hne : ds ≠ [])
    (hds : ∀ c ∈ ds, c.isDigit = true)
    (htail : ∀ c, tail.head? = some c → c.isDigit = false) :
    extractInt init (ds ++ tail) =
      if (digitsValue ds : Int) > INT_MAX then INT_MAX else (digitsValue ds : Int) := by
  cases ds with
  | nil => exact absurd rfl hne
  | cons d ds' =>
    have hd := hds d (List.mem_cons_self d ds')
    have hdrop : ((d :: ds') ++ tail).dropWhile isSpace = d :: (ds' ++ tail) := by
      rw [List.cons_append]
      exact List.dropWhile_cons_of_neg (by simp [isSpace_false_of_isDigit d hd])
    have htake := takeWhile_digits_append (d :: ds') tail hds htail
    rw [List.cons_append] at htake
    have hneg : ¬ d = '-' := fun h => ne_sign_of_isDigit d hd (Or.inl h)
    simp only [extractInt]
    rw [hdrop]
    simp only []
    rw [if_neg (ne_sign_of_isDigit d hd), htake, if_neg (by simp)]
    simp [hneg]

/-- Extraction from a minus sign, a run of digits and something that is not a digit. -/
theorem extractInt_negative (init : Int) (ds tail : List Char)
    (hne : ds ≠ []) (hds : ∀ c ∈ ds, c.isDigit = true)
    (htail : ∀ c, tail.head? = some c → c.isDigit = false) :
    extractInt init ('-' :: (ds ++ tail)) =
      if (digitsValue ds : Int) > 2147483648 then INT_MIN else - (digitsValue ds : Int) := by
  have hdrop : ('-' :: (ds ++ tail)).dropWhile isSpace = '-' :: (ds ++ tail) :=
    List.dropWhile_cons_of_neg (by decide)
  have htake := takeWhile_digits_append ds tail hds htail
  simp only [extractInt]
  rw [hdrop]
  simp only [true_or, if_true, htake]
  rw [if_neg hne]

theorem toString_nat_toList (n : Nat) : (toString n).toList = Nat.toDigits 10 n := rfl

theorem toString_int_toList_nonneg (n : Nat) :
    (toString ((n : Nat) : Int)).toList = Nat.toDigits 10 n := rfl

theorem toString_int_toList_neg (m : Nat) :
    (toString (Int.negSucc m)).toList = '-' :: Nat.toDigits 10 (m + 1) := rfl

/-- What `load_state` returns on a store that starts with the decimal form of an `int` and
goes on with something that is not a digit. -/
theorem load_state_decimal (x : Int) (tail : String)
    (htail : ∀ c, tail.toList.head? = some c → c.isDigit = false) :
    load_state (some (toString x ++ tail)) =
      if x < 1 then 1 else if x > INT_MAX then INT_MAX else x := by
  have happ : (toString x ++ tail).toList = (toString x).toList ++ tail.toList :=
    String.data_append _ _
  simp only [load_state]
  rw [happ]
  cases x with
  | ofNat n =>
    obtain ⟨h1, h2, h3⟩ := toDigits_spec n
    have hx : Int.ofNat n = ((n : Nat) : Int) := rfl
    rw [hx, toString_int_toList_nonneg, extractInt_unsigned 1 _ _ h1 h2 htail, h3]
    simp only [INT_MAX]
    split_ifs <;> omega
  | negSucc m =>
    obtain ⟨h1, h2, h3⟩ := toDigits_spec (m + 1)
    rw [toString_int_toList_neg, List.cons_append,
      extractInt_negative 1 _ _ h1 h2 htail, h3]
    have hlt : Int.negSucc m < 1 := by
      have := Int.negSucc_lt_zero m
      omega
    simp only [INT_MIN]
    rw [if_pos hlt]
    split_ifs <;> omega

theorem load_state_ge_one (store : Option String) : 1 ≤ load_state store := by
  cases store with
  | none => simp [load_state]
  | some content =>
    simp only [load_state]
    split_ifs <;> omega

theorem load_state_blank (content : String)
    (h : content.toList.dropWhile isSpace = []) : load_state (some content) = 1 := by
  simp only [load_state, extractInt]
  rw [h]
  simp

theorem load_state_non_numeric (content : String) (c : Char) (cs : List Char)
    (h : content.toList.dropWhile isSpace = c :: cs) (hplus : c ≠ '+')
    (hdig : c.isDigit = false) : load_state (some content) = 1 := by
  simp only [load_state, extractInt]
  rw [h]
  simp only []
  by_cases hminus : c = '-'
  · rw [if_pos (Or.inl hminus)]
    by_cases hds : cs.takeWhile Char.isDigit = []
    · rw [if_pos hds]
      simp
    · rw [if_neg hds]
      simp only [hminus, if_true, INT_MIN]
      split_ifs <;> omega
  · have hsign : ¬ (c = '-' ∨ c = '+') := fun h' => h'.elim hminus hplus
    have htake : (c :: cs).takeWhile Char.isDigit = [] := by
      rw [List.takeWhile_cons]
      simp [hdig]
    rw [if_neg hsign, htake]
    simp

/-- C8 (amended): when the output stream opens, `save_state(x)` followed by `load_state()`
returns `x` for every `int` `x ≥ 1`, and returns 1 for every `int` `x < 1` (so not for 0). -/
theorem save_load_roundtrip (x : Int) (store : Option String) (hmax : x ≤ INT_MAX) :
    (1 ≤ x → load_state (save_state true x store) = x) ∧
    (x < 1 → load_state (save_state true x store) = 1) := by
  have hnl : ∀ c, ("\n" : String).toList.head? = some c → c.isDigit = false := by
    intro c hc
    have : c = '\n' := by
      have h' : some '\n' = some c := hc
      exact (Option.some.inj h').symm
    rw [this]
    decide
  have hsave : save_state true x store = some (toString x ++ "\n") := rfl
  rw [hsave, load_state_decimal x "\n" hnl]
  constructor
  · intro h1
    rw [if_neg (by omega), if_neg (by omega)]
  · intro h1
    rw [if_pos h1]

theorem save_load_roundtrip_witness :
    (3 : Int) ≤ INT_MAX ∧ (1 : Int) ≤ 3 ∧
    load_state (save_state true 3 (some "garbage")) = 3 :=
  ⟨by decide, by decide, (save_load_roundtrip 3 (some "garbage") (by decide)).1 (by decide)⟩

/-- C8 as stated fails at the non-negative integer `x = 0`: after `save_state(0)` the store
holds "0" and `load_state()` returns 1. -/
theorem save_load_roundtrip_counterexample :
    (0 : Int) ≤ 0 ∧ save_state true 0 none = some "0\n" ∧
    load_state (save_state true 0 none) = 1 ∧ load_state (save_state true 0 none) ≠ 0 := by
  decide

/-- C9 (amended): `load_state()` returns 1 when the store is missing, when its content is empty
or blank, when the first non-blank character is neither a digit nor a plus sign, and when the
content starts with the decimal form of an integer below 1; it never returns a value below 1.
A content that starts with the decimal form of an integer `k ≥ 1` is read as `k` (capped at
the largest `int`) whatever follows the digits. -/
theorem load_state_default :
    load_state none = 1 ∧
    (∀ store, 1 ≤ load_state store) ∧
    (∀ content : String, content.toList.dropWhile isSpace = [] →
      load_state (some content) = 1) ∧
    (∀ (content : String) (c : Char) (cs : List Char),
      content.toList.dropWhile isSpace = c :: cs → c ≠ '+' → c.isDigit = false →
      load_state (some content) = 1) ∧
    (∀ (x : Int) (tail : String), x < 1 →
      (∀ c, tail.toList.head? = some c → c.isDigit = false) →
      load_state (some (toString x ++ tail)) = 1) ∧
    (∀ (k : Int) (tail : String), 1 ≤ k →
      (∀ c, tail.toList.head? = some c → c.isDigit = false) →
      load_state (some (toString k ++ tail)) = min k INT_MAX) := by
  refine ⟨rfl, load_state_ge_one, load_state_blank, load_state_non_numeric, ?_, ?_⟩
  · intro x tail hx htail
    rw [load_state_decimal x tail htail, if_pos hx]
  · intro k tail hk htail
    rw [load_state_decimal k tail htail, if_neg (by omega)]
    by_cases h : k > INT_MAX
    · rw [if_pos h, min_eq_right (by omega)]
    · rw [if_neg h, min_eq_left (by omega)]

theorem load_state_default_witness :
    (-4 : Int) < 1 ∧ load_state (some (toString (-4 : Int) ++ " x")) = 1 :=
  ⟨by decide, load_state_default.2.2.2.2.1 (-4) " x" (by decide) (by
    intro c hc
    have h' : some ' ' = some c := hc
    rw [← Option.some.inj h']
    decide)⟩

/-- C9 as stated fails on the garbled content "12abc", which is not the decimal form of an
integer: `load_state()` returns 12, not 1. -/
theorem load_state_default_counterexample :
    load_state (some "12abc") = 12 ∧ load_state (some "12abc") ≠ 1 := by
  decide

/-! ## Digit escalation without a signal -/

/-- C11 (amended): for every digit length `d ≥ 1`, a cycle of the control loop in which the
found-prime flag is not set produces `d + 1` when `d` is below the cap 1,000,000 and leaves `d`
unchanged at or above the cap; the flag stays clear and the value is published. -/
theorem producer_update_escalate (d : Int) (sh : Shared) (_hd : 1 ≤ d)
    (hflag : sh.found_prime_flag = false) :
    (d < 1000000 → (producer_update d sh).1 = d + 1) ∧
    (1000000 ≤ d → (producer_update d sh).1 = d) ∧
    (producer_update d sh).2.current_digits = (producer_update d sh).1 ∧
    (producer_update d sh).2.found_prime_flag = false := by
  have hval : (producer_update d sh).1 = if d < max_digits then d + 1 else d := by
    simp only [producer_update]
    rw [hflag]
    simp
  refine ⟨?_, ?_, rfl, rfl⟩
  · intro h
    rw [hval, if_pos (by simpa [max_digits] using h)]
  · intro h
    rw [hval, if_neg (by simp only [max_digits]; omega)]

theorem producer_update_escalate_witness :
    (1 : Int) ≤ 5 ∧ (⟨false, false, 5, [], none⟩ : Shared).found_prime_flag = false ∧
    (5 : Int) < 1000000 ∧ (producer_update 5 ⟨false, false, 5, [], none⟩).1 = 5 + 1 :=
  ⟨by decide, rfl, by decide,
   (producer_update_escalate 5 ⟨false, false, 5, [], none⟩ (by decide) rfl).1 (by decide)⟩

/-- C11 as stated fails at `d = 1000000`: with the flag clear the next digit length is again
1000000, not 1000001. -/
theorem producer_update_escalate_counterexample :
    (1 : Int) ≤ 1000000 ∧
    (⟨false, false, 1000000, [], none⟩ : Shared).found_prime_flag = false ∧
    (producer_update 1000000 ⟨false, false, 1000000, [], none⟩).1 = 1000000 ∧
    (producer_update 1000000 ⟨false, false, 1000000, [], none⟩).1 ≠ 1000000 + 1 := by
  decide

/-! ## modpow -/

/-- C19: for every modulus `m ≥ 2`, base `b ≥ 0` and exponent `e ≥ 0`, `modpow(b, e, m)` with
fuel for the bits of `e` terminates and returns `b ^ e mod m`, a value in `[0, m - 1]`; for
`e ≤ 0` it returns 1 whatever the fuel. -/
theorem modpow_eq_pow_mod (fuel : Nat) (b e m : Int) (hm : 2 ≤ m) (hb : 0 ≤ b) :
    (0 ≤ e → e < 2 ^ fuel →
      modpow fuel b e m = some (b ^ e.toNat % m) ∧ 0 ≤ b ^ e.toNat % m ∧
        b ^ e.toNat % m ≤ m - 1) ∧
    (e ≤ 0 → modpow fuel b e m = some 1) := by
  constructor
  · intro he hf
    obtain ⟨M, rfl⟩ : ∃ M : Nat, m = (M : Int) := ⟨m.toNat, by omega⟩
    obtain ⟨E, rfl⟩ : ∃ E : Nat, e = (E : Int) := ⟨e.toNat, by omega⟩
    have hM : 0 < M := by omega
    have hMpos : (0 : Int) < (M : Int) := by omega
    have hfE : E < 2 ^ fuel := by exact_mod_cast hf
    obtain ⟨x, h1, h2, h3, h4, h5⟩ := modpow_spec M hM fuel b E hb hfE
    have hr0 : 0 ≤ b ^ E % (M : Int) := Int.emod_nonneg _ hMpos.ne'
    have hrlt : b ^ E % (M : Int) < M := Int.emod_lt_of_pos _ hMpos
    have hx : x = b ^ E % (M : Int) := by
      rcases Nat.eq_zero_or_pos E with h0 | h0
      · subst h0
        rw [h4 rfl, pow_zero]
        exact (Int.emod_eq_of_lt (by norm_num) (by omega)).symm
      · apply int_eq_of_zmod_eq M x _ h2 (h3 h0) hr0 hrlt
        rw [h5, ZMod.intCast_mod]
        push_cast
        rfl
    rw [Int.toNat_natCast, h1, hx]
    exact ⟨rfl, hr0, by omega⟩
  · intro he
    have hne : ¬ e > 0 := by omega
    have hm0 : ¬ m = 0 := by omega
    cases fuel with
    | zero => simp [modpow, modpowLoop, hne, hm0]
    | succ k => simp [modpow, modpowLoop, hne, hm0]

theorem modpow_eq_pow_mod_witness :
    (2 : Int) ≤ 1000 ∧ (0 : Int) ≤ 2 ∧ (0 : Int) ≤ 10 ∧ (10 : Int) < 2 ^ 4 ∧
    (modpow 4 2 10 1000 = some (2 ^ (10 : Int).toNat % 1000) ∧ 0 ≤ (2 : Int) ^ (10 : Int).toNat % 1000 ∧
      (2 : Int) ^ (10 : Int).toNat % 1000 ≤ 1000 - 1) :=
  ⟨by decide, by decide, by decide, by decide,
   (modpow_eq_pow_mod 4 2 10 1000 (by decide) (by decide)).1 (by decide) (by decide)⟩

/-! ## The table of small primes -/

theorem primesBelow100_prod : primesBelow100.prod = primorial97 := by
  decide

theorem primesBelow100_prime : ∀ a ∈ primesBelow100, Nat.Prime a := by
  simp only [primesBelow100, List.forall_mem_cons]
  norm_num

theorem primesBelow100_le : ∀ a ∈ primesBelow100, a ≤ 97 := by
  decide

theorem mem_primesBelow100 (q : Nat) (hq : Nat.Prime q) (hle : q ≤ 100) :
    q ∈ primesBelow100 := by
  interval_cases q <;> first | decide | (exfalso; revert hq; norm_num)

theorem prime_iff_coprime_primorial97 (n : Nat) (h1 : 100 < n) (h2 : n ≤ 10000) :
    Nat.Prime n ↔ Nat.gcd n primorial97 = 1 := by
  constructor
  · intro hp
    rw [← primesBelow100_prod]
    apply (Nat.Prime.coprime_iff_not_dvd hp).mpr
    intro hdvd
    obtain ⟨a, ha, hda⟩ := (Prime.dvd_prod_iff (Nat.prime_iff.mp hp)).mp hdvd
    have h97 := primesBelow100_le a ha
    have hapos : 0 < a := (primesBelow100_prime a ha).pos
    have := Nat.le_of_dvd hapos hda
    omega
  · intro hg
    by_contra hnp
    have hmf : Nat.Prime n.minFac := Nat.minFac_prime (by omega)
    have hsq := Nat.minFac_sq_le_self (by omega : 0 < n) hnp
    have hle : n.minFac ≤ 100 := by
      by_contra hgt
      have h101 : 101 ≤ n.minFac := by omega
      have := Nat.pow_le_pow_left h101 2
      omega
    have hmem := mem_primesBelow100 n.minFac hmf hle
    have hdP : n.minFac ∣ primorial97 := by
      rw [← primesBelow100_prod]
      exact List.dvd_prod hmem
    have hd1 : n.minFac ∣ 1 := by
      rw [← hg]
      exact Nat.dvd_gcd (Nat.minFac_dvd n) hdP
    have := Nat.le_of_dvd (by norm_num) hd1
    have := hmf.two_le
    omega

theorem countCoprime_eq (P : Nat) : ∀ (k n acc : Nat),
    countCoprime P k n acc =
      acc + ((List.range' n k).filter (fun m => decide (Nat.gcd m P = 1))).length := by
  intro k
  induction k with
  | zero => intro n acc; simp [countCoprime]
  | succ k ih =>
    intro n acc
    simp only [countCoprime]
    rw [ih, List.range'_succ]
    by_cases h : Nat.gcd n P = 1
    · rw [if_pos h, List.filter_cons_of_pos (by simpa using h)]
      simp only [List.length_cons]
      omega
    · rw [if_neg h, List.filter_cons_of_neg (by simpa using h)]

theorem primesUpTo_100 : primesUpTo 100 = primesBelow100 := by
  have hs1 : (primesUpTo 100).Sorted (· < ·) :=
    (List.pairwise_lt_range 101).sublist (List.filter_sublist _)
  have hs2 : primesBelow100.Sorted (· < ·) := by decide
  apply List.eq_of_perm_of_sorted _ hs1 hs2
  apply (List.perm_ext_iff_of_nodup hs1.nodup hs2.nodup).mpr
  intro a
  rw [mem_primesUpTo]
  constructor
  · rintro ⟨h1, h2⟩
    exact mem_primesBelow100 a h1 h2
  · intro h
    exact ⟨primesBelow100_prime a h, by have := primesBelow100_le a h; omega⟩

theorem primesUpTo_split (a b : Nat) :
    primesUpTo (a + b) = primesUpTo a ++ (List.range' (a + 1) b).filter Nat.Prime := by
  simp only [primesUpTo, List.range_eq_range']
  rw [← List.filter_append]
  congr 1
  have h := @List.range'_append 0 (a + 1) b 1
  simp only [Nat.zero_add, Nat.one_mul] at h
  rw [h]
  congr 1
  omega

theorem count_eq : countCoprime primorial97 9900 101 0 = 1204 := by decide!

theorem filter_prime_eq_coprime : (List.range' 101 9900).filter Nat.Prime =
      (List.range' 101 9900).filter (fun m => decide (Nat.gcd m primorial97 = 1)) := by
  apply List.filter_congr
  intro m hm
  obtain ⟨h1, h2⟩ := List.mem_range'_1.mp hm
  have := prime_iff_coprime_primorial97 m (by omega) (by omega)
  simp only [this]

theorem coprime_count : ((List.range' 101 9900).filter
    (fun m => decide (Nat.gcd m primorial97 = 1))).length = 1204 := by
  have hcount := countCoprime_eq primorial97 9900 101 0
  rw [count_eq, Nat.zero_add] at hcount
  exact hcount.symm

theorem primesUpTo_10000_length : (primesUpTo 10000).length = 1229 := by
  have hsplit : primesUpTo 10000 = primesUpTo 100 ++ (List.range' 101 9900).filter Nat.Prime :=
    primesUpTo_split 100 9900
  rw [hsplit, List.length_append, primesUpTo_100, filter_prime_eq_coprime, coprime_count]
  rfl

theorem no_prime_9974_10000 (m : Nat) (h1 : 9974 ≤ m) (h2 : m ≤ 10000) : ¬ Nat.Prime m := by
  interval_cases m <;> norm_num

theorem filter_prime_tail : (List.range' 9973 28).filter Nat.Prime = [9973] := by
  have h9973 : Nat.Prime 9973 := by norm_num
  have hnil : (List.range' 9974 27).filter Nat.Prime = [] := by
    apply List.filter_eq_nil_iff.mpr
    intro m hm
    obtain ⟨h1, h2⟩ := List.mem_range'_1.mp hm
    simpa using no_prime_9974_10000 m h1 (by omega)
  rw [show (28 : Nat) = 27 + 1 from rfl, List.range'_succ,
    List.filter_cons_of_pos (by simpa using h9973), hnil]

theorem primesUpTo_10000_last : (primesUpTo 10000).getLast? = some 9973 := by
  have hsplit : primesUpTo 10000 = primesUpTo 9972 ++ (List.range' 9973 28).filter Nat.Prime :=
    primesUpTo_split 9972 28
  rw [hsplit, filter_prime_tail]
  exact List.getLast?_concat _

theorem primesUpTo_head (limit : Nat) (hl : 2 ≤ limit) : (primesUpTo limit).head? = some 2 := by
  obtain ⟨k, rfl⟩ : ∃ k, limit = k + 2 := ⟨limit - 2, by omega⟩
  rw [primesUpTo_eq_range' (k + 2) (by omega)]
  have : k + 2 + 1 - 2 = k + 1 := by omega
  rw [this, List.range'_succ, List.filter_cons_of_pos (by simpa using Nat.prime_two)]
  rfl

/-- C16: `build_small_primes(10000)`, started from an empty table and given enough fuel, leaves
in `small_primes` the list of all primes up to 10000 and nothing else, in strictly increasing
order and so without duplicates; its first entry is 2, its last 9973, and it has 1229 entries. -/
theorem build_small_primes_table (fuel : Nat) (hf : 10001 ≤ fuel) :
    ∃ sp, build_small_primes fuel 10000 [] = some sp ∧
      (∀ p, p ∈ sp ↔ Nat.Prime p ∧ p ≤ 10000) ∧
      sp.Pairwise (· < ·) ∧ sp.Nodup ∧
      sp.head? = some 2 ∧ sp.getLast? = some 9973 ∧ sp.length = 1229 := by
  have hsorted : (primesUpTo 10000).Pairwise (· < ·) :=
    (List.pairwise_lt_range 10001).sublist (List.filter_sublist _)
  refine ⟨primesUpTo 10000, ?_, fun p => mem_primesUpTo, hsorted,
    hsorted.imp (fun h => Nat.ne_of_lt h), primesUpTo_head 10000 (by norm_num),
    primesUpTo_10000_last, primesUpTo_10000_length⟩
  have h := build_small_primes_eq fuel 10000 [] (by norm_num) (by norm_num) (by omega)
  rw [List.nil_append] at h
  exact h

theorem build_small_primes_table_witness :
    10001 ≤ 10001 ∧
    ∃ sp, build_small_primes 10001 10000 [] = some sp ∧
      (∀ p, p ∈ sp ↔ Nat.Prime p ∧ p ≤ 10000) ∧
      sp.Pairwise (· < ·) ∧ sp.Nodup ∧
      sp.head? = some 2 ∧ sp.getLast? = some 9973 ∧ sp.length = 1229 :=
  ⟨le_refl 10001, build_small_primes_table 10001 (le_refl 10001)⟩

/-! ## The reason of a Miller-Rabin failure -/

theorem millerRabinLoop_false_log (n a : Int) : ∀ (fuel : Nat) (x d : Int) (log : String),
    millerRabinLoop n a fuel x d = some (false, log) →
      log = mrBecameOne n a ∨ log = mrLoopEnded n a := by
  intro fuel
  induction fuel with
  | zero =>
    intro x d log h
    simp only [millerRabinLoop] at h
    by_cases hd : d ≠ n - 1
    · rw [if_pos hd] at h
      exact absurd h (by simp)
    · rw [if_neg hd] at h
      exact Or.inr (Prod.mk.inj (Option.some.inj h)).2.symm
  | succ fuel ih =>
    intro x d log h
    simp only [millerRabinLoop] at h
    by_cases hd : d ≠ n - 1
    · rw [if_pos hd] at h
      by_cases hn : n = 0
      · rw [if_pos hn] at h
        exact absurd h (by simp)
      · rw [if_neg hn] at h
        by_cases h1 : (x * x).tmod n = 1
        · rw [if_pos h1] at h
          exact Or.inl (Prod.mk.inj (Option.some.inj h)).2.symm
        · rw [if_neg h1] at h
          by_cases h2 : (x * x).tmod n = n - 1
          · rw [if_pos h2] at h
            exact absurd (Prod.mk.inj (Option.some.inj h)).1 (by simp)
          · rw [if_neg h2] at h
            exact ih _ _ log h
    · rw [if_neg hd] at h
      exact Or.inr (Prod.mk.inj (Option.some.inj h)).2.symm

theorem millerRabinTest_false_log (fuel : Nat) (d n a : Int) (log : String)
    (h : millerRabinTest fuel d n a = some (false, log)) :
    log = mrBecameOne n a ∨ log = mrLoopEnded n a := by
  simp only [millerRabinTest] at h
  cases hm : modpow fuel a d n with
  | none => rw [hm] at h; exact absurd h (by simp)
  | some x =>
    rw [hm] at h
    simp only [] at h
    by_cases hx : x = 1 ∨ x = n - 1
    · rw [if_pos hx] at h
      exact absurd (Prod.mk.inj (Option.some.inj h)).1 (by simp)
    · rw [if_neg hx] at h
      exact millerRabinLoop_false_log n a fuel x d log h

/-- An odd number from `10 ^ 8` on that no prime up to 10000 divides goes to the Miller-Rabin
rung. -/
theorem isPrime_reaches_mr (fuel : Nat) (n rounds : Int) (hn : 100000000 ≤ n)
    (hodd : n % 2 = 1) (hfac : ∀ p : Nat, p.Prime → p ≤ 10000 → ¬ (p : Int) ∣ n) :
    isPrime fuel (primesUpTo 10000) n rounds = isPrimeMR fuel n := by
  have h1 : ¬ n < 2 := by omega
  have hcn := toNat_cast_of_two_le n h1
  have hmain := isPrime_odd fuel 10000 n.toNat rounds (by omega) (by omega)
  rw [hcn] at hmain
  have hmf : ¬ n.toNat.minFac ≤ 10000 := by
    intro hle
    apply hfac n.toNat.minFac (Nat.minFac_prime (by omega)) hle
    rw [← hcn]
    exact Int.natCast_dvd_natCast.mpr (Nat.minFac_dvd n.toNat)
  rw [hmain, if_neg hmf]
  simp only [isPrimeTail]
  rw [if_neg (by omega)]

theorem no_small_factor_of_semiprime (p q : Nat) (hp : p.Prime) (hq : q.Prime)
    (h1 : 10000 < p) (h2 : 10000 < q) :
    ∀ r : Nat, r.Prime → r ≤ 10000 → ¬ (r : Int) ∣ ((p * q : Nat) : Int) := by
  intro r hr hle hdvd
  have hdvd' : r ∣ p * q := Int.natCast_dvd_natCast.mp hdvd
  rcases (Nat.Prime.dvd_mul hr).mp hdvd' with h | h
  · have := (Nat.prime_dvd_prime_iff_eq hr hp).mp h
    omega
  · have := (Nat.prime_dvd_prime_iff_eq hr hq).mp h
    omega

theorem no_small_factor_100160063 :
    ∀ r : Nat, r.Prime → r ≤ 10000 → ¬ (r : Int) ∣ (100160063 : Int) :=
  no_small_factor_of_semiprime 10007 10009 (by norm_num) (by norm_num) (by norm_num)
    (by norm_num)

theorem no_small_factor_404864701 :
    ∀ r : Nat, r.Prime → r ≤ 10000 → ¬ (r : Int) ∣ (404864701 : Int) :=
  no_small_factor_of_semiprime 10061 40241 (by norm_num) (by norm_num) (by norm_num)
    (by norm_num)

theorem mr_became_one_404864701 : stripTwos 29 (404864701 - 1) = some 101216175 ∧
    millerRabinTest 29 101216175 404864701 2 = some (false, mrBecameOne 404864701 2) ∧
    isPrimeMR 29 404864701 = some (false, "Failed Miller-Rabin test") := by decide!

theorem mr_loop_ended_100160063 : stripTwos 29 (100160063 - 1) = some 50080031 ∧
    millerRabinTest 29 50080031 100160063 2 = some (false, mrLoopEnded 100160063 2) ∧
    isPrimeMR 29 100160063 = some (false, "Failed Miller-Rabin test") := by decide!

/-- C17 as stated fails: for 404864701 the check fails because `x` became 1, for 100160063
because the loop ended, and `isPrime` returns the same reason for both, which is neither of
the two specific texts. -/
theorem isPrime_mr_failure_reason_counterexample :
    millerRabinTest 29 101216175 404864701 2 = some (false, mrBecameOne 404864701 2) ∧
    millerRabinTest 29 50080031 100160063 2 = some (false, mrLoopEnded 100160063 2) ∧
    isPrime 29 (primesUpTo 10000) 404864701 10 = some (false, "Failed Miller-Rabin test") ∧
    isPrime 29 (primesUpTo 10000) 100160063 10 = some (false, "Failed Miller-Rabin test") ∧
    "Failed Miller-Rabin test" ≠ mrBecameOne 404864701 2 ∧
    "Failed Miller-Rabin test" ≠ mrLoopEnded 100160063 2 := by
  refine ⟨mr_became_one_404864701.2.1, mr_loop_ended_100160063.2.1, ?_, ?_, by decide!,
    by decide!⟩
  · rw [isPrime_reaches_mr 29 404864701 10 (by decide) (by decide) no_small_factor_404864701]
    exact mr_became_one_404864701.2.2
  · rw [isPrime_reaches_mr 29 100160063 10 (by decide) (by decide) no_small_factor_100160063]
    exact mr_loop_ended_100160063.2.2

/-! ## The trace of the control loop -/

theorem system_run_append {Gen : Type} (dist : UniformIntDistribution Gen) (opened : Bool)
    (es fs : List Event) (s : System Gen) :
    system_run dist opened (es ++ fs) s = system_run dist opened fs (system_run dist opened es s) := by
  simp only [system_run, List.foldl_append]

/-- The digit lengths of the tasks in the queue. -/
theorem producer_cycles {Gen : Type} (dist : UniformIntDistribution Gen) (opened : Bool) :
    ∀ (k : Nat) (s : System Gen) (d : Int), s.pc = .head d → s.sh.stop_flag = false →
      s.sh.found_prime_flag = false → d + k ≤ 1000000 →
      (system_run dist opened (List.replicate (2 * k) Event.producer) s).pc = .head (d + k) ∧
      (system_run dist opened (List.replicate (2 * k) Event.producer) s).sh.stop_flag = false ∧
      (system_run dist opened (List.replicate (2 * k) Event.producer) s).sh.found_prime_flag
        = false ∧
      (system_run dist opened (List.replicate (2 * k) Event.producer) s).sh.state_file
        = s.sh.state_file ∧
      ((system_run dist opened (List.replicate (2 * k) Event.producer) s).sh.task_queue.map
        Prod.snd = s.sh.task_queue.map Prod.snd ++ (List.range k).map (fun i : Nat => d + (i : Int))) ∧
      (1 ≤ k →
        (system_run dist opened (List.replicate (2 * k) Event.producer) s).sh.current_digits
          = d + k) := by
  intro k
  induction k with
  | zero =>
    intro s d hpc hstop hflag _
    simp [system_run, hpc, hstop, hflag]
  | succ k ih =>
    intro s d hpc hstop hflag hd
    have hrep : List.replicate (2 * (k + 1)) Event.producer =
        [Event.producer, Event.producer] ++ List.replicate (2 * k) Event.producer := by
      have : 2 * (k + 1) = 2 + 2 * k := by omega
      rw [this, List.replicate_add]
      rfl
    rw [hrep, system_run_append]
    have hs1 : system_run dist opened [Event.producer, Event.producer] s =
        { pc := .head (d + 1), gen := (producer_enqueue dist d s.gen s.sh).1,
          sh := (producer_update d (producer_enqueue dist d s.gen s.sh).2).2 } := by
      have hupd : (producer_update d (producer_enqueue dist d s.gen s.sh).2).1 = d + 1 := by
        simp only [producer_update, producer_enqueue, max_digits]
        rw [if_neg (by simp [hflag]), if_pos (by omega)]
      simp only [system_run, List.foldl_cons, List.foldl_nil, system_step, producer_step]
      rw [hpc]
      simp only []
      rw [if_neg (by simp [hstop])]
      simp only []
      rw [hupd]
    rw [hs1]
    obtain ⟨h1, h2, h3, h4, h5, h6⟩ := ih
      { pc := .head (d + 1), gen := (producer_enqueue dist d s.gen s.sh).1,
        sh := (producer_update d (producer_enqueue dist d s.gen s.sh).2).2 } (d + 1) rfl
      (by simp [producer_update, producer_enqueue, hstop])
      (by simp [producer_update]) (by omega)
    refine ⟨?_, h2, h3, ?_, ?_, ?_⟩
    · rw [h1]
      congr 1
      push_cast
      ring
    · rw [h4]
      rfl
    · rw [h5]
      simp only [producer_update, producer_enqueue, List.map_append, List.map_cons, List.map_nil,
        List.range_succ_eq_map, List.append_assoc, List.singleton_append, List.map_map]
      congr 2
      · simp
      · apply List.map_congr_left
        intro i _
        simp only [Function.comp, Nat.succ_eq_add_one]
        push_cast
        ring
    · intro _
      rcases Nat.eq_zero_or_pos k with h0 | h0
      · subst h0
        simp only [Nat.mul_zero, List.replicate_zero, system_run, List.foldl_nil]
        simp only [producer_update, producer_enqueue, max_digits]
        rw [if_neg (by simp [hflag]), if_pos (by omega)]
        simp
      · rw [h6 h0]
        push_cast
        ring

theorem producer_stop_step {Gen : Type} (dist : UniformIntDistribution Gen) (s : System Gen)
    (d : Int) (hpc : s.pc = .head d) (hstop : s.sh.stop_flag = true) :
    producer_step dist true s =
      { s with pc := .done,
               sh := { s.sh with state_file := some (toString d ++ "\n") } } := by
  simp only [producer_step]
  rw [hpc]
  simp only []
  rw [if_pos hstop]
  rfl

theorem task_lengths_length (q : List (Int × Int)) (l : List Int) (h : q.map Prod.snd = l) :
    q.length = l.length := by
  rw [← h, List.length_map]

/-- The run in which the interrupt arrives after the update of cycle `k`. -/
theorem producer_trace_after_update {Gen : Type} (dist : UniformIntDistribution Gen) (gen : Gen)
    (store : Option String) (k : Nat) (hk : load_state store + k ≤ 1000000) :
    (system_run dist true
        (List.replicate (2 * k + 1) Event.producer ++ [Event.interrupt, Event.producer])
        (initialSystem gen store)).pc = .done ∧
    (system_run dist true
        (List.replicate (2 * k + 1) Event.producer ++ [Event.interrupt, Event.producer])
        (initialSystem gen store)).sh.task_queue.map Prod.snd
      = (List.range k).map (fun i : Nat => load_state store + (i : Int)) ∧
    (system_run dist true
        (List.replicate (2 * k + 1) Event.producer ++ [Event.interrupt, Event.producer])
        (initialSystem gen store)).sh.state_file
      = some (toString (load_state store + k) ++ "\n") ∧
    (1 ≤ k → (system_run dist true
        (List.replicate (2 * k + 1) Event.producer ++ [Event.interrupt, Event.producer])
        (initialSystem gen store)).sh.current_digits = load_state store + k) := by
  have hrep : List.replicate (2 * k + 1) Event.producer =
      [Event.producer] ++ List.replicate (2 * k) Event.producer := by
    rw [Nat.add_comm, List.replicate_add]
    rfl
  have hs1 : system_run dist true [Event.producer] (initialSystem gen store) =
      { pc := .head (load_state store), gen := gen, sh := ⟨false, false, 1, [], store⟩ } := rfl
  obtain ⟨h1, h2, h3, h4, h5, h6⟩ := producer_cycles dist true k
    { pc := .head (load_state store), gen := gen, sh := ⟨false, false, 1, [], store⟩ }
    (load_state store) rfl rfl rfl hk
  rw [hrep, system_run_append, system_run_append, hs1]
  generalize system_run dist true (List.replicate (2 * k) Event.producer)
    { pc := .head (load_state store), gen := gen, sh := ⟨false, false, 1, [], store⟩ } = X
    at h1 h2 h3 h4 h5 h6
  have hX : system_run dist true [Event.interrupt, Event.producer] X =
      producer_step dist true { X with sh := signalHandler true X.sh } := rfl
  rw [hX, producer_stop_step dist { X with sh := signalHandler true X.sh }
    (load_state store + k) h1 rfl]
  refine ⟨rfl, ?_, rfl, ?_⟩
  · simpa [signalHandler] using h5
  · intro hk1
    exact h6 hk1

/-- The run in which the interrupt arrives during the sleep of cycle `j + 1`. -/
theorem producer_trace_in_sleep {Gen : Type} (dist : UniformIntDistribution Gen) (gen : Gen)
    (store : Option String) (j : Nat) (hk : load_state store + (j + 1 : Nat) ≤ 1000000) :
    (system_run dist true
        (List.replicate (2 * (j + 1)) Event.producer ++
          [Event.interrupt, Event.producer, Event.producer])
        (initialSystem gen store)).pc = .done ∧
    (system_run dist true
        (List.replicate (2 * (j + 1)) Event.producer ++
          [Event.interrupt, Event.producer, Event.producer])
        (initialSystem gen store)).sh.task_queue.map Prod.snd
      = (List.range (j + 1)).map (fun i : Nat => load_state store + (i : Int)) ∧
    (system_run dist true
        (List.replicate (2 * (j + 1)) Event.producer ++
          [Event.interrupt, Event.producer, Event.producer])
        (initialSystem gen store)).sh.state_file
      = some (toString (load_state store + (j + 1 : Nat)) ++ "\n") ∧
    (system_run dist true
        (List.replicate (2 * (j + 1)) Event.producer ++
          [Event.interrupt, Event.producer, Event.producer])
        (initialSystem gen store)).sh.current_digits = load_state store + (j + 1 : Nat) := by
  have hrep : List.replicate (2 * (j + 1)) Event.producer =
      [Event.producer] ++ (List.replicate (2 * j) Event.producer ++ [Event.producer]) := by
    have : 2 * (j + 1) = 1 + (2 * j + 1) := by omega
    rw [this, List.replicate_add, List.replicate_add]
    rfl
  have hs1 : system_run dist true [Event.producer] (initialSystem gen store) =
      { pc := .head (load_state store), gen := gen, sh := ⟨false, false, 1, [], store⟩ } := rfl
  have hk' : load_state store + (j : Int) ≤ 1000000 := by
    push_cast at hk
    omega
  obtain ⟨h1, h2, h3, h4, h5, h6⟩ := producer_cycles dist true j
    { pc := .head (load_state store), gen := gen, sh := ⟨false, false, 1, [], store⟩ }
    (load_state store) rfl rfl rfl hk'
  rw [hrep, system_run_append, system_run_append, system_run_append, hs1]
  generalize system_run dist true (List.replicate (2 * j) Event.producer)
    { pc := .head (load_state store), gen := gen, sh := ⟨false, false, 1, [], store⟩ } = X
    at h1 h2 h3 h4 h5 h6
  have hupd : (producer_update (load_state store + (j : Int))
      (signalHandler true (producer_enqueue dist (load_state store + (j : Int)) X.gen X.sh).2)).1
      = load_state store + (j + 1 : Nat) := by
    simp only [producer_update, producer_enqueue, signalHandler, max_digits]
    rw [if_neg (by simp [h3]), if_pos (by push_cast at hk; omega)]
    push_cast
    ring
  have hY : system_run dist true [Event.interrupt, Event.producer, Event.producer]
      (system_run dist true [Event.producer] X) =
      producer_step dist true
        { pc := .head (load_state store + (j + 1 : Nat)),
          gen := (producer_enqueue dist (load_state store + (j : Int)) X.gen X.sh).1,
          sh := (producer_update (load_state store + (j : Int))
            (signalHandler true
              (producer_enqueue dist (load_state store + (j : Int)) X.gen X.sh).2)).2 } := by
    simp only [system_run, List.foldl_cons, List.foldl_nil, system_step]
    congr 1
    simp only [producer_step]
    rw [h1]
    simp only []
    rw [if_neg (by simp [h2])]
    simp only []
    rw [hupd]
  rw [hY, producer_stop_step dist _ (load_state store + (j + 1 : Nat)) rfl rfl]
  refine ⟨rfl, ?_, rfl, ?_⟩
  · simp only [producer_update, producer_enqueue, signalHandler, List.map_append, List.map_cons,
      List.map_nil]
    rw [h5, List.range_succ, List.map_append]
    simp
  · exact hupd

theorem load_state_saved (x : Int) (h1 : 1 ≤ x) (h2 : x ≤ 1000000) :
    load_state (some (toString x ++ "\n")) = x := by
  have hnl : ∀ c, ("\n" : String).toList.head? = some c → c.isDigit = false := by
    intro c hc
    have h' : some '\n' = some c := hc
    rw [← Option.some.inj h']
    decide
  rw [load_state_decimal x "\n" hnl, if_neg (by omega), if_neg (by simp only [INT_MAX]; omega)]

theorem shutdown_after_done {Gen : Type} (dist : UniformIntDistribution Gen)
    (es : List Event) (s : System Gen)
    (hpc : (system_run dist true es s).pc = .done) :
    (system_run dist true (es ++ [Event.shutdown]) s).sh.state_file =
      some (toString (system_run dist true es s).sh.current_digits ++ "\n") := by
  rw [system_run_append]
  generalize system_run dist true es s = X at hpc
  simp only [system_run, List.foldl_cons, List.foldl_nil, system_step]
  rw [hpc]
  rfl

/-- C12: starting from the loaded state `d0`, when the control loop completes exactly `k` cycles
with no found-prime signal and then observes the stop set by an interrupt (arriving after the
update of cycle `k`, or during its sleep), with `d0 + k ≤ 1,000,000`, exactly `k` tasks have
been enqueued, in order, with digit lengths `d0, ..., d0 + k - 1`, and `producer` persists
`d0 + k`, which `load_state` reads back; for `k ≥ 1` the final save of `main` writes the same
value. -/
theorem producer_trace {Gen : Type} (dist : UniformIntDistribution Gen) (gen : Gen)
    (store : Option String) (k : Nat) (es : List Event)
    (hk : load_state store + k ≤ 1000000)
    (hes : es = List.replicate (2 * k + 1) Event.producer ++ [Event.interrupt, Event.producer] ∨
      (1 ≤ k ∧ es = List.replicate (2 * k) Event.producer ++
        [Event.interrupt, Event.producer, Event.producer])) :
    (system_run dist true es (initialSystem gen store)).pc = .done ∧
    (system_run dist true es (initialSystem gen store)).sh.task_queue.map Prod.snd
      = (List.range k).map (fun i : Nat => load_state store + (i : Int)) ∧
    (system_run dist true es (initialSystem gen store)).sh.task_queue.length = k ∧
    (system_run dist true es (initialSystem gen store)).sh.state_file
      = some (toString (load_state store + k) ++ "\n") ∧
    load_state (system_run dist true es (initialSystem gen store)).sh.state_file
      = load_state store + k ∧
    (1 ≤ k → (system_run dist true (es ++ [Event.shutdown]) (initialSystem gen store)).sh.state_file
      = some (toString (load_state store + k) ++ "\n")) := by
  have hd0 := load_state_ge_one store
  have hmain : (system_run dist true es (initialSystem gen store)).pc = .done ∧
      (system_run dist true es (initialSystem gen store)).sh.task_queue.map Prod.snd
        = (List.range k).map (fun i : Nat => load_state store + (i : Int)) ∧
      (system_run dist true es (initialSystem gen store)).sh.state_file
        = some (toString (load_state store + k) ++ "\n") ∧
      (1 ≤ k → (system_run dist true es (initialSystem gen store)).sh.current_digits
        = load_state store + k) := by
    rcases hes with h | ⟨hk1, h⟩
    · rw [h]
      exact producer_trace_after_update dist gen store k hk
    · obtain ⟨j, rfl⟩ : ∃ j, k = j + 1 := ⟨k - 1, by omega⟩
      rw [h]
      obtain ⟨a, b, c, d⟩ := producer_trace_in_sleep dist gen store j hk
      exact ⟨a, b, c, fun _ => d⟩
  obtain ⟨a, b, c, d⟩ := hmain
  refine ⟨a, b, ?_, c, ?_, ?_⟩
  · rw [task_lengths_length _ _ b]
    simp
  · rw [c]
    exact load_state_saved _ (by omega) hk
  · intro hk1
    rw [shutdown_after_done dist es _ a, d hk1]

theorem producer_trace_witness :
    load_state none + (2 : Nat) ≤ 1000000 ∧
    (List.range 2).map (fun i : Nat => load_state none + (i : Int)) = [1, 2] ∧
    some (toString (load_state none + (2 : Nat)) ++ "\n") = some "3\n" ∧
    ((system_run lcgDistribution true
        (List.replicate (2 * 2 + 1) Event.producer ++ [Event.interrupt, Event.producer])
        (initialSystem 7 none)).pc = .done ∧
    (system_run lcgDistribution true
        (List.replicate (2 * 2 + 1) Event.producer ++ [Event.interrupt, Event.producer])
        (initialSystem 7 none)).sh.task_queue.map Prod.snd
      = (List.range 2).map (fun i : Nat => load_state none + (i : Int)) ∧
    (system_run lcgDistribution true
        (List.replicate (2 * 2 + 1) Event.producer ++ [Event.interrupt, Event.producer])
        (initialSystem 7 none)).sh.task_queue.length = 2 ∧
    (system_run lcgDistribution true
        (List.replicate (2 * 2 + 1) Event.producer ++ [Event.interrupt, Event.producer])
        (initialSystem 7 none)).sh.state_file
      = some (toString (load_state none + (2 : Nat)) ++ "\n") ∧
    load_state (system_run lcgDistribution true
        (List.replicate (2 * 2 + 1) Event.producer ++ [Event.interrupt, Event.producer])
        (initialSystem 7 none)).sh.state_file
      = load_state none + (2 : Nat) ∧
    (1 ≤ 2 → (system_run lcgDistribution true
        ((List.replicate (2 * 2 + 1) Event.producer ++ [Event.interrupt, Event.producer]) ++
          [Event.shutdown])
        (initialSystem 7 none)).sh.state_file
      = some (toString (load_state none + (2 : Nat)) ++ "\n"))) :=
  ⟨by decide, by decide, by decide,
   producer_trace lcgDistribution 7 none 2 _ (by decide) (Or.inl rfl)⟩

/-! ## The checkpoint written by the interrupt handler -/

/-- C13, the code at the failing input: `state.txt` holds 50.  An interrupt during the first
sleep finds `current_digits` still at its initial value and `signalHandler` writes 1, while
the task in flight has 50 digits and the next one will have 51.  An interrupt before the first
loop test ends, after the final save of `main`, with 1 in the store and no task enqueued. -/
theorem checkpoint_stale_initial_value :
    load_state (some "50\n") = 50 ∧
    (system_run lcgDistribution true [Event.producer, Event.producer, Event.interrupt]
      (initialSystem 7 (some "50\n"))).pc = .sleeping 50 ∧
    (system_run lcgDistribution true [Event.producer, Event.producer, Event.interrupt]
      (initialSystem 7 (some "50\n"))).sh.state_file = some "1\n" ∧
    (system_run lcgDistribution true
      [Event.producer, Event.interrupt, Event.producer, Event.shutdown]
      (initialSystem 7 (some "50\n"))).pc = .done ∧
    (system_run lcgDistribution true
      [Event.producer, Event.interrupt, Event.producer, Event.shutdown]
      (initialSystem 7 (some "50\n"))).sh.task_queue = [] ∧
    (system_run lcgDistribution true
      [Event.producer, Event.interrupt, Event.producer]
      (initialSystem 7 (some "50\n"))).sh.state_file = some "50\n" ∧
    (system_run lcgDistribution true
      [Event.producer, Event.interrupt, Event.producer, Event.shutdown]
      (initialSystem 7 (some "50\n"))).sh.state_file = some "1\n" := by
  decide!

/-! ## The worker pool -/

theorem wrapInt32_succ (x : Int) : wrapInt32 (wrapInt32 x + 1) = wrapInt32 (x + 1) := by
  simp only [wrapInt32]
  omega

theorem wrapInt32_of_range (x : Int) (h0 : 0 ≤ x) (h1 : x ≤ 2147483647) : wrapInt32 x = x := by
  simp only [wrapInt32]
  omega

theorem countP_set (l : List ConsumerPC) (i : Nat) (a b : ConsumerPC) (h : l[i]? = some a) :
    ((l.set i b).countP ConsumerPC.isBusy : Int) =
      (l.countP ConsumerPC.isBusy : Int) - (if a.isBusy then 1 else 0)
        + (if b.isBusy then 1 else 0) := by
  induction l generalizing i with
  | nil => simp at h
  | cons c cs ih =>
    cases i with
    | zero =>
      simp only [List.getElem?_cons_zero, Option.some.injEq] at h
      subst h
      simp only [List.set_cons_zero, List.countP_cons]
      split_ifs <;> push_cast <;> omega
    | succ i =>
      simp only [List.getElem?_cons_succ] at h
      simp only [List.set_cons_succ, List.countP_cons]
      have := ih i h
      push_cast
      rw [this]
      ring

theorem poolInv_initial (N : Nat) : PoolInv N (initialPool N) := by
  refine ⟨rfl, ?_, by simp [initialPool], by simp [initialPool]⟩
  have hc : (List.replicate N ConsumerPC.head).countP ConsumerPC.isBusy = 0 := by
    rw [List.countP_eq_zero]
    intro a ha
    rw [(List.mem_replicate.mp ha).2]
    simp [ConsumerPC.isBusy]
  simp only [initialPool, hc]
  rfl

theorem poolInv_consumer_step (N i : Nat) (p : Pool) (h : PoolInv N p) :
    PoolInv N (consumer_step i p) := by
  obtain ⟨h1, h2, h3, h4⟩ := h
  simp only [consumer_step]
  cases hget : p.consumers[i]? with
  | none => exact ⟨h1, h2, h3, h4⟩
  | some c =>
    have hi : i < N := by
      rw [← h3]
      by_contra hge
      rw [List.getElem?_eq_none (by omega)] at hget
      exact absurd hget (by simp)
    cases c with
    | head =>
      simp only []
      refine ⟨h1, ?_, by simpa using h3, h4⟩
      rw [countP_set p.consumers i _ _ hget, h2]
      by_cases hs : p.stop_flag = true
      · rw [if_pos hs]
        simp [ConsumerPC.isBusy]
      · rw [if_neg hs]
        simp [ConsumerPC.isBusy]
    | waiting =>
      simp only []
      by_cases hs : p.stop_flag = true
      · rw [if_pos hs]
        refine ⟨h1, ?_, by simpa using h3, h4⟩
        rw [countP_set p.consumers i _ _ hget, h2]
        simp [ConsumerPC.isBusy]
      · rw [if_neg hs]
        cases hq : p.task_queue with
        | nil =>
          simp only []
          exact ⟨by rw [h1, hq], h2, h3, h4⟩
        | cons job rest =>
          simp only []
          refine ⟨?_, ?_, by simpa using h3, ?_⟩
          · rw [h1, hq]
            simp
          · rw [countP_set p.consumers i _ _ hget, h2]
            simp only [ConsumerPC.isBusy, List.length_append, List.length_singleton]
            congr 1
            push_cast
            simp
          · intro e he
            rcases List.mem_append.mp he with h | h
            · exact h4 e h
            · rw [List.mem_singleton.mp h]
              exact hi
    | busy job =>
      simp only []
      refine ⟨h1, ?_, by simpa using h3, h4⟩
      rw [countP_set p.consumers i _ _ hget, h2, wrapInt32_succ]
      simp only [ConsumerPC.isBusy]
      congr 1
      simp
      ring
    | exited => exact ⟨h1, h2, h3, h4⟩

theorem poolInv_step (N : Nat) (e : PoolEvent) (p : Pool) (h : PoolInv N p) :
    PoolInv N (pool_step e p) := by
  cases e with
  | push job =>
    obtain ⟨h1, h2, h3, h4⟩ := h
    refine ⟨?_, h2, h3, h4⟩
    simp only [pool_step]
    rw [h1, List.append_assoc]
  | consumer i => exact poolInv_consumer_step N i p h
  | stop => exact h

theorem poolInv_run (N : Nat) : ∀ (es : List PoolEvent) (p : Pool), PoolInv N p →
    PoolInv N (pool_run es p) := by
  intro es
  induction es with
  | nil => intro p h; exact h
  | cons e es ih =>
    intro p h
    exact ih _ (poolInv_step N e p h)

/-- C14: in every run of `N` consumers (pushes, consumer steps and the stop, in any order), once
the queue is drained and every consumer has returned, the tasks taken are, position by
position, the `M` tasks pushed, each taken by one thread of the pool: none twice, none lost;
and `total_tests` equals `M`. -/
theorem pool_drained (N M : Nat) (es : List PoolEvent)
    (hM : (pool_run es (initialPool N)).pushed.length = M) (hint : M ≤ 2147483647)
    (hq : (pool_run es (initialPool N)).task_queue = [])
    (hex : ∀ c ∈ (pool_run es (initialPool N)).consumers, c = ConsumerPC.exited) :
    (pool_run es (initialPool N)).popped.map Prod.snd = (pool_run es (initialPool N)).pushed ∧
    (pool_run es (initialPool N)).popped.length = M ∧
    (∀ e ∈ (pool_run es (initialPool N)).popped, e.1 < N) ∧
    (pool_run es (initialPool N)).total_tests = M := by
  obtain ⟨h1, h2, _, h4⟩ := poolInv_run N es (initialPool N) (poolInv_initial N)
  generalize pool_run es (initialPool N) = p at *
  rw [hq, List.append_nil] at h1
  have hlen : p.popped.length = M := by
    rw [← hM, h1, List.length_map]
  have hbusy : p.consumers.countP ConsumerPC.isBusy = 0 := by
    rw [List.countP_eq_zero]
    intro a ha
    rw [hex a ha]
    simp [ConsumerPC.isBusy]
  refine ⟨h1.symm, hlen, h4, ?_⟩
  rw [h2, hbusy, hlen]
  simp only [Nat.cast_zero, sub_zero]
  exact wrapInt32_of_range _ (by omega) (by omega)

theorem pool_drained_witness :
    (pool_run
      [.push (11, 2), .push (13, 2), .push (15, 2), .consumer 0, .consumer 0, .consumer 1,
        .consumer 1, .consumer 0, .consumer 0, .consumer 0, .consumer 1, .consumer 0, .stop,
        .consumer 0, .consumer 1] (initialPool 2)).pushed.length = 3 ∧
    3 ≤ 2147483647 ∧
    (pool_run
      [.push (11, 2), .push (13, 2), .push (15, 2), .consumer 0, .consumer 0, .consumer 1,
        .consumer 1, .consumer 0, .consumer 0, .consumer 0, .consumer 1, .consumer 0, .stop,
        .consumer 0, .consumer 1] (initialPool 2)).task_queue = [] ∧
    (pool_run
      [.push (11, 2), .push (13, 2), .push (15, 2), .consumer 0, .consumer 0, .consumer 1,
        .consumer 1, .consumer 0, .consumer 0, .consumer 0, .consumer 1, .consumer 0, .stop,
        .consumer 0, .consumer 1] (initialPool 2)).popped = [(0, (11, 2)), (1, (13, 2)), (0, (15, 2))] ∧
    (pool_run
      [.push (11, 2), .push (13, 2), .push (15, 2), .consumer 0, .consumer 0, .consumer 1,
        .consumer 1, .consumer 0, .consumer 0, .consumer 0, .consumer 1, .consumer 0, .stop,
        .consumer 0, .consumer 1] (initialPool 2)).total_tests = (3 : Nat) :=
  ⟨by decide, by decide, by decide, by decide,
   (pool_drained 2 3
      [.push (11, 2), .push (13, 2), .push (15, 2), .consumer 0, .consumer 0, .consumer 1,
        .consumer 1, .consumer 0, .consumer 0, .consumer 0, .consumer 1, .consumer 0, .stop,
        .consumer 0, .consumer 1] (by decide) (by decide) (by decide) (by decide)).2.2.2⟩

/-! ## No odd number has `2 ^ (n - 1) = -1` -/

theorem modEq_one_of_prime_factors (m : Nat) : ∀ n : Nat, 0 < n →
    (∀ p, Nat.Prime p → p ∣ n → p ≡ 1 [MOD m]) → n ≡ 1 [MOD m] := by
  intro n
  induction n using Nat.recOnMul with
  | h0 => intro h; exact absurd h (by norm_num)
  | h1 => intro _ _; exact Nat.ModEq.refl 1
  | hp p hp => intro _ h; exact h p hp (dvd_refl p)
  | h a b iha ihb =>
    intro hpos h
    have ha : 0 < a := Nat.pos_of_ne_zero (fun h0 => by simp [h0] at hpos)
    have hb : 0 < b := Nat.pos_of_ne_zero (fun h0 => by simp [h0] at hpos)
    have h1 := iha ha (fun p hp hd => h p hp (Dvd.dvd.mul_right hd b))
    have h2 := ihb hb (fun p hp hd => h p hp (Dvd.dvd.mul_left hd a))
    simpa using Nat.ModEq.mul h1 h2

theorem two_pow_dvd_of_dvd_double (o d s : Nat) (hd : d % 2 = 1) (h1 : o ∣ d * 2 ^ (s + 1))
    (h2 : ¬ o ∣ d * 2 ^ s) : 2 ^ (s + 1) ∣ o := by
  have ho : o ≠ 0 := by
    rintro rfl
    have := Nat.eq_zero_of_zero_dvd h1
    have hpos : 0 < d * 2 ^ (s + 1) := Nat.mul_pos (by omega) (pow_pos (by norm_num) _)
    omega
  obtain ⟨t, u, hu, rfl⟩ := Nat.exists_eq_two_pow_mul_odd ho
  have hcop : Nat.Coprime u (2 ^ (s + 1)) :=
    Nat.Coprime.pow_right _ (Nat.coprime_two_left.mpr hu).symm
  have hud : u ∣ d := by
    apply Nat.Coprime.dvd_of_dvd_mul_right hcop
    exact Dvd.dvd.trans (Dvd.intro_left _ rfl) h1
  by_cases hts : t ≤ s
  · exfalso
    apply h2
    rw [Nat.mul_comm d]
    exact Nat.mul_dvd_mul (pow_dvd_pow 2 hts) hud
  · exact Dvd.dvd.mul_right (pow_dvd_pow 2 (by omega)) u

theorem prime_factor_modEq_one (N d s p : Nat) (hN : N % 2 = 1) (hd : d % 2 = 1)
    (hds : d * 2 ^ s = N - 1) (hp : Nat.Prime p) (hpN : p ∣ N)
    (h : (2 : ZMod N) ^ (N - 1) = -1) : p ≡ 1 [MOD 2 ^ (s + 1)] := by
  haveI : Fact (Nat.Prime p) := ⟨hp⟩
  have hp2 : p ≠ 2 := by
    rintro rfl
    have := Nat.mod_eq_zero_of_dvd hpN
    omega
  have hp3 : 2 < p := lt_of_le_of_ne hp.two_le (Ne.symm hp2)
  have h2ne : (2 : ZMod p) ≠ 0 := by
    intro h0
    have h' : ((2 : Nat) : ZMod p) = 0 := by exact_mod_cast h0
    have := Nat.le_of_dvd (by norm_num) ((ZMod.natCast_zmod_eq_zero_iff_dvd 2 p).mp h')
    omega
  have hneg : (-1 : ZMod p) ≠ 1 := by
    intro h1
    apply h2ne
    have : (2 : ZMod p) = 1 - (-1) := by ring
    rw [this, h1]
    ring
  have hpow : (2 : ZMod p) ^ (N - 1) = -1 := by
    have := congrArg (ZMod.castHom hpN (ZMod p)) h
    simp only [map_pow, map_neg, map_one, map_ofNat] at this
    exact this
  have ho1 : orderOf (2 : ZMod p) ∣ d * 2 ^ (s + 1) := by
    apply orderOf_dvd_of_pow_eq_one
    rw [pow_succ, ← Nat.mul_assoc, hds, pow_mul, hpow]
    ring
  have ho2 : ¬ orderOf (2 : ZMod p) ∣ d * 2 ^ s := by
    intro hdvd
    rw [hds, orderOf_dvd_iff_pow_eq_one, hpow] at hdvd
    exact hneg hdvd
  have h1 := two_pow_dvd_of_dvd_double _ d s hd ho1 ho2
  have h2 := ZMod.orderOf_dvd_card_sub_one h2ne
  exact ((Nat.modEq_iff_dvd' hp.one_lt.le).mpr (Dvd.dvd.trans h1 h2)).symm

/-- For an odd `N > 1` the last square of the Miller-Rabin sequence, `2 ^ (N - 1)`, is never
`-1` modulo `N`. -/
theorem two_pow_pred_ne_neg_one (N d s : Nat) (hN : N % 2 = 1) (h1 : 1 < N) (hd : d % 2 = 1)
    (hds : d * 2 ^ s = N - 1) : (2 : ZMod N) ^ (N - 1) ≠ -1 := by
  intro h
  have hmod := modEq_one_of_prime_factors (2 ^ (s + 1)) N (by omega)
    (fun p hp hpN => prime_factor_modEq_one N d s p hN hd hds hp hpN h)
  have hdvd : 2 ^ (s + 1) ∣ N - 1 := (Nat.modEq_iff_dvd' (by omega)).mp hmod.symm
  rw [← hds, pow_succ, Nat.mul_comm d] at hdvd
  have h2 : 2 ∣ d := by
    have := Nat.dvd_of_mul_dvd_mul_left (pow_pos (by norm_num : 0 < 2) s) hdvd
    exact this
  omega

theorem odd_part_unique (d s d' s' : Nat) (hd : d % 2 = 1) (hd' : d' % 2 = 1)
    (h : d * 2 ^ s = d' * 2 ^ s') : d = d' ∧ s = s' := by
  have key : ∀ (a b t u : Nat), a % 2 = 1 → b % 2 = 1 → t < u → a * 2 ^ t ≠ b * 2 ^ u := by
    intro a b t u ha _ htu heq
    obtain ⟨c, rfl⟩ : ∃ c, u = t + (c + 1) := ⟨u - t - 1, by omega⟩
    have heq' : a * 2 ^ t = (b * 2 ^ (c + 1)) * 2 ^ t := by
      rw [heq, pow_add]
      ring
    have h2 := Nat.eq_of_mul_eq_mul_right (pow_pos (by norm_num : 0 < 2) t) heq'
    rw [pow_succ, ← Nat.mul_assoc] at h2
    generalize b * 2 ^ c = q at h2
    omega
  rcases lt_trichotomy s s' with hlt | heq | hgt
  · exact absurd h (key d d' s s' hd hd' hlt)
  · subst heq
    exact ⟨Nat.eq_of_mul_eq_mul_right (pow_pos (by norm_num : 0 < 2) s) h, rfl⟩
  · exact absurd h.symm (key d' d s' s hd' hd hgt)

/-! ## The code's Miller-Rabin against the textbook test -/

theorem zmod_one_ne_neg_one (N : Nat) (hN : 2 < N) : (1 : ZMod N) ≠ -1 := by
  intro h
  have h2 : ((2 : Nat) : ZMod N) = 0 := by
    have : (2 : ZMod N) = 1 - (-1) := by ring
    push_cast
    rw [this, ← h]
    ring
  have := Nat.le_of_dvd (by norm_num) ((ZMod.natCast_zmod_eq_zero_iff_dvd 2 N).mp h2)
  omega

theorem int_eq_one_iff_zmod (N : Nat) (hN : 2 < N) (y : Int) (h0 : 0 ≤ y) (h1 : y < N) :
    y = 1 ↔ (y : ZMod N) = 1 := by
  constructor
  · rintro rfl
    simp
  · intro h
    apply int_eq_of_zmod_eq N y 1 h0 h1 (by omega) (by omega)
    simpa using h

theorem int_eq_pred_iff_zmod (N : Nat) (hN : 2 < N) (y : Int) (h0 : 0 ≤ y) (h1 : y < N) :
    y = (N : Int) - 1 ↔ (y : ZMod N) = -1 := by
  have hc : (((N : Int) - 1 : Int) : ZMod N) = -1 := by
    push_cast
    simp
  constructor
  · rintro rfl
    exact hc
  · intro h
    apply int_eq_of_zmod_eq N y ((N : Int) - 1) h0 h1 (by omega) (by omega)
    rw [h, hc]

/-- The verdict of the doubling loop: it accepts exactly when one of the squares it forms, up
to the exponent `N - 1` included, is `-1`. -/
theorem millerRabinLoop_spec (N : Nat) (hN : 2 < N) :
    ∀ (fuel k e : Nat) (x : Int), 0 ≤ x → x < N → (x : ZMod N) = (2 : ZMod N) ^ e →
      e * 2 ^ k = N - 1 → k ≤ fuel →
      ∃ (b : Bool) (log : String), millerRabinLoop (N : Int) 2 fuel x (e : Int) = some (b, log) ∧
        (b = true ↔ ∃ r, 1 ≤ r ∧ r ≤ k ∧ (2 : ZMod N) ^ (e * 2 ^ r) = -1) := by
  have hNpos : (0 : Int) < (N : Int) := by omega
  have hstop : ∀ (fuel e : Nat) (x : Int), e * 2 ^ 0 = N - 1 →
      ∃ (b : Bool) (log : String),
        millerRabinLoop (N : Int) 2 fuel x (e : Int) = some (b, log) ∧
          (b = true ↔ ∃ r, 1 ≤ r ∧ r ≤ 0 ∧ (2 : ZMod N) ^ (e * 2 ^ r) = -1) := by
    intro fuel e x hek
    simp only [pow_zero, mul_one] at hek
    have hd : ¬ ((e : Int) ≠ (N : Int) - 1) := by
      simp only [ne_eq, not_not]
      omega
    refine ⟨false, mrLoopEnded (N : Int) 2, ?_, ?_⟩
    · cases fuel with
      | zero => simp only [millerRabinLoop]; rw [if_neg hd]
      | succ f => simp only [millerRabinLoop]; rw [if_neg hd]
    · constructor
      · intro h
        exact absurd h (by simp)
      · rintro ⟨r, h1, h2, _⟩
        omega
  intro fuel
  induction fuel with
  | zero =>
    intro k e x _ _ _ hek hk
    have hk0 : k = 0 := by omega
    subst hk0
    exact hstop 0 e x hek
  | succ fuel ih =>
    intro k e x hx0 hxN hxe hek hk
    cases k with
    | zero => exact hstop (fuel + 1) e x hek
    | succ k =>
      have hepos : 0 < e := by
        rcases Nat.eq_zero_or_pos e with h | h
        · subst h
          simp at hek
          omega
        · exact h
      have hpow : 2 ≤ 2 ^ (k + 1) := by
        calc 2 = 2 ^ 1 := by norm_num
          _ ≤ 2 ^ (k + 1) := Nat.pow_le_pow_right (by norm_num) (by omega)
      have helt : e < N - 1 := by
        have : e * 2 ≤ e * 2 ^ (k + 1) := Nat.mul_le_mul_left e hpow
        omega
      have hdn : (e : Int) ≠ (N : Int) - 1 := by omega
      have hsq : (x * x).tmod (N : Int) = (x * x) % (N : Int) :=
        Int.tmod_eq_emod (mul_nonneg hx0 hx0) hNpos.le
      have hsq0 : 0 ≤ (x * x) % (N : Int) := Int.emod_nonneg _ hNpos.ne'
      have hsqlt : (x * x) % (N : Int) < N := Int.emod_lt_of_pos _ hNpos
      have hsqc : (((x * x) % (N : Int) : Int) : ZMod N) = (2 : ZMod N) ^ (e * 2) := by
        rw [ZMod.intCast_mod]
        push_cast
        rw [hxe, pow_mul]
        ring
      have hexp : ∀ r : Nat, e * 2 ^ (r + 1) = e * 2 * 2 ^ r := by
        intro r
        rw [pow_succ]
        ring
      simp only [millerRabinLoop]
      rw [if_pos hdn, if_neg hNpos.ne', hsq]
      by_cases h1 : (x * x) % (N : Int) = 1
      · rw [if_pos h1]
        refine ⟨false, _, rfl, ?_⟩
        constructor
        · intro h
          exact absurd h (by simp)
        · rintro ⟨r, hr1, _, hr3⟩
          exfalso
          obtain ⟨r', rfl⟩ : ∃ r', r = r' + 1 := ⟨r - 1, by omega⟩
          have hone : (2 : ZMod N) ^ (e * 2) = 1 := by
            rw [← hsqc]
            exact (int_eq_one_iff_zmod N hN _ hsq0 hsqlt).mp h1
          rw [hexp, pow_mul, hone, one_pow] at hr3
          exact zmod_one_ne_neg_one N hN hr3
      · rw [if_neg h1]
        by_cases h2 : (x * x) % (N : Int) = (N : Int) - 1
        · rw [if_pos h2]
          refine ⟨true, _, rfl, ?_⟩
          constructor
          · intro _
            refine ⟨1, le_refl 1, by omega, ?_⟩
            rw [pow_one, ← hsqc]
            exact (int_eq_pred_iff_zmod N hN _ hsq0 hsqlt).mp h2
          · intro _
            rfl
        · rw [if_neg h2]
          have hcastd : (e : Int) * 2 = ((e * 2 : Nat) : Int) := by push_cast; ring
          rw [hcastd]
          obtain ⟨b, log, hb1, hb2⟩ := ih k (e * 2) _ hsq0 hsqlt hsqc
            (by rw [← hek, pow_succ]; ring) (by omega)
          refine ⟨b, log, hb1, ?_⟩
          rw [hb2]
          constructor
          · rintro ⟨r, hr1, hr2, hr3⟩
            exact ⟨r + 1, by omega, by omega, by rw [hexp]; exact hr3⟩
          · rintro ⟨r, hr1, hr2, hr3⟩
            obtain ⟨r', rfl⟩ : ∃ r', r = r' + 1 := ⟨r - 1, by omega⟩
            rw [hexp] at hr3
            rcases Nat.eq_zero_or_pos r' with h0 | h0
            · subst h0
              exfalso
              apply h2
              apply (int_eq_pred_iff_zmod N hN _ hsq0 hsqlt).mpr
              rw [hsqc]
              simpa using hr3
            · exact ⟨r', h0, by omega, hr3⟩

/-- The verdict of the Miller-Rabin rung on an odd `N`: with `e` the odd part of `N - 1` and
`s` the number of halvings, it accepts exactly when `2 ^ e = 1` or one of
`2 ^ (e * 2 ^ r)`, `0 ≤ r ≤ s`, is `-1`. -/
theorem isPrimeMR_spec (fuel N : Nat) (hN : 2 < N) (hf : N < 2 ^ fuel) :
    ∃ (b : Bool) (reason : String) (e s : Nat), e % 2 = 1 ∧ e * 2 ^ s = N - 1 ∧
      isPrimeMR fuel (N : Int) = some (b, reason) ∧
      (b = true ↔ ((2 : ZMod N) ^ e = 1 ∨ ∃ r, r ≤ s ∧ (2 : ZMod N) ^ (e * 2 ^ r) = -1)) := by
  have hcast : (N : Int) - 1 = ((N - 1 : Nat) : Int) := by omega
  obtain ⟨e, s, h1, h2, h3⟩ := stripTwos_spec fuel (N - 1) (by omega) (by omega)
  have hele : e ≤ N - 1 := by
    rw [← h3]
    exact Nat.le_mul_of_pos_right e (pow_pos (by norm_num) s)
  obtain ⟨x, hx1, hx0, hxlt, _, hxc⟩ :=
    modpow_spec N (by omega) fuel 2 e (by norm_num) (by omega)
  have hxN : x < N := hxlt (by omega)
  have hxc' : (x : ZMod N) = (2 : ZMod N) ^ e := by
    rw [hxc]
    norm_num
  have hs : s < fuel := by
    have h4 : 2 ^ s ≤ N - 1 := by
      rw [← h3]
      exact Nat.le_mul_of_pos_left (2 ^ s) (by omega)
    exact (Nat.pow_lt_pow_iff_right (by norm_num : 1 < 2)).mp (by omega)
  have hone := int_eq_one_iff_zmod N hN x hx0 hxN
  have hpred := int_eq_pred_iff_zmod N hN x hx0 hxN
  simp only [isPrimeMR]
  rw [hcast, h1]
  simp only [millerRabinTest]
  rw [hx1]
  simp only []
  by_cases hx : x = 1 ∨ x = (N : Int) - 1
  · rw [if_pos hx]
    refine ⟨true, "Probably prime", e, s, h2, h3, rfl, ?_⟩
    constructor
    · intro _
      rcases hx with h | h
      · exact Or.inl (by rw [← hxc']; exact hone.mp h)
      · exact Or.inr ⟨0, Nat.zero_le s, by
          rw [pow_zero, mul_one, ← hxc']
          exact hpred.mp h⟩
    · intro _
      rfl
  · rw [if_neg hx]
    obtain ⟨b, log, hb1, hb2⟩ := millerRabinLoop_spec N hN fuel s e x hx0 hxN hxc' h3 (by omega)
    rw [hb1]
    have hn1 : ¬ (2 : ZMod N) ^ e = 1 := fun h => hx (Or.inl (hone.mpr (by rw [hxc']; exact h)))
    have hn2 : ¬ (2 : ZMod N) ^ e = -1 := fun h => hx (Or.inr (hpred.mpr (by rw [hxc']; exact h)))
    have hiff : b = true ↔
        ((2 : ZMod N) ^ e = 1 ∨ ∃ r, r ≤ s ∧ (2 : ZMod N) ^ (e * 2 ^ r) = -1) := by
      rw [hb2]
      constructor
      · rintro ⟨r, _, hr2, hr3⟩
        exact Or.inr ⟨r, hr2, hr3⟩
      · rintro (h | ⟨r, hr2, hr3⟩)
        · exact absurd h hn1
        · rcases Nat.eq_zero_or_pos r with h0 | h0
          · subst h0
            rw [pow_zero, mul_one] at hr3
            exact absurd hr3 hn2
          · exact ⟨r, h0, hr2, hr3⟩
    cases b with
    | false => exact ⟨false, "Failed Miller-Rabin test", e, s, h2, h3, rfl, hiff⟩
    | true => exact ⟨true, "Probably prime", e, s, h2, h3, rfl, hiff⟩

theorem zmod_pow_eq_iff_modEq (N : Nat) (m : Nat) (c : Int) :
    (2 : ZMod N) ^ m = (c : ZMod N) ↔ (2 : Int) ^ m ≡ c [ZMOD (N : Int)] := by
  rw [← ZMod.intCast_eq_intCast_iff]
  push_cast
  rfl

/-- The code's test and the textbook test agree on every odd `N > 2`: the extra square, with
exponent `N - 1`, is never `-1`. -/
theorem isPrimeMR_iff_strong_probable_prime (fuel N : Nat) (hN : 2 < N) (hodd : N % 2 = 1)
    (hf : N < 2 ^ fuel) :
    ∃ (b : Bool) (reason : String), isPrimeMR fuel (N : Int) = some (b, reason) ∧
      (b = true ↔ StrongProbablePrimeBase2 N) := by
  obtain ⟨b, reason, e, s, he, hes, hres, hiff⟩ := isPrimeMR_spec fuel N hN hf
  refine ⟨b, reason, hres, ?_⟩
  have hlast := two_pow_pred_ne_neg_one N e s hodd (by omega) he hes
  have h1 : (2 : ZMod N) ^ e = 1 ↔ (2 : Int) ^ e ≡ 1 [ZMOD (N : Int)] := by
    have := zmod_pow_eq_iff_modEq N e 1
    simpa using this
  have h2 : ∀ r, (2 : ZMod N) ^ (e * 2 ^ r) = -1 ↔
      (2 : Int) ^ (e * 2 ^ r) ≡ -1 [ZMOD (N : Int)] := by
    intro r
    have := zmod_pow_eq_iff_modEq N (e * 2 ^ r) (-1)
    simpa using this
  rw [hiff]
  constructor
  · rintro (h | ⟨r, hr1, hr2⟩)
    · exact ⟨e, s, he, hes.symm, Or.inl (h1.mp h)⟩
    · have hrs : r ≠ s := by
        rintro rfl
        rw [hes] at hr2
        exact hlast hr2
      exact ⟨e, s, he, hes.symm, Or.inr ⟨r, by omega, (h2 r).mp hr2⟩⟩
  · rintro ⟨d', s', hd', hds', h⟩
    obtain ⟨rfl, rfl⟩ := odd_part_unique d' s' e s hd' he (by rw [← hds', hes])
    rcases h with h | ⟨r, hr1, hr2⟩
    · exact Or.inl (h1.mpr h)
    · exact Or.inr ⟨r, by omega, (h2 r).mpr hr2⟩

/-- C15: for every odd `n ≥ 10 ^ 8` that no prime up to 10000 divides, `isPrime`, with fuel
for the bits of `n`, returns a verdict, and the verdict is true exactly when `n` is a strong
probable prime to base 2 in the textbook sense; the extra squaring of the code's loop never
changes the verdict. -/
theorem isPrime_iff_strong_probable_prime (f fuel : Nat) (sp : List Nat) (n rounds : Int)
    (hsp : build_small_primes f 10000 [] = some sp) (hn : 100000000 ≤ n) (hodd : n % 2 = 1)
    (hfac : ∀ p : Nat, p.Prime → p ≤ 10000 → ¬ (p : Int) ∣ n) (hf : n < 2 ^ fuel) :
    ∃ (b : Bool) (reason : String), isPrime fuel sp n rounds = some (b, reason) ∧
      (b = true ↔ StrongProbablePrimeBase2 n.toNat) := by
  rw [table_eq f sp hsp, isPrime_reaches_mr fuel n rounds hn hodd hfac]
  have hcn : ((n.toNat : Nat) : Int) = n := by omega
  have hfN : n.toNat < 2 ^ fuel := by
    have : ((n.toNat : Nat) : Int) < ((2 ^ fuel : Nat) : Int) := by
      rw [hcn]
      push_cast
      exact hf
    exact_mod_cast this
  have := isPrimeMR_iff_strong_probable_prime fuel n.toNat (by omega) (by omega) hfN
  rw [hcn] at this
  exact this

theorem isPrime_iff_strong_probable_prime_witness :
    build_small_primes 10001 10000 [] = some ([] ++ primesUpTo 10000) ∧
    (100000000 : Int) ≤ 100160063 ∧ (100160063 : Int) % 2 = 1 ∧ (100160063 : Int) < 2 ^ 29 ∧
    ∃ (b : Bool) (reason : String),
      isPrime 29 ([] ++ primesUpTo 10000) 100160063 10 = some (b, reason) ∧
      (b = true ↔ StrongProbablePrimeBase2 (100160063 : Int).toNat) :=
  ⟨build_small_primes_eq 10001 10000 [] (by norm_num) (by norm_num) (by norm_num),
   by decide, by decide, by decide,
   isPrime_iff_strong_probable_prime 10001 29 ([] ++ primesUpTo 10000) 100160063 10
     (build_small_primes_eq 10001 10000 [] (by norm_num) (by norm_num) (by norm_num))
     (by decide) (by decide) no_small_factor_100160063 (by decide)⟩

/-! ## Worker pool size -/

theorem toInt32_of_lt (h : Nat) (hh : h < 2147483648) : toInt32 h = (h : Int) := by
  have hmod : h % 4294967296 = h := Nat.mod_eq_of_lt (by omega)
  simp only [toInt32]
  rw [hmod, if_pos hh]

theorem toInt32_of_ge (h : Nat) (h1 : 2147483648 ≤ h) (h2 : h < 4294967296) :
    toInt32 h = (h : Int) - 4294967296 := by
  have hmod : h % 4294967296 = h := Nat.mod_eq_of_lt h2
  simp only [toInt32]
  rw [hmod, if_neg (by omega)]

/-- `atoi` on the decimal form of a non-negative integer: the integer itself within the range of
`int`, no defined result beyond. -/
theorem atoi_toString (N : Int) (h0 : 0 ≤ N) :
    atoi (toString N) = if N ≤ INT_MAX then some N else none := by
  obtain ⟨n, rfl⟩ : ∃ n : Nat, N = (n : Int) := ⟨N.toNat, by omega⟩
  obtain ⟨h1, h2, h3⟩ := toDigits_spec n
  have hlist : (toString ((n : Nat) : Int)).toList = Nat.toDigits 10 n := rfl
  cases hds : Nat.toDigits 10 n with
  | nil => exact absurd hds h1
  | cons d ds =>
    have hd : d.isDigit = true := h2 d (by rw [hds]; exact List.mem_cons_self d ds)
    have hdrop : (d :: ds).dropWhile isSpace = d :: ds :=
      List.dropWhile_cons_of_neg (by simp [isSpace_false_of_isDigit d hd])
    have htake : (d :: ds).takeWhile Char.isDigit = d :: ds := by
      have := takeWhile_digits_append (d :: ds) [] (by rw [← hds]; exact h2) (by simp)
      rwa [List.append_nil] at this
    have hneg : ¬ d = '-' := fun h => ne_sign_of_isDigit d hd (Or.inl h)
    have hval : digitsValue (d :: ds) = n := by rw [← hds]; exact h3
    simp only [atoi]
    rw [hlist, hds, hdrop]
    simp only []
    rw [if_neg (ne_sign_of_isDigit d hd), htake, if_neg hneg, hval]
    by_cases hmax : (n : Int) ≤ INT_MAX
    · rw [if_pos ⟨by simp only [INT_MIN]; omega, hmax⟩, if_pos hmax]
    · rw [if_neg (fun h => hmax h.2), if_neg hmax]

/-- C18 (amended): with no argument and a host core count `h` (an `unsigned`), `main` starts
`h - 1` consumer threads when `1 ≤ h ≤ 64` and 3 when `h = 0` or `h > 64` (the count is replaced
by 4, not clamped); with a first argument that is the decimal form of `N`, `1 ≤ N ≤ 2147483647`,
it starts `N - 1` consumer threads, and beyond the range of `int` the result of `atoi` is not
defined.  One more thread runs `producer`. -/
theorem main_consumers_started_eq (h : Nat) (N : Int) :
    (1 ≤ h → h ≤ 64 → main_consumers_started h [] = some (h - 1)) ∧
    (h = 0 → main_consumers_started h [] = some 3) ∧
    (64 < h → h < 4294967296 → main_consumers_started h [] = some 3) ∧
    (1 ≤ N → N ≤ 2147483647 → main_consumers_started h [toString N] = some (N.toNat - 1)) ∧
    (2147483647 < N → main_consumers_started h [toString N] = none) := by
  refine ⟨?_, ?_, ?_, ?_, ?_⟩
  · intro h1 h64
    have hnt : main_num_threads h [] = some (h : Int) := by
      simp only [main_num_threads]
      rw [toInt32_of_lt h (by omega), if_neg (by simp only [MAX_THREADS]; omega)]
    simp only [main_consumers_started]
    rw [hnt]
    simp only []
    rw [if_neg (by simp only [INT_MIN]; omega)]
    congr 1
    omega
  · rintro rfl
    rfl
  · intro h64 hlt
    have hnt : main_num_threads h [] = some 4 := by
      simp only [main_num_threads]
      by_cases hh : h < 2147483648
      · rw [toInt32_of_lt h hh, if_pos (Or.inr (by simp only [MAX_THREADS]; omega))]
      · rw [toInt32_of_ge h (by omega) hlt, if_pos (Or.inl (by omega))]
    simp only [main_consumers_started]
    rw [hnt]
    rfl
  · intro h1 hmax
    have hnt : main_num_threads h [toString N] = some N := by
      simp only [main_num_threads]
      rw [atoi_toString N (by omega), if_pos (by simp only [INT_MAX]; omega)]
    simp only [main_consumers_started]
    rw [hnt]
    simp only []
    rw [if_neg (by simp only [INT_MIN]; omega)]
    congr 1
    omega
  · intro hbig
    have hnt : main_num_threads h [toString N] = none := by
      simp only [main_num_threads]
      rw [atoi_toString N (by omega), if_neg (by simp only [INT_MAX]; omega)]
    simp only [main_consumers_started]
    rw [hnt]

theorem main_consumers_started_eq_witness :
    (1 : Int) ≤ 5 ∧ (5 : Int) ≤ 2147483647 ∧
    main_consumers_started 8 [toString (5 : Int)] = some ((5 : Int).toNat - 1) :=
  ⟨by decide, by decide, (main_consumers_started_eq 8 5).2.2.2.1 (by decide) (by decide)⟩

/-- C18 as stated fails for `h = 8` (7 consumers, not 8), for `h = 100` (3 consumers, not 64)
and for the argument `N = 5` (4 consumers, not 5). -/
theorem main_consumers_started_counterexample :
    main_consumers_started 8 [] = some 7 ∧ main_consumers_started 8 [] ≠ some (min 8 64) ∧
    main_consumers_started 100 [] = some 3 ∧ main_consumers_started 100 [] ≠ some (min 100 64) ∧
    main_consumers_started 8 ["5"] = some 4 ∧ main_consumers_started 8 ["5"] ≠ some 5 := by
  decide

/-! ## The two texts of a Miller-Rabin failure -/

/-- The two texts written to `cerr` differ, whatever `n` and the base. -/
theorem mrBecameOne_ne_mrLoopEnded (n a : Int) : mrBecameOne n a ≠ mrLoopEnded n a := by
  intro h
  have hdata := congrArg String.data h
  simp only [mrBecameOne, mrLoopEnded, String.data_append, List.append_assoc] at hdata
  have h1 := List.append_cancel_left (List.append_cancel_left hdata)
  have h2 := congrArg (fun l : List Char => l[4]?) h1
  have h3 : (some 'x' : Option Char) = some 'l' := h2
  exact absurd h3 (by decide)

theorem mul_two_pow_eq_self (e k : Nat) (he : 0 < e) (h : e * 2 ^ k = e) : k = 0 := by
  rcases Nat.eq_zero_or_pos k with h0 | h0
  · exact h0
  · exfalso
    have hpow : 2 ≤ 2 ^ k := by
      calc 2 = 2 ^ 1 := by norm_num
        _ ≤ 2 ^ k := Nat.pow_le_pow_right (by norm_num) h0
    have : e * 2 ≤ e * 2 ^ k := Nat.mul_le_mul_left e hpow
    omega

/-- A failing run of the doubling loop writes the text "x became 1" exactly when one of the
squares it forms is 1, and the text "loop ended" exactly when none is. -/
theorem millerRabinLoop_log (N : Nat) (hN : 2 < N) :
    ∀ (fuel k e : Nat) (x : Int) (log : String), 0 ≤ x → x < N →
      (x : ZMod N) = (2 : ZMod N) ^ e → e * 2 ^ k = N - 1 →
      millerRabinLoop (N : Int) 2 fuel x (e : Int) = some (false, log) →
      (log = mrBecameOne (N : Int) 2 ∧ ∃ r, 1 ≤ r ∧ r ≤ k ∧ (2 : ZMod N) ^ (e * 2 ^ r) = 1) ∨
      (log = mrLoopEnded (N : Int) 2 ∧
        ∀ r, 1 ≤ r → r ≤ k → (2 : ZMod N) ^ (e * 2 ^ r) ≠ 1) := by
  have hNpos : (0 : Int) < (N : Int) := by omega
  have hend : ∀ (k e : Nat) (log : String), e * 2 ^ k = N - 1 → (e : Int) = (N : Int) - 1 →
      (false, mrLoopEnded (N : Int) 2) = (false, log) →
      (log = mrBecameOne (N : Int) 2 ∧ ∃ r, 1 ≤ r ∧ r ≤ k ∧ (2 : ZMod N) ^ (e * 2 ^ r) = 1) ∨
      (log = mrLoopEnded (N : Int) 2 ∧
        ∀ r, 1 ≤ r → r ≤ k → (2 : ZMod N) ^ (e * 2 ^ r) ≠ 1) := by
    intro k e log hek he hlog
    have hk0 : k = 0 := mul_two_pow_eq_self e k (by omega) (by omega)
    refine Or.inr ⟨(Prod.mk.inj hlog).2.symm, ?_⟩
    intro r h1 h2
    omega
  intro fuel
  induction fuel with
  | zero =>
    intro k e x log _ _ _ hek h
    simp only [millerRabinLoop] at h
    by_cases hd : (e : Int) ≠ (N : Int) - 1
    · rw [if_pos hd] at h
      exact absurd h (by simp)
    · rw [if_neg hd] at h
      exact hend k e log hek (by simpa using hd) (Option.some.inj h)
  | succ fuel ih =>
    intro k e x log hx0 hxN hxe hek h
    simp only [millerRabinLoop] at h
    by_cases hd : (e : Int) ≠ (N : Int) - 1
    · rw [if_pos hd, if_neg hNpos.ne'] at h
      have hsq : (x * x).tmod (N : Int) = (x * x) % (N : Int) :=
        Int.tmod_eq_emod (mul_nonneg hx0 hx0) hNpos.le
      have hsq0 : 0 ≤ (x * x) % (N : Int) := Int.emod_nonneg _ hNpos.ne'
      have hsqlt : (x * x) % (N : Int) < N := Int.emod_lt_of_pos _ hNpos
      have hsqc : (((x * x) % (N : Int) : Int) : ZMod N) = (2 : ZMod N) ^ (e * 2) := by
        rw [ZMod.intCast_mod]
        push_cast
        rw [hxe, pow_mul]
        ring
      have hexp : ∀ r : Nat, e * 2 ^ (r + 1) = e * 2 * 2 ^ r := by
        intro r
        rw [pow_succ]
        ring
      rw [hsq] at h
      obtain ⟨k', rfl⟩ : ∃ k', k = k' + 1 := by
        rcases Nat.eq_zero_or_pos k with h0 | h0
        · subst h0
          simp only [pow_zero, mul_one] at hek
          exact absurd (by omega : (e : Int) = (N : Int) - 1) hd
        · exact ⟨k - 1, by omega⟩
      by_cases h1 : (x * x) % (N : Int) = 1
      · rw [if_pos h1] at h
        refine Or.inl ⟨(Prod.mk.inj (Option.some.inj h)).2.symm, 1, le_refl 1, by omega, ?_⟩
        rw [pow_one, ← hsqc]
        exact (int_eq_one_iff_zmod N hN _ hsq0 hsqlt).mp h1
      · rw [if_neg h1] at h
        by_cases h2 : (x * x) % (N : Int) = (N : Int) - 1
        · rw [if_pos h2] at h
          exact absurd (Prod.mk.inj (Option.some.inj h)).1 (by simp)
        · rw [if_neg h2] at h
          have hcastd : (e : Int) * 2 = ((e * 2 : Nat) : Int) := by push_cast; ring
          rw [hcastd] at h
          rcases ih k' (e * 2) _ log hsq0 hsqlt hsqc (by rw [← hek, pow_succ]; ring) h with
            ⟨hl, r, hr1, hr2, hr3⟩ | ⟨hl, hall⟩
          · exact Or.inl ⟨hl, r + 1, by omega, by omega, by rw [hexp]; exact hr3⟩
          · refine Or.inr ⟨hl, ?_⟩
            intro r hr1 hr2
            obtain ⟨r', rfl⟩ : ∃ r', r = r' + 1 := ⟨r - 1, by omega⟩
            rw [hexp]
            rcases Nat.eq_zero_or_pos r' with h0 | h0
            · subst h0
              rw [pow_zero, mul_one, ← hsqc]
              exact fun hc => h1 ((int_eq_one_iff_zmod N hN _ hsq0 hsqlt).mpr hc)
            · exact hall r' h0 (by omega)
    · rw [if_neg hd] at h
      exact hend k e log hek (by simpa using hd) (Option.some.inj h)

/-- Whatever the fuel, a result of the stripping loop on a positive number is its odd part. -/
theorem stripTwos_result (fuel m : Nat) (d : Int) (hm : 0 < m)
    (h : stripTwos fuel (m : Int) = some d) :
    ∃ e s : Nat, d = (e : Int) ∧ e % 2 = 1 ∧ e * 2 ^ s = m := by
  have hmono := stripTwos_mono fuel m (m : Int) d h
  have hlt : m < 2 ^ (fuel + m) :=
    lt_of_lt_of_le (Nat.lt_two_pow m) (Nat.pow_le_pow_right (by norm_num) (by omega))
  obtain ⟨e, s, h1, h2, h3⟩ := stripTwos_spec (fuel + m) m hm hlt
  rw [h1] at hmono
  exact ⟨e, s, (Option.some.inj hmono).symm, h2, h3⟩

/-- Whatever the fuel, a result of `modpow` with base 2 is the residue of the power. -/
theorem modpow_result (fuel N e : Nat) (x : Int) (hN : 0 < N) (he : 0 < e)
    (h : modpow fuel 2 (e : Int) (N : Int) = some x) :
    0 ≤ x ∧ x < N ∧ (x : ZMod N) = (2 : ZMod N) ^ e := by
  have hmono := modpow_mono fuel e 2 (e : Int) (N : Int) x h
  have hlt : e < 2 ^ (fuel + e) :=
    lt_of_lt_of_le (Nat.lt_two_pow e) (Nat.pow_le_pow_right (by norm_num) (by omega))
  obtain ⟨y, h1, h2, h3, _, h5⟩ := modpow_spec N hN (fuel + e) 2 e (by norm_num) hlt
  rw [h1] at hmono
  have hxy : y = x := Option.some.inj hmono
  subst hxy
  refine ⟨h2, h3 he, ?_⟩
  rw [h5]
  norm_num

/-- C17 (amended): when the base-2 Miller-Rabin check fails for a candidate `n` that reaches it,
`isPrime` returns composite with the one reason "Failed Miller-Rabin test" in both cases.  The
two cases are told apart only by the text `millerRabinTest` writes to `cerr`: with
`n - 1 = d * 2 ^ s`, it is the text "x became 1" exactly when one of the squares
`2 ^ (d * 2 ^ r)`, `1 ≤ r ≤ s`, is 1 modulo `n`, and the text "loop ended" exactly when none
is; the two texts differ. -/
theorem isPrime_mr_failure_reason (f fuel : Nat) (sp : List Nat) (n rounds d : Int)
    (log : String) (hsp : build_small_primes f 10000 [] = some sp) (hn : 100000000 ≤ n)
    (hodd : n % 2 = 1) (hfac : ∀ p : Nat, p.Prime → p ≤ 10000 → ¬ (p : Int) ∣ n)
    (hd : stripTwos fuel (n - 1) = some d)
    (hmr : millerRabinTest fuel d n 2 = some (false, log)) :
    isPrime fuel sp n rounds = some (false, "Failed Miller-Rabin test") ∧
    mrBecameOne n 2 ≠ mrLoopEnded n 2 ∧
    ∃ s : Nat, d * 2 ^ s = n - 1 ∧
      (log = mrBecameOne n 2 ↔
        ∃ r : Nat, 1 ≤ r ∧ r ≤ s ∧ (2 : Int) ^ (d.toNat * 2 ^ r) ≡ 1 [ZMOD n]) ∧
      (log = mrLoopEnded n 2 ↔
        ∀ r : Nat, 1 ≤ r → r ≤ s → ¬ (2 : Int) ^ (d.toNat * 2 ^ r) ≡ 1 [ZMOD n]) := by
  have hne := mrBecameOne_ne_mrLoopEnded n 2
  refine ⟨?_, hne, ?_⟩
  · rw [table_eq f sp hsp, isPrime_reaches_mr fuel n rounds hn hodd hfac]
    simp only [isPrimeMR]
    rw [hd]
    simp only []
    rw [hmr]
    rfl
  · obtain ⟨N, rfl⟩ : ∃ N : Nat, n = (N : Int) := ⟨n.toNat, by omega⟩
    have hN : 2 < N := by omega
    have hcast : (N : Int) - 1 = ((N - 1 : Nat) : Int) := by omega
    rw [hcast] at hd
    obtain ⟨e, s, rfl, he, hes⟩ := stripTwos_result fuel (N - 1) d (by omega) hd
    have hepos : 0 < e := by omega
    simp only [millerRabinTest] at hmr
    cases hm : modpow fuel 2 (e : Int) (N : Int) with
    | none => rw [hm] at hmr; exact absurd hmr (by simp)
    | some x =>
      rw [hm] at hmr
      simp only [] at hmr
      by_cases hx : x = 1 ∨ x = (N : Int) - 1
      · rw [if_pos hx] at hmr
        exact absurd (Prod.mk.inj (Option.some.inj hmr)).1 (by simp)
      · rw [if_neg hx] at hmr
        obtain ⟨hx0, hxN, hxc⟩ := modpow_result fuel N e x (by omega) hepos hm
        have hmod : ∀ r : Nat, (2 : ZMod N) ^ (e * 2 ^ r) = 1 ↔
            (2 : Int) ^ (e * 2 ^ r) ≡ 1 [ZMOD (N : Int)] := by
          intro r
          have := zmod_pow_eq_iff_modEq N (e * 2 ^ r) 1
          simpa using this
        refine ⟨s, by rw [hcast, ← hes]; push_cast; ring, ?_⟩
        rw [Int.toNat_natCast]
        rcases millerRabinLoop_log N hN fuel s e x log hx0 hxN hxc hes hmr with
          ⟨hl, r, hr1, hr2, hr3⟩ | ⟨hl, hall⟩
        · constructor
          · exact ⟨fun _ => ⟨r, hr1, hr2, (hmod r).mp hr3⟩, fun _ => hl⟩
          · constructor
            · intro hl'
              exact absurd (hl.symm.trans hl') hne
            · intro hall'
              exact absurd ((hmod r).mp hr3) (hall' r hr1 hr2)
        · constructor
          · constructor
            · intro hl'
              exact absurd (hl'.symm.trans hl) hne
            · rintro ⟨r, hr1, hr2, hr3⟩
              exact absurd ((hmod r).mpr hr3) (hall r hr1 hr2)
          · exact ⟨fun _ r hr1 hr2 hc => hall r hr1 hr2 ((hmod r).mpr hc), fun _ => hl⟩

theorem isPrime_mr_failure_reason_witness :
    build_small_primes 10001 10000 [] = some ([] ++ primesUpTo 10000) ∧
    (100000000 : Int) ≤ 404864701 ∧ (404864701 : Int) % 2 = 1 ∧
    stripTwos 29 (404864701 - 1) = some 101216175 ∧
    millerRabinTest 29 101216175 404864701 2 = some (false, mrBecameOne 404864701 2) ∧
    (isPrime 29 ([] ++ primesUpTo 10000) 404864701 10 = some (false, "Failed Miller-Rabin test") ∧
    mrBecameOne 404864701 2 ≠ mrLoopEnded 404864701 2 ∧
    ∃ s : Nat, (101216175 : Int) * 2 ^ s = 404864701 - 1 ∧
      (mrBecameOne 404864701 2 = mrBecameOne 404864701 2 ↔
        ∃ r : Nat, 1 ≤ r ∧ r ≤ s ∧
          (2 : Int) ^ ((101216175 : Int).toNat * 2 ^ r) ≡ 1 [ZMOD 404864701]) ∧
      (mrBecameOne 404864701 2 = mrLoopEnded 404864701 2 ↔
        ∀ r : Nat, 1 ≤ r → r ≤ s →
          ¬ (2 : Int) ^ ((101216175 : Int).toNat * 2 ^ r) ≡ 1 [ZMOD 404864701])) :=
  ⟨build_small_primes_eq 10001 10000 [] (by norm_num) (by norm_num) (by norm_num),
   by decide, by decide, mr_became_one_404864701.1, mr_became_one_404864701.2.1,
   isPrime_mr_failure_reason 10001 29 ([] ++ primesUpTo 10000) 404864701 10 101216175
     (mrBecameOne 404864701 2)
     (build_small_primes_eq 10001 10000 [] (by norm_num) (by norm_num) (by norm_num))
     (by decide) (by decide) no_small_factor_404864701 mr_became_one_404864701.1
     mr_became_one_404864701.2.1⟩

/-! ## The found-prime signal -/

theorem system_step_flag {Gen : Type} (dist : UniformIntDistribution Gen) (opened : Bool)
    (e : Event) (s : System Gen) (h : s.sh.found_prime_flag = false) :
    (system_step dist opened e s).sh.found_prime_flag = false := by
  cases e with
  | producer =>
    simp only [system_step, producer_step]
    cases hpc : s.pc with
    | start => exact h
    | head digits =>
      simp only []
      by_cases hs : s.sh.stop_flag = true
      · rw [if_pos hs]
        exact h
      · rw [if_neg hs]
        exact h
    | sleeping digits => rfl
    | done => exact h
  | interrupt => exact h
  | shutdown =>
    simp only [system_step]
    cases hpc : s.pc with
    | start => exact h
    | head digits => exact h
    | sleeping digits => exact h
    | done => exact h

/-- No run of the program ever has the found-prime flag set, however many primes the consumers
find: the only access to the flag is the read-and-clear of `producer`. -/
theorem found_prime_flag_never_set {Gen : Type} (dist : UniformIntDistribution Gen)
    (opened : Bool) (gen : Gen) (store : Option String) (es : List ProgramEvent) :
    (program_run dist opened es (initialProgram gen store)).sys.sh.found_prime_flag = false := by
  have key : ∀ (es : List ProgramEvent) (p : Program Gen), p.sys.sh.found_prime_flag = false →
      (program_run dist opened es p).sys.sh.found_prime_flag = false := by
    intro es
    induction es with
    | nil => intro p h; exact h
    | cons e es ih =>
      intro p h
      apply ih
      cases e with
      | system ev => exact system_step_flag dist opened ev p.sys h
      | tested prime => exact h
  exact key es _ rfl

theorem isPrime_seven (fuel : Nat) (rounds : Int) :
    isPrime fuel (primesUpTo 10000) 7 rounds = some (true, "Small prime") := by
  have hmin : Nat.minFac 7 = 7 := by norm_num
  have h := isPrime_odd fuel 10000 7 rounds (by norm_num) (by norm_num)
  rw [if_pos (by rw [hmin]; norm_num)] at h
  simp only [trialVerdict] at h
  rw [if_pos hmin] at h
  exact h

/-- C10, the code at the failing input: no `state.txt`, the generator draws the candidate 7 at
digit length 1, a consumer tests it and `isPrime` returns prime.  The consumer counts the prime
in `total_primes_found` and the found-prime flag stays clear, so the read-and-clear of
`producer` finds nothing and the next digit length is 2, not 1. -/
theorem found_prime_not_signalled :
    (program_run lcgDistribution true
      [.system .producer, .system .producer]
      (initialProgram 6 none)).sys.sh.task_queue = [(7, 1)] ∧
    isPrime 0 (primesUpTo 10000) 7 10 = some (true, "Small prime") ∧
    (program_run lcgDistribution true
      [.system .producer, .system .producer, .tested true]
      (initialProgram 6 none)).total_primes_found = 1 ∧
    (program_run lcgDistribution true
      [.system .producer, .system .producer, .tested true]
      (initialProgram 6 none)).sys.sh.found_prime_flag = false ∧
    (program_run lcgDistribution true
      [.system .producer, .system .producer, .tested true, .system .producer]
      (initialProgram 6 none)).sys.pc = .head 2 ∧
    (program_run lcgDistribution true
      [.system .producer, .system .producer, .tested true, .system .producer,
        .system .producer]
      (initialProgram 6 none)).sys.sh.task_queue.map Prod.snd = [1, 2] := by
  refine ⟨by decide!, isPrime_seven 0 10, by decide!, by decide!, by decide!, by decide!⟩

end PrimeLogger
